import Mathlib

/-!
Verification of the `dfa-regex` crate: a regular-expression engine that parses a
pattern into an expression tree, builds a nondeterministic finite automaton by
Thompson's construction, determinizes it by subset construction, and matches
whole strings against the resulting DFA.

The Rust source is shallowly embedded: `HashMap`s become association lists,
`HashSet`s become duplicate-free lists maintained by `insertS`, the `u32` state
counters become `Nat`, and the imperative loops of `from_nfa` become
fuel-indexed recursive functions returning `Option` (`none` = fuel exhausted);
the fuel bounds are proved sufficient, which is exactly the termination claim
for those loops.
-/

namespace DfaRegex

/-! ## Association-list and set-list primitives (models of HashMap / HashSet) -/

/-- Lookup in an association list (model of `HashMap::get`). -/
def lookupA {α β : Type} [DecidableEq α] : List (α × β) → α → Option β
  | [], _ => none
  | (k, v) :: rest, k' => if k' = k then some v else lookupA rest k'

/-- Insert an element into a set-list if absent (model of `HashSet::insert`). -/
def insertS {α : Type} [DecidableEq α] (xs : List α) (x : α) : List α :=
  if x ∈ xs then xs else xs ++ [x]

/-- Insert every element of `ys` (model of `HashSet::extend`). -/
def extendS {α : Type} [DecidableEq α] (xs ys : List α) : List α :=
  ys.foldl insertS xs

/-- Set union producing a set-list (model of `HashSet::union(..).collect()`). -/
def unionS {α : Type} [DecidableEq α] (xs ys : List α) : List α :=
  extendS xs ys

/-- Update the value at key `k` (defaulting to `d` when the key is absent, as
`entry(k).or_insert(d)` does) by `f`; absent keys are appended at the end. -/
def updateA {α β : Type} [DecidableEq α] (k : α) (d : β) (f : β → β) :
    List (α × β) → List (α × β)
  | [] => [(k, f d)]
  | (k', v) :: rest =>
    if k = k' then (k, f v) :: rest else (k', v) :: updateA k d f rest

/-! ## Expression tree (`parser.rs`, `enum Node`) -/

/-- `Node` from `parser.rs`: the five expression-tree variants. -/
inductive Node : Type
  | character (c : Char)
  | empty
  | star (n : Node)
  | union (a b : Node)
  | concat (a b : Node)
deriving DecidableEq, Repr

/-- The language denoted by an expression tree, following the semantics of
spec section 4.1: `Literal` matches exactly that one symbol, `Empty` the empty
string, `Star` zero or more repetitions of its child, `Union` either branch,
`Concat` the left followed by the right. -/
def lang : Node → List Char → Prop
  | .character c, w => w = [c]
  | .empty, w => w = []
  | .star n, w => ∃ parts : List (List Char), (∀ p ∈ parts, lang n p) ∧ w = parts.flatten
  | .union a b, w => lang a w ∨ lang b w
  | .concat a b, w => ∃ u v, lang a u ∧ lang b v ∧ w = u ++ v

/-! ## NFA (`automaton/nfa.rs`) -/

/-- `NFAState(u32)`: an opaque integer identifier. -/
abbrev NFAState := Nat

/-- Transition table of the NFA:
`HashMap<NFAState, HashMap<Option<char>, HashSet<NFAState>>>`. -/
abbrev NTrans := List (Nat × List (Option Char × List Nat))

/-- `NondeterministicFiniteAutomaton` from `nfa.rs`. -/
structure NFA : Type where
  start : Nat
  accepts : List Nat
  trans : NTrans
deriving DecidableEq, Repr

namespace NFA

/-- `next_chars`: the labels of all outgoing edges of `state`. -/
def nextChars (nfa : NFA) (state : Nat) : List (Option Char) :=
  match lookupA nfa.trans state with
  | some table => table.map Prod.fst
  | none => []

/-- `next_states`: the destinations of the edges labelled `char` out of `state`. -/
def nextStates (nfa : NFA) (state : Nat) (char : Option Char) : List Nat :=
  match lookupA nfa.trans state with
  | some table =>
    match lookupA table char with
    | some tos => tos
    | none => []
  | none => []

/-- `_insert_transition`: add one edge `from --char--> to`. -/
def insertTransition (nfa : NFA) (source : Nat) (dst : Nat)
    (char : Option Char) : NFA :=
  { nfa with
    trans := updateA source [] (updateA char [] (fun tos => insertS tos dst)) nfa.trans }

/-- `add_transition`. -/
def addTransition (nfa : NFA) (source : Nat) (char : Char) (dst : Nat) : NFA :=
  nfa.insertTransition source dst (some char)

/-- `add_empty_transition`. -/
def addEmptyTransition (nfa : NFA) (source : Nat) (dst : Nat) : NFA :=
  nfa.insertTransition source dst none

/-- `merge_transition`: fold all edges of `other` into `nfa`'s table. -/
def mergeTransition (nfa : NFA) (other : NFA) : NFA :=
  { nfa with
    trans := other.trans.foldl (fun acc entry =>
      entry.2.foldl (fun acc2 ct =>
        updateA entry.1 [] (updateA ct.1 [] (fun tos => extendS tos ct.2)) acc2)
        acc) nfa.trans }

end NFA

/-- `NondeterministicFiniteAutomaton::new`. -/
def NFA.mk' (start : Nat) (accepts : List Nat) : NFA :=
  { start := start, accepts := accepts, trans := [] }

/-- `Node::assemble`, with the builder `Context`'s `state_count` threaded
explicitly; returns the fragment and the updated counter. -/
def assemble : Node → Nat → NFA × Nat
  | .character c, n =>
    let start := n
    let accept := n + 1
    ((NFA.mk' start [accept]).addTransition start c accept, n + 2)
  | .empty, n =>
    let start := n
    let accept := n + 1
    ((NFA.mk' start [accept]).addEmptyTransition start accept, n + 2)
  | .star node, n =>
    let (frag, n1) := assemble node n
    let start := n1
    let accepts := unionS frag.accepts [start]
    let nfa := ((NFA.mk' start accepts).mergeTransition frag).addEmptyTransition
      start frag.start
    (frag.accepts.foldl (fun acc a => acc.addEmptyTransition a frag.start) nfa, n1 + 1)
  | .union node1 node2, n =>
    let (frag1, n1) := assemble node1 n
    let (frag2, n2) := assemble node2 n1
    let start := n2
    let accepts := unionS frag1.accepts frag2.accepts
    ((((NFA.mk' start accepts).mergeTransition frag1).mergeTransition frag2)
        |>.addEmptyTransition start frag1.start
        |>.addEmptyTransition start frag2.start, n2 + 1)
  | .concat node1 node2, n =>
    let (frag1, n1) := assemble node1 n
    let (frag2, n2) := assemble node2 n1
    let nfa := ((NFA.mk' frag1.start frag2.accepts).mergeTransition frag1).mergeTransition
      frag2
    (frag1.accepts.foldl (fun acc a => acc.addEmptyTransition a frag2.start) nfa, n2)

/-- `NondeterministicFiniteAutomaton::from_node`. -/
def fromNode (node : Node) : NFA :=
  (assemble node 0).1

/-! ## NFA runs (semantic reference used to state correctness) -/

/-- A run of the NFA from state `q` consuming word `w` and ending in state `r`;
epsilon edges consume nothing. -/
inductive NRun (nfa : NFA) : Nat → List Char → Nat → Prop
  | refl (q : Nat) : NRun nfa q [] q
  | eps {q p r : Nat} {w : List Char} :
      p ∈ nfa.nextStates q none → NRun nfa p w r → NRun nfa q w r
  | char {q p r : Nat} {c : Char} {w : List Char} :
      p ∈ nfa.nextStates q (some c) → NRun nfa p w r → NRun nfa q (c :: w) r

/-- The NFA accepts `w` iff some accepting state is reachable from the start
state consuming exactly `w`. -/
def nfaAccepts (nfa : NFA) (w : List Char) : Prop :=
  ∃ q, q ∈ nfa.accepts ∧ NRun nfa nfa.start w q

/-- The set of states reachable from members of `S` by epsilon edges only. -/
def epsReach (nfa : NFA) (S : Set Nat) : Set Nat :=
  { x | ∃ q ∈ S, NRun nfa q [] x }

/-- A set of states closed under epsilon transitions. -/
def EpsClosed (nfa : NFA) (S : Set Nat) : Prop :=
  ∀ q ∈ S, ∀ p ∈ nfa.nextStates q none, p ∈ S

/-! ## DFA (`automaton/dfa.rs`) -/

/-- `DFAState(u32)`. -/
abbrev DFAState := Nat

/-- `Context` from `dfa.rs`: the canonicalization map from sorted lists of NFA
states to DFA state identifiers, plus the next-identifier counter. -/
structure Context : Type where
  stateCount : Nat
  stateMap : List (List Nat × Nat)
deriving DecidableEq, Repr

/-- `Context::new`. -/
def Context.new : Context := ⟨0, []⟩

/-- The `sorted_states.sort()` step of `get_state` (sorts, does not deduplicate). -/
def sortStates (states : List Nat) : List Nat :=
  List.insertionSort (· ≤ ·) states

/-- `Context::get_state`: canonicalize a list of NFA states to a DFA state
identifier, assigning the next sequential identifier on first occurrence. -/
def Context.getState (ctx : Context) (states : List Nat) : Nat × Context :=
  let sorted := sortStates states
  match lookupA ctx.stateMap sorted with
  | some s => (s, ctx)
  | none =>
    (ctx.stateCount,
      { stateCount := ctx.stateCount + 1,
        stateMap := ctx.stateMap ++ [(sorted, ctx.stateCount)] })

/-- `DeterministicFiniteAutomaton`. -/
structure DFA : Type where
  start : Nat
  accepts : List Nat
  trans : List ((Nat × Char) × Nat)
deriving DecidableEq, Repr

/-- `DeterministicFiniteAutomaton::next_state`. -/
def DFA.nextState (dfa : DFA) (state : Nat) (char : Char) : Option Nat :=
  lookupA dfa.trans (state, char)

/-- `HashMap::insert`: set the value at a key unconditionally. -/
def insertA {α β : Type} [DecidableEq α] (m : List (α × β)) (k : α) (v : β) :
    List (α × β) :=
  updateA k v (fun _ => v) m

/-! ### The epsilon-closure walks of `from_nfa` (fuel-indexed) -/

/-- The start-state closure loop of `from_nfa` (dfa.rs lines 45-58): pop a
state from the stack, push it into `ret`, and push its epsilon successors not
already in `ret`. `none` means the fuel ran out. -/
def startClosureLoop (nfa : NFA) :
    Nat → List Nat → List Nat → Option (List Nat)
  | 0, _, _ => none
  | fuel + 1, ret, stack =>
    match stack with
    | [] => some ret
    | state :: stack' =>
      let ret' := ret ++ [state]
      let next := nfa.nextStates state none
      startClosureLoop nfa fuel ret'
        (next.filter (fun s => decide (s ∉ ret')) ++ stack')

/-- The per-symbol closure loop of `from_nfa` (dfa.rs lines 86-90): pop a
state, push its epsilon successors that are not yet collected, and append all
of its epsilon successors to the collection. -/
def epsExtendLoop (nfa : NFA) :
    Nat → List Nat → List Nat → Option (List Nat)
  | 0, _, _ => none
  | fuel + 1, acc, stack =>
    match stack with
    | [] => some acc
    | state :: stack' =>
      let next := nfa.nextStates state none
      epsExtendLoop nfa fuel (acc ++ next)
        (next.filter (fun s => decide (s ∉ acc)) ++ stack')

/-- The closure computation of dfa.rs lines 81-90 over an arbitrary seed list:
stack the seeds that have epsilon successors, then run the closure loop. -/
def epsClosureFrom (nfa : NFA) (fuel : Nat) (seeds : List Nat) :
    Option (List Nat) :=
  epsExtendLoop nfa fuel seeds
    (seeds.filter (fun s => decide (nfa.nextStates s none ≠ [])))

/-- The per-(state, symbol) target-set computation of `from_nfa` (dfa.rs lines
76-90): seed with the `c`-successors of `look_state` chained with `look_state`'s
own epsilon successors, then close. -/
def symbolClosure (nfa : NFA) (fuel : Nat) (lookState : Nat) (c : Char) :
    Option (List Nat) :=
  epsClosureFrom nfa fuel
    (nfa.nextStates lookState (some c) ++ nfa.nextStates lookState none)

/-- Folding the non-epsilon keys of one `look_state` into `transition_map`
(dfa.rs lines 70-95, inner `for char in ...` loop). -/
def charFold (nfa : NFA) (fuel : Nat) (lookState : Nat) :
    List (Option Char) → List (Char × List Nat) →
    Option (List (Char × List Nat))
  | [], tmap => some tmap
  | none :: rest, tmap => charFold nfa fuel lookState rest tmap
  | some c :: rest, tmap =>
    match symbolClosure nfa fuel lookState c with
    | none => none
    | some ns =>
      charFold nfa fuel lookState rest
        (updateA c [] (fun old => extendS old ns) tmap)

/-- Building `transition_map` for one popped state-set (dfa.rs lines 69-96,
outer `for look_state in &look_states` loop). -/
def buildTMap (nfa : NFA) (fuel : Nat) :
    List Nat → List (Char × List Nat) →
    Option (List (Char × List Nat))
  | [], tmap => some tmap
  | lookState :: rest, tmap =>
    match charFold nfa fuel lookState (nfa.nextChars lookState) tmap with
    | none => none
    | some tmap' => buildTMap nfa fuel rest tmap'

/-! ### The work-list exploration loop of `from_nfa` -/

/-- The mutable state of the exploration loop: the canonicalization context,
the transition table `ret`, the work-list `waiting` (head = top of the stack)
and the `visited` set. -/
structure BuildSt : Type where
  ctx : Context
  table : List ((Nat × Char) × Nat)
  waiting : List (List Nat)
  visited : List Nat
deriving DecidableEq, Repr

/-- Recording the transitions of one expansion (dfa.rs lines 99-106, the
`for (char, next_states) in transition_map` loop); also returns the list of
DFA state identifiers pushed onto the work-list, newest first. -/
def recordTransitions (formState : Nat) :
    List (Char × List Nat) → BuildSt → BuildSt × List Nat
  | [], st => (st, [])
  | (c, nextStatesList) :: rest, st =>
    let toState := (st.ctx.getState nextStatesList).1
    let ctx' := (st.ctx.getState nextStatesList).2
    let pushedNow : List Nat := if toState ∈ st.visited then [] else [toState]
    let waiting' :=
      if toState ∈ st.visited then st.waiting else nextStatesList :: st.waiting
    let table' := insertA st.table (formState, c) toState
    let res := recordTransitions formState rest
      { ctx := ctx', table := table', waiting := waiting', visited := st.visited }
    (res.1, res.2 ++ pushedNow)

/-- One iteration of the exploration loop body (dfa.rs lines 64-106) on a
popped state-set `look`: mark it visited, build its transition map, and record
its transitions. Returns the new state, the canonical identifier of the popped
set, and the identifiers pushed. -/
def expandStep (nfa : NFA) (fuel : Nat) (look : List Nat) (st : BuildSt) :
    Option (BuildSt × Nat × List Nat) :=
  let id0 := (st.ctx.getState look).1
  let ctx1 := (st.ctx.getState look).2
  let visited' := insertS st.visited id0
  match buildTMap nfa fuel look [] with
  | none => none
  | some tmap =>
    let formState := (ctx1.getState look).1
    let ctx2 := (ctx1.getState look).2
    let res := recordTransitions formState tmap
      { st with ctx := ctx2, visited := visited' }
    some (res.1, id0, res.2)

/-- The `while let Some(look_states) = waiting.pop()` loop of `from_nfa`. -/
def worklistLoop (nfa : NFA) (fuel : Nat) : Nat → BuildSt → Option BuildSt
  | 0, _ => none
  | wfuel + 1, st =>
    match st.waiting with
    | [] => some st
    | look :: waiting' =>
      match expandStep nfa fuel look { st with waiting := waiting' } with
      | none => none
      | some (st', _, _) => worklistLoop nfa fuel wfuel st'

/-- Work-list events: popping (and expanding) a canonical state, and pushing
one onto the work-list. -/
inductive Ev : Type
  | pop (id : Nat)
  | push (id : Nat)
deriving DecidableEq, Repr

/-- The work-list loop instrumented with an event trace (chronological order);
its `BuildSt` component coincides with `worklistLoop` (proved below). -/
def worklistLoopE (nfa : NFA) (fuel : Nat) :
    Nat → BuildSt → List Ev → Option (BuildSt × List Ev)
  | 0, _, _ => none
  | wfuel + 1, st, evs =>
    match st.waiting with
    | [] => some (st, evs)
    | look :: waiting' =>
      match expandStep nfa fuel look { st with waiting := waiting' } with
      | none => none
      | some (st', id0, pushed) =>
        worklistLoopE nfa fuel wfuel st'
          (evs ++ Ev.pop id0 :: (pushed.reverse.map Ev.push))

/-- The canonical identifiers popped (= expanded), in order. -/
def popsOf (evs : List Ev) : List Nat :=
  evs.filterMap (fun e => match e with | .pop i => some i | .push _ => none)

/-- The accepting-state computation of `from_nfa` (dfa.rs lines 111-119). -/
def buildAccepts (nfa : NFA) (ctx : Context) : List Nat :=
  ctx.stateMap.foldl
    (fun acc e => if e.1.any (fun s => decide (s ∈ nfa.accepts)) then insertS acc e.2
      else acc) []

/-- `DeterministicFiniteAutomaton::from_nfa`, with explicit fuel for the
closure walks (`fuelC`) and the work-list loop (`fuelW`). -/
def fromNfaFuel (nfa : NFA) (fuelC fuelW : Nat) : Option DFA :=
  match startClosureLoop nfa fuelC [nfa.start] (nfa.nextStates nfa.start none) with
  | none => none
  | some startStates =>
    let start := (Context.new.getState startStates).1
    let ctx0 := (Context.new.getState startStates).2
    match worklistLoop nfa fuelC fuelW
        { ctx := ctx0, table := [], waiting := [startStates], visited := [] } with
    | none => none
    | some st =>
      some { start := start, accepts := buildAccepts nfa st.ctx, trans := st.table }

/-- Every state identifier mentioned by the NFA. -/
def statesOf (nfa : NFA) : List Nat :=
  nfa.start :: nfa.accepts ++ nfa.trans.flatMap (fun e => e.1 :: e.2.flatMap (·.2))

/-- An upper bound on the length of any `next_states` result. -/
def transSize (nfa : NFA) : Nat :=
  (nfa.trans.map (fun e => (e.2.map (fun ct => ct.2.length)).sum)).sum + 1

/-- An upper bound on the number of distinct edge labels (and hence on the
size of any `transition_map`). -/
def charCount (nfa : NFA) : Nat :=
  (nfa.trans.map (fun e => e.2.length)).sum + 1

/-- The non-epsilon labels appearing in the transition table. -/
def charsOf (nfa : NFA) : List Char :=
  nfa.trans.flatMap (fun e => e.2.filterMap (fun ct => ct.1))

/-- How many states of the NFA are not yet in `seen`: the measure decreasing
along the closure walks. -/
def missCount (nfa : NFA) (seen : List Nat) : Nat :=
  ((statesOf nfa).dedup.filter (fun x => decide (x ∉ seen))).length

/-- Fuel sufficient for every epsilon-closure walk (proved below). -/
def closureFuel (nfa : NFA) : Nat :=
  (2 * transSize nfa + 2) * ((statesOf nfa).dedup.length + 1) +
    (statesOf nfa).length + transSize nfa + 2

/-- Fuel sufficient for the work-list loop (proved below). -/
def worklistFuel (nfa : NFA) : Nat :=
  (2 * charCount nfa + 2) * (2 ^ (statesOf nfa).dedup.length + 2) +
    charCount nfa + 2

/-- `from_nfa` with its canonical (sufficient) fuel. -/
def fromNfa (nfa : NFA) : Option DFA :=
  fromNfaFuel nfa (closureFuel nfa) (worklistFuel nfa)

/-- The event trace of the work-list exploration performed by `from_nfa`. -/
def fromNfaTrace (nfa : NFA) : Option (List Ev) :=
  match startClosureLoop nfa (closureFuel nfa) [nfa.start]
      (nfa.nextStates nfa.start none) with
  | none => none
  | some startStates =>
    let ctx0 := (Context.new.getState startStates).2
    (worklistLoopE nfa (closureFuel nfa) (worklistFuel nfa)
        { ctx := ctx0, table := [], waiting := [startStates], visited := [] } []).map
      Prod.snd

/-! ## Matcher (`lib.rs`, `Regex::matches`) -/

/-- The `for char in text.chars()` loop of `Regex::matches`. -/
def matchLoop (dfa : DFA) (current : Nat) : List Char → Bool
  | [] => decide (current ∈ dfa.accepts)
  | c :: rest =>
    match dfa.nextState current c with
    | some state => matchLoop dfa state rest
    | none => false

/-- `Regex::matches`. -/
def DFA.matches (dfa : DFA) (text : List Char) : Bool :=
  matchLoop dfa dfa.start text

/-! ## Lexer (`lexer.rs`) -/

/-- `Token` from `lexer.rs`. -/
inductive Token : Type
  | character (c : Char)
  | unionOperator
  | starOperator
  | leftParen
  | rightParen
  | endOfFile
deriving DecidableEq, Repr

/-- `Lexer::scan`: produce the next token and the remaining input. `none`
models the panic of `self.string.next().unwrap()` when a backslash is the last
character of the pattern. -/
def scan : List Char → Option (Token × List Char)
  | [] => some (.endOfFile, [])
  | '\\' :: rest =>
    match rest with
    | [] => none
    | c2 :: rest2 => some (.character c2, rest2)
  | '|' :: rest => some (.unionOperator, rest)
  | '(' :: rest => some (.leftParen, rest)
  | ')' :: rest => some (.rightParen, rest)
  | '*' :: rest => some (.starOperator, rest)
  | c :: rest => some (.character c, rest)

/-- `Display for Token` (lexer.rs lines 14-26). -/
def tokenDisplay : Token → String
  | .character _ => "Character"
  | .unionOperator => "|"
  | .starOperator => "*"
  | .leftParen => "("
  | .rightParen => ")"
  | .endOfFile => "EOF"

/-- `error_msg` from `parser.rs` (the surrounding quote glyphs of the Rust
format string are left out of the embedding; no claim inspects them). -/
def errorMsg (expected : List Token) (actual : Token) : String :=
  let e := String.intercalate ", " (expected.map tokenDisplay)
  let a := match actual with
    | .character c => String.mk [c]
    | other => tokenDisplay other
  "Expected one of [" ++ e ++ "], found " ++ a

/-! ## Parser (`parser.rs`), fuel-indexed recursive descent -/

/-- Outcome of a parser nonterminal: a `Result<Node, String>` together with
the parser state (`look` and the unconsumed input) — the state is meaningful
on error paths too, because the Rust parser keeps consuming after storing an
error value — or a lexer panic, or fuel exhaustion (proved unreachable). -/
inductive PRes : Type
  | res (r : Except String Node) (look : Token) (rest : List Char)
  | panic
  | outOfFuel
deriving Repr

mutual

/-- `sub_expression := sequence '|' sub_expression | sequence` -/
def pSubExpression : Nat → Token → List Char → PRes
  | 0, _, _ => .outOfFuel
  | fuel + 1, look, rest =>
    match pSequence fuel look rest with
    | .panic => .panic
    | .outOfFuel => .outOfFuel
    | .res seqR look1 rest1 =>
      match look1 with
      | .unionOperator =>
        match scan rest1 with
        | none => .panic
        | some (look2, rest2) =>
          match seqR with
          | .error e => .res (.error e) look2 rest2
          | .ok seqNode =>
            match pSubExpression fuel look2 rest2 with
            | .panic => .panic
            | .outOfFuel => .outOfFuel
            | .res (.error e) look3 rest3 => .res (.error e) look3 rest3
            | .res (.ok rhs) look3 rest3 =>
              .res (.ok (.union seqNode rhs)) look3 rest3
      | _ => .res seqR look1 rest1

/-- `sequence := sub_sequence | ''` -/
def pSequence : Nat → Token → List Char → PRes
  | 0, _, _ => .outOfFuel
  | fuel + 1, look, rest =>
    match look with
    | .leftParen => pSubSequence fuel look rest
    | .character _ => pSubSequence fuel look rest
    | _ => .res (.ok .empty) look rest

/-- `sub_sequence := star sub_sequence | star` -/
def pSubSequence : Nat → Token → List Char → PRes
  | 0, _, _ => .outOfFuel
  | fuel + 1, look, rest =>
    match pStar fuel look rest with
    | .panic => .panic
    | .outOfFuel => .outOfFuel
    | .res starR look1 rest1 =>
      match look1 with
      | .leftParen =>
        match starR with
        | .error e => .res (.error e) look1 rest1
        | .ok starNode =>
          match pSubSequence fuel look1 rest1 with
          | .panic => .panic
          | .outOfFuel => .outOfFuel
          | .res (.error e) look2 rest2 => .res (.error e) look2 rest2
          | .res (.ok rhs) look2 rest2 =>
            .res (.ok (.concat starNode rhs)) look2 rest2
      | .character _ =>
        match starR with
        | .error e => .res (.error e) look1 rest1
        | .ok starNode =>
          match pSubSequence fuel look1 rest1 with
          | .panic => .panic
          | .outOfFuel => .outOfFuel
          | .res (.error e) look2 rest2 => .res (.error e) look2 rest2
          | .res (.ok rhs) look2 rest2 =>
            .res (.ok (.concat starNode rhs)) look2 rest2
      | _ => .res starR look1 rest1

/-- `star := factor '*' | factor` -/
def pStar : Nat → Token → List Char → PRes
  | 0, _, _ => .outOfFuel
  | fuel + 1, look, rest =>
    match pFactor fuel look rest with
    | .panic => .panic
    | .outOfFuel => .outOfFuel
    | .res factR look1 rest1 =>
      match look1 with
      | .starOperator =>
        match scan rest1 with
        | none => .panic
        | some (look2, rest2) =>
          match factR with
          | .error e => .res (.error e) look2 rest2
          | .ok f => .res (.ok (.star f)) look2 rest2
      | _ => .res factR look1 rest1

/-- `factor := '(' subexpr ')' | Character` -/
def pFactor : Nat → Token → List Char → PRes
  | 0, _, _ => .outOfFuel
  | fuel + 1, look, rest =>
    match look with
    | .leftParen =>
      match scan rest with
      | none => .panic
      | some (look1, rest1) =>
        match pSubExpression fuel look1 rest1 with
        | .panic => .panic
        | .outOfFuel => .outOfFuel
        | .res nodeR look2 rest2 =>
          match look2 with
          | .rightParen =>
            match scan rest2 with
            | none => .panic
            | some (look3, rest3) => .res nodeR look3 rest3
          | other => .res (.error (errorMsg [.rightParen] other)) look2 rest2
    | .character c =>
      match scan rest with
      | none => .panic
      | some (look1, rest1) => .res (.ok (.character c)) look1 rest1
    | other =>
      .res (.error (errorMsg [.leftParen, .character '_'] other)) look rest

end

/-- `expression := sub_expression EOF` -/
def pExpression (fuel : Nat) (look : Token) (rest : List Char) : PRes :=
  match pSubExpression fuel look rest with
  | .panic => .panic
  | .outOfFuel => .outOfFuel
  | .res expR look1 rest1 =>
    match look1 with
    | .endOfFile =>
      match scan rest1 with
      | none => .panic
      | some (look2, rest2) => .res expR look2 rest2
    | other => .res (.error (errorMsg [.endOfFile] other)) look1 rest1

/-- Fuel sufficient for the recursive-descent parser (proved below). -/
def parserFuel (pattern : List Char) : Nat :=
  6 * pattern.length + 18

/-- `Parser::new` followed by `Parser::parse`: scan the first token, then
parse an `expression`. -/
def parsePattern (pattern : List Char) : PRes :=
  match scan pattern with
  | none => .panic
  | some (look, rest) => pExpression (parserFuel pattern) look rest

/-! ## `Regex::new` (`lib.rs`) -/

/-- Outcome of `Regex::new`: `Ok(Regex)`, `Err(message)`, a panic, or fuel
exhaustion of the embedding (proved unreachable). -/
inductive NewRes : Type
  | ok (dfa : DFA)
  | error (msg : String)
  | panic
  | outOfFuel
deriving DecidableEq, Repr

/-- `Regex::new`: parse, build the NFA, determinize. -/
def regexNew (pattern : List Char) : NewRes :=
  match parsePattern pattern with
  | .panic => .panic
  | .outOfFuel => .outOfFuel
  | .res (.error e) _ _ => .error e
  | .res (.ok node) _ _ =>
    match fromNfa (fromNode node) with
    | none => .outOfFuel
    | some dfa => .ok dfa

/-- Well-formedness of a canonicalization context: the counter equals the map
size and the `i`-th inserted key holds identifier `i`. Holds for `Context::new`
and is preserved by `get_state`. -/
def Context.WF (ctx : Context) : Prop :=
  ctx.stateCount = ctx.stateMap.length ∧
  ctx.stateMap.map Prod.snd = List.range ctx.stateMap.length

/-- Modelled from the spec, section 4.3: start at the DFA's start state; for
each symbol in order, look up the transition; if absent, reject immediately
without consuming further input; otherwise move to the resulting state; after
all symbols are consumed, accept iff the current state is in the accepting
set. -/
def specMatchRun (dfa : DFA) : Nat → List Char → Bool
  | current, [] => decide (current ∈ dfa.accepts)
  | current, c :: rest =>
    match dfa.nextState current c with
    | none => false
    | some next => specMatchRun dfa next rest

/-- The NFAs on which the builder's per-symbol closure agrees with the
specification: no state with an outgoing symbol key also has epsilon
out-edges. All NFAs produced by `from_node` satisfy this (see claim C10). -/
def NoMixed (nfa : NFA) : Prop :=
  ∀ q c, some c ∈ nfa.nextChars q → nfa.nextStates q none = []

/-- The NFA `0 --a--> 1, 0 --ε--> 2` on which the claim fails: state `0` has
both a symbol edge and an epsilon edge. -/
def nfaMixedC2 : NFA :=
  ((NFA.mk' 0 [2]).addTransition 0 'a' 1).addEmptyTransition 0 2

/-- No duplicate keys at either level of the nested table. -/
def WFTable (t : NTrans) : Prop :=
  (t.map Prod.fst).Nodup ∧ ∀ e ∈ t, (e.2.map Prod.fst).Nodup

/-- Abbreviation for nested lookup in a raw table. -/
def getNext (m : NTrans) (q : Nat) (oc : Option Char) : List Nat :=
  (lookupA ((lookupA m q).getD []) oc).getD []

/-- `lo ≤ x < hi` on plain naturals (stated on `Nat` so that arithmetic
automation applies directly). -/
def InRange (lo hi x : Nat) : Prop := lo ≤ x ∧ x < hi

/-- All states mentioned by a fragment lie in `[lo, hi)`. -/
def StateIn (nfa : NFA) (lo hi : Nat) : Prop :=
  InRange lo hi nfa.start ∧
  (∀ a ∈ nfa.accepts, InRange lo hi a) ∧
  (∀ q oc x, x ∈ nfa.nextStates q oc → InRange lo hi q ∧ InRange lo hi x)

/-- Every stored target list of the table is nonempty. -/
def ValuesNonempty (t : NTrans) : Prop := ∀ e ∈ t, ∀ ct ∈ e.2, ct.2 ≠ []

/-- The push discipline along an event trace: starting from the set `seen` of
already-visited identifiers, every `push i` happens while `i` is unvisited,
and every `pop i` marks `i` visited. -/
def PushesSafe : List Nat → List Ev → Prop
  | _, [] => True
  | seen, (Ev.pop i) :: rest => PushesSafe (insertS seen i) rest
  | seen, (Ev.push i) :: rest => i ∉ seen ∧ PushesSafe seen rest

/-- An NFA on which the work-list loop expands one canonical state twice: two
distinct symbols lead from the start state to the same target state, so the
target's canonical identifier is pushed twice while still unvisited and is
later popped (and expanded) twice. -/
def nfaC8 : NFA :=
  ((NFA.mk' 0 [1]).addTransition 0 'a' 1).addTransition 0 'b' 1

/-- `c2` extends `c1`: the canonicalization map only grows by appending, so
identifiers already assigned remain assigned. -/
def CtxLE (c1 c2 : Context) : Prop :=
  ∃ ext, c2.stateMap = c1.stateMap ++ ext

/-- A duplicate-free list of states of `nfa` (the shape of every list the
work-list loop pushes). -/
def GoodList (nfa : NFA) (l : List Nat) : Prop :=
  l.Nodup ∧ ∀ x ∈ l, x ∈ statesOf nfa

/-- The number of canonical identifiers the context can ever assign while
exploring `nfa`: one per subset of the state set, plus one for the start list
(which may contain duplicates). -/
def keyBound (nfa : NFA) : Nat :=
  2 ^ (statesOf nfa).dedup.length + 1

/-- The invariant of the work-list exploration loop: the context is
well-formed with distinct keys, every key canonicalizes either the start list
`start0` or a duplicate-free list of states, likewise every waiting list, and
every visited identifier was assigned by the context. -/
def WInv (nfa : NFA) (start0 : List Nat) (st : BuildSt) : Prop :=
  st.ctx.WF ∧
  (st.ctx.stateMap.map Prod.fst).Nodup ∧
  (∀ k ∈ st.ctx.stateMap, ∃ l, k.1 = sortStates l ∧
    (l = start0 ∨ GoodList nfa l)) ∧
  (∀ w ∈ st.waiting, w = start0 ∨ GoodList nfa w) ∧
  (∀ i ∈ st.visited, i < st.ctx.stateCount)

/-- The semantic invariant of the work-list loop used for claim C1: every
transition already recorded leads from a represented state-set to the
canonical state of the epsilon-closed set of its `c`-successors, and the
target is either already expanded or still pending; and every expanded
state-set has a recorded transition for each symbol leaving it. -/
def CInv (nfa : NFA) (st : BuildSt) : Prop :=
  (∀ id c tid, lookupA st.table ((id, c)) = some tid →
    ∃ L target, lookupA st.ctx.stateMap (sortStates L) = some id ∧
      lookupA st.ctx.stateMap (sortStates target) = some tid ∧
      (∀ y, y ∈ target ↔ y ∈ epsReach nfa
        { x | ∃ q ∈ L, x ∈ nfa.nextStates q (some c) }) ∧
      (tid ∈ st.visited ∨ ∃ W ∈ st.waiting,
        lookupA st.ctx.stateMap (sortStates W) = some tid)) ∧
  (∀ id, id ∈ st.visited →
    ∀ L, lookupA st.ctx.stateMap (sortStates L) = some id →
    ∀ c, (∃ q ∈ L, some c ∈ nfa.nextChars q) →
      (lookupA st.table ((id, c))).isSome = true)

/-- The start set's identifier is `0` and the start set is expanded or
pending. -/
def StartClause (start0 : List Nat) (st : BuildSt) : Prop :=
  lookupA st.ctx.stateMap (sortStates start0) = some 0 ∧
  (0 ∈ st.visited ∨ start0 ∈ st.waiting)

/-! # Lemmas -/

/-! ## Set-list and association-list lemmas -/

theorem mem_insertS {α : Type} [DecidableEq α] {xs : List α} {x y : α} :
    y ∈ insertS xs x ↔ y ∈ xs ∨ y = x := by
  unfold insertS
  split
  · constructor
    · exact Or.inl
    · rintro (h | rfl) <;> assumption
  · simp [List.mem_append]

theorem mem_extendS {α : Type} [DecidableEq α] {ys xs : List α} {y : α} :
    y ∈ extendS xs ys ↔ y ∈ xs ∨ y ∈ ys := by
  induction ys generalizing xs with
  | nil => simp [extendS]
  | cons z zs ih =>
    show y ∈ extendS (insertS xs z) zs ↔ _
    rw [ih, mem_insertS]
    simp only [List.mem_cons]
    tauto

theorem mem_unionS {α : Type} [DecidableEq α] {xs ys : List α} {y : α} :
    y ∈ unionS xs ys ↔ y ∈ xs ∨ y ∈ ys :=
  mem_extendS

theorem lookupA_nil {α β : Type} [DecidableEq α] (k : α) :
    lookupA ([] : List (α × β)) k = none := rfl

theorem lookupA_cons {α β : Type} [DecidableEq α] (k k' : α) (v : β)
    (rest : List (α × β)) :
    lookupA ((k', v) :: rest) k = if k = k' then some v else lookupA rest k := rfl

theorem lookupA_mem {α β : Type} [DecidableEq α] {m : List (α × β)} {k : α} {v : β}
    (h : lookupA m k = some v) : (k, v) ∈ m := by
  induction m with
  | nil => simp [lookupA_nil] at h
  | cons e rest ih =>
    obtain ⟨k', v'⟩ := e
    rw [lookupA_cons] at h
    by_cases hk : k = k'
    · rw [if_pos hk] at h
      obtain rfl := Option.some_injective _ h
      simp [hk]
    · rw [if_neg hk] at h
      exact List.mem_cons_of_mem _ (ih h)

theorem lookupA_eq_none {α β : Type} [DecidableEq α] {m : List (α × β)} {k : α} :
    lookupA m k = none ↔ ∀ v, (k, v) ∉ m := by
  induction m with
  | nil => simp [lookupA_nil]
  | cons e rest ih =>
    obtain ⟨k', v'⟩ := e
    rw [lookupA_cons]
    by_cases hk : k = k'
    · subst hk
      rw [if_pos rfl]
      constructor
      · intro h
        exact Option.noConfusion h
      · intro h
        exact ((h v') (List.mem_cons_self _ _)).elim
    · simp only [if_neg hk, ih]
      constructor
      · intro h v hv
        rcases List.mem_cons.mp hv with h1 | h1
        · exact hk (congrArg Prod.fst h1)
        · exact h v h1
      · intro h v hv
        exact h v (List.mem_cons_of_mem _ hv)

theorem lookupA_append_right {α β : Type} [DecidableEq α] {m : List (α × β)}
    {k : α} (h : lookupA m k = none) (tail : List (α × β)) :
    lookupA (m ++ tail) k = lookupA tail k := by
  induction m with
  | nil => simp
  | cons e rest ih =>
    obtain ⟨k', v'⟩ := e
    rw [lookupA_cons] at h
    rw [List.cons_append, lookupA_cons]
    by_cases hk : k = k'
    · rw [if_pos hk] at h
      exact absurd h (by simp)
    · rw [if_neg hk] at h ⊢
      exact ih h

theorem lookupA_append_left {α β : Type} [DecidableEq α] {m : List (α × β)}
    {k : α} {v : β} (h : lookupA m k = some v) (tail : List (α × β)) :
    lookupA (m ++ tail) k = some v := by
  induction m with
  | nil => simp [lookupA_nil] at h
  | cons e rest ih =>
    obtain ⟨k', v'⟩ := e
    rw [lookupA_cons] at h
    rw [List.cons_append, lookupA_cons]
    by_cases hk : k = k'
    · rwa [if_pos hk] at h ⊢
    · rw [if_neg hk] at h ⊢
      exact ih h

/-! ## Sorting lemmas -/

theorem sortStates_perm (l : List Nat) : (sortStates l).Perm l :=
  List.perm_insertionSort _ l

theorem sortStates_sorted (l : List Nat) :
    (sortStates l).Sorted (· ≤ ·) :=
  List.sorted_insertionSort _ l

theorem sortStates_eq_of_perm {l1 l2 : List Nat} (h : l1.Perm l2) :
    sortStates l1 = sortStates l2 :=
  List.eq_of_perm_of_sorted
    (((sortStates_perm l1).trans h).trans (sortStates_perm l2).symm)
    (sortStates_sorted l1) (sortStates_sorted l2)

theorem mem_sortStates {l : List Nat} {x : Nat} :
    x ∈ sortStates l ↔ x ∈ l :=
  (sortStates_perm l).mem_iff

/-! ## `Context` well-formedness and `get_state` (claim C3) -/

theorem Context.new_WF : Context.new.WF := by
  constructor <;> rfl

theorem Context.getState_hit {ctx : Context} {l : List Nat} {s : Nat}
    (hl : lookupA ctx.stateMap (sortStates l) = some s) :
    ctx.getState l = (s, ctx) := by
  simp only [Context.getState, hl]

theorem Context.getState_miss {ctx : Context} {l : List Nat}
    (hl : lookupA ctx.stateMap (sortStates l) = none) :
    ctx.getState l = (ctx.stateCount,
      { stateCount := ctx.stateCount + 1,
        stateMap := ctx.stateMap ++ [(sortStates l, ctx.stateCount)] }) := by
  simp only [Context.getState, hl]

theorem Context.getState_WF {ctx : Context} (h : ctx.WF) (l : List Nat) :
    (ctx.getState l).2.WF := by
  obtain ⟨h1, h2⟩ := h
  cases hl : lookupA ctx.stateMap (sortStates l) with
  | some s =>
    rw [Context.getState_hit hl]
    exact ⟨h1, h2⟩
  | none =>
    rw [Context.getState_miss hl]
    refine ⟨?_, ?_⟩
    · simp [h1]
    · simp only [List.map_append, List.length_append, h2, h1, List.map_cons,
        List.map_nil, List.length_singleton]
      rw [List.range_succ]

theorem snd_lt_of_lookupA {ctx : Context} (h : ctx.WF) {k : List Nat}
    {v : Nat} (hl : lookupA ctx.stateMap k = some v) :
    v < ctx.stateMap.length := by
  have hmem : (k, v) ∈ ctx.stateMap := lookupA_mem hl
  have : v ∈ ctx.stateMap.map Prod.snd := List.mem_map_of_mem Prod.snd hmem
  rw [h.2] at this
  exact List.mem_range.mp this

theorem mem_pairs_inj {α β : Type} {m : List (α × β)}
    (hnd : (m.map Prod.snd).Nodup) {k1 k2 : α} {v : β}
    (m1 : (k1, v) ∈ m) (m2 : (k2, v) ∈ m) : k1 = k2 := by
  induction m with
  | nil => simp at m1
  | cons e rest ih =>
    rcases List.mem_cons.mp m1 with hm1 | hm1 <;>
      rcases List.mem_cons.mp m2 with hm2 | hm2
    · rw [← hm2] at hm1
      exact congrArg Prod.fst hm1
    · exfalso
      have hv : v ∈ rest.map Prod.snd := List.mem_map_of_mem Prod.snd hm2
      rw [← hm1] at hnd
      exact (List.nodup_cons.mp hnd).1 hv
    · exfalso
      have hv : v ∈ rest.map Prod.snd := List.mem_map_of_mem Prod.snd hm1
      rw [← hm2] at hnd
      exact (List.nodup_cons.mp hnd).1 hv
    · exact ih (List.nodup_cons.mp hnd).2 hm1 hm2

theorem lookupA_inj_of_WF {ctx : Context} (h : ctx.WF) {k1 k2 : List Nat}
    {v : Nat} (h1 : lookupA ctx.stateMap k1 = some v)
    (h2 : lookupA ctx.stateMap k2 = some v) : k1 = k2 := by
  have hnd : (ctx.stateMap.map Prod.snd).Nodup := by
    rw [h.2]; exact List.nodup_range _
  exact mem_pairs_inj hnd (lookupA_mem h1) (lookupA_mem h2)

theorem getState_eq_of_perm {l1 l2 : List Nat} (ctx : Context)
    (h : l1.Perm l2) : ctx.getState l1 = ctx.getState l2 := by
  unfold Context.getState
  rw [sortStates_eq_of_perm h]

/-- C3, counterexample: `get_state` does not deduplicate, so the lists `[0]`
and `[0, 0]`, which are equal as sets, receive the distinct identifiers `0`
and `1` from the same builder context, refuting the claim that duplicate
entries do not matter. -/
theorem c3_counterexample :
    (∀ x : Nat, x ∈ ([0] : List Nat) ↔ x ∈ ([0, 0] : List Nat)) ∧
    (Context.new.getState [0]).1 = 0 ∧
    ((Context.new.getState [0]).2.getState [0, 0]).1 = 1 := by
  refine ⟨fun x => by simp, by decide, by decide⟩

/-- C3 (amended): within one well-formed builder context, `get_state` returns
the same identifier for any two input lists that are permutations of each
other (insertion order does not matter, but duplicate entries do), returns
different identifiers for lists whose underlying sets differ, and assigns
identifiers `0, 1, 2, ...` in strictly increasing order of first discovery
(a fresh sorted key always receives the current counter value, which then
increments). -/
theorem c3_get_state_canonical (ctx : Context) (hwf : ctx.WF)
    (l1 l2 : List Nat) :
    (l1.Perm l2 → ctx.getState l1 = ctx.getState l2) ∧
    (¬ (∀ x, x ∈ l1 ↔ x ∈ l2) →
      (ctx.getState l1).1 ≠ ((ctx.getState l1).2.getState l2).1) ∧
    (lookupA ctx.stateMap (sortStates l1) = none →
      (ctx.getState l1).1 = ctx.stateCount ∧
      (ctx.getState l1).2.stateCount = ctx.stateCount + 1) := by
  refine ⟨fun h => getState_eq_of_perm ctx h, ?_, ?_⟩
  · intro hne
    have hsne : sortStates l1 ≠ sortStates l2 := by
      intro heq
      apply hne
      intro x
      rw [← mem_sortStates (l := l1), ← mem_sortStates (l := l2), heq]
    cases hl1 : lookupA ctx.stateMap (sortStates l1) with
    | some s1 =>
      rw [Context.getState_hit hl1]
      show s1 ≠ (ctx.getState l2).1
      cases hl2 : lookupA ctx.stateMap (sortStates l2) with
      | some s2 =>
        rw [Context.getState_hit hl2]
        show s1 ≠ s2
        intro heq
        exact hsne (lookupA_inj_of_WF hwf hl1 (heq ▸ hl2))
      | none =>
        rw [Context.getState_miss hl2]
        show s1 ≠ ctx.stateCount
        have hlt : s1 < ctx.stateCount := by
          rw [hwf.1]; exact snd_lt_of_lookupA hwf hl1
        exact Nat.ne_of_lt hlt
    | none =>
      rw [Context.getState_miss hl1]
      show ctx.stateCount ≠
        (Context.getState
          ⟨ctx.stateCount + 1, ctx.stateMap ++ [(sortStates l1, ctx.stateCount)]⟩ l2).1
      cases hl2 : lookupA ctx.stateMap (sortStates l2) with
      | some s2 =>
        have hl2' : lookupA
            (Context.mk (ctx.stateCount + 1)
              (ctx.stateMap ++ [(sortStates l1, ctx.stateCount)])).stateMap
            (sortStates l2) = some s2 := lookupA_append_left hl2 _
        rw [Context.getState_hit hl2']
        show ctx.stateCount ≠ s2
        have hlt : s2 < ctx.stateCount := by
          rw [hwf.1]; exact snd_lt_of_lookupA hwf hl2
        exact (Nat.ne_of_lt hlt).symm
      | none =>
        have hl2' : lookupA
            (Context.mk (ctx.stateCount + 1)
              (ctx.stateMap ++ [(sortStates l1, ctx.stateCount)])).stateMap
            (sortStates l2) = none := by
          show lookupA (ctx.stateMap ++ [(sortStates l1, ctx.stateCount)])
            (sortStates l2) = none
          rw [lookupA_append_right hl2, lookupA_cons, if_neg hsne.symm, lookupA_nil]
        rw [Context.getState_miss hl2']
        show ctx.stateCount ≠ ctx.stateCount + 1
        exact Nat.ne_of_lt (Nat.lt_succ_self _)
  · intro hl1
    rw [Context.getState_miss hl1]
    exact ⟨rfl, rfl⟩

/-- Witness for `c3_get_state_canonical` at the fresh context and the lists
`[1, 0]` and `[0, 1]`. -/
theorem c3_witness :
    Context.new.WF ∧
    ((([1, 0] : List Nat).Perm [0, 1] →
        Context.new.getState [1, 0] = Context.new.getState [0, 1]) ∧
      (¬ (∀ x, x ∈ ([1, 0] : List Nat) ↔ x ∈ ([0, 1] : List Nat)) →
        (Context.new.getState [1, 0]).1 ≠
          ((Context.new.getState [1, 0]).2.getState [0, 1]).1) ∧
      (lookupA Context.new.stateMap (sortStates [1, 0]) = none →
        (Context.new.getState [1, 0]).1 = Context.new.stateCount ∧
        (Context.new.getState [1, 0]).2.stateCount = Context.new.stateCount + 1)) :=
  ⟨⟨rfl, rfl⟩, c3_get_state_canonical Context.new ⟨rfl, rfl⟩ [1, 0] [0, 1]⟩

/-! ## Matcher (claim C7) -/

theorem matchLoop_eq_spec (dfa : DFA) (current : Nat) (text : List Char) :
    matchLoop dfa current text = specMatchRun dfa current text := by
  induction text generalizing current with
  | nil => rfl
  | cons c rest ih =>
    unfold matchLoop specMatchRun
    cases dfa.nextState current c
    · rfl
    · exact ih _

/-! ## Runs and epsilon reachability -/

theorem NRun.trans {nfa : NFA} {q r s : Nat} {w1 w2 : List Char}
    (h1 : NRun nfa q w1 r) (h2 : NRun nfa r w2 s) : NRun nfa q (w1 ++ w2) s := by
  induction h1 with
  | refl => exact h2
  | eps hmem _ ih => exact .eps hmem (ih h2)
  | char hmem _ ih => exact .char hmem (ih h2)

theorem mem_of_closed_run {nfa : NFA} {T : Set Nat} (hT : EpsClosed nfa T)
    {q x : Nat} {w : List Char} (h : NRun nfa q w x) (hw : w = [])
    (hq : q ∈ T) : x ∈ T := by
  induction h with
  | refl => exact hq
  | eps hmem _ ih => exact ih hw (hT _ hq _ hmem)
  | char hmem _ _ => simp at hw

theorem subset_epsReach (nfa : NFA) (S : Set Nat) : S ⊆ epsReach nfa S :=
  fun x hx => ⟨x, hx, .refl x⟩

theorem epsReach_closed (nfa : NFA) (S : Set Nat) :
    EpsClosed nfa (epsReach nfa S) := by
  rintro q ⟨q0, hq0, hrun⟩ p hp
  exact ⟨q0, hq0, hrun.trans (.eps hp (.refl p))⟩

theorem epsReach_subset_of_closed {nfa : NFA} {S T : Set Nat}
    (hS : S ⊆ T) (hT : EpsClosed nfa T) : epsReach nfa S ⊆ T := by
  rintro x ⟨q, hq, hrun⟩
  exact mem_of_closed_run hT hrun rfl (hS hq)

theorem epsReach_of_closed {nfa : NFA} {S : Set Nat} (h : EpsClosed nfa S) :
    epsReach nfa S = S :=
  Set.Subset.antisymm (epsReach_subset_of_closed (fun _ hx => hx) h)
    (subset_epsReach nfa S)

theorem epsReach_mono {nfa : NFA} {S T : Set Nat} (h : S ⊆ T) :
    epsReach nfa S ⊆ epsReach nfa T := by
  rintro x ⟨q, hq, hrun⟩
  exact ⟨q, h hq, hrun⟩

/-! ## The closure loops compute epsilon reachability -/

theorem epsExtendLoop_zero (nfa : NFA) (acc stack : List Nat) :
    epsExtendLoop nfa 0 acc stack = none := rfl

theorem epsExtendLoop_nil (nfa : NFA) (fuel : Nat) (acc : List Nat) :
    epsExtendLoop nfa (fuel + 1) acc [] = some acc := rfl

theorem epsExtendLoop_cons (nfa : NFA) (fuel : Nat) (acc : List Nat)
    (s : Nat) (rest : List Nat) :
    epsExtendLoop nfa (fuel + 1) acc (s :: rest) =
      epsExtendLoop nfa fuel (acc ++ nfa.nextStates s none)
        ((nfa.nextStates s none).filter (fun x => decide (x ∉ acc)) ++ rest) := rfl

theorem epsExtendLoop_sound {nfa : NFA} {S : Set Nat} :
    ∀ {fuel : Nat} {acc stack res : List Nat},
    epsExtendLoop nfa fuel acc stack = some res →
    (∀ x ∈ acc, x ∈ epsReach nfa S) → (∀ x ∈ stack, x ∈ epsReach nfa S) →
    ∀ y ∈ res, y ∈ epsReach nfa S := by
  intro fuel
  induction fuel with
  | zero =>
    intro acc stack res h
    rw [epsExtendLoop_zero] at h
    exact absurd h (by simp)
  | succ n ih =>
    intro acc stack res h hacc hstack
    cases stack with
    | nil =>
      rw [epsExtendLoop_nil] at h
      obtain rfl := Option.some_injective _ h
      exact hacc
    | cons s rest =>
      rw [epsExtendLoop_cons] at h
      have hs : s ∈ epsReach nfa S := hstack s (List.mem_cons_self _ _)
      have hnext : ∀ x ∈ nfa.nextStates s none, x ∈ epsReach nfa S :=
        fun x hx => epsReach_closed nfa S s hs x hx
      refine ih h ?_ ?_
      · intro x hx
        rcases List.mem_append.mp hx with h1 | h1
        · exact hacc x h1
        · exact hnext x h1
      · intro x hx
        rcases List.mem_append.mp hx with h1 | h1
        · exact hnext x (List.mem_of_mem_filter h1)
        · exact hstack x (List.mem_cons_of_mem _ h1)

theorem epsExtendLoop_closed {nfa : NFA} :
    ∀ {fuel : Nat} {acc stack res : List Nat},
    epsExtendLoop nfa fuel acc stack = some res →
    (∀ x ∈ stack, x ∈ acc) →
    (∀ x ∈ acc, x ∈ stack ∨ ∀ p ∈ nfa.nextStates x none, p ∈ acc) →
    (∀ x ∈ acc, x ∈ res) ∧ (∀ x ∈ res, ∀ p ∈ nfa.nextStates x none, p ∈ res) := by
  intro fuel
  induction fuel with
  | zero =>
    intro acc stack res h
    rw [epsExtendLoop_zero] at h
    exact absurd h (by simp)
  | succ n ih =>
    intro acc stack res h hsub hinv
    cases stack with
    | nil =>
      rw [epsExtendLoop_nil] at h
      obtain rfl := Option.some_injective _ h
      refine ⟨fun x hx => hx, fun x hx p hp => ?_⟩
      rcases hinv x hx with h1 | h1
      · exact absurd h1 (List.not_mem_nil x)
      · exact h1 p hp
    | cons s rest =>
      rw [epsExtendLoop_cons] at h
      have hstep := ih h ?_ ?_
      · exact ⟨fun x hx => hstep.1 x (List.mem_append_left _ hx), hstep.2⟩
      · intro x hx
        rcases List.mem_append.mp hx with h1 | h1
        · exact List.mem_append_right _ (List.mem_of_mem_filter h1)
        · exact List.mem_append_left _ (hsub x (List.mem_cons_of_mem _ h1))
      · intro x hx
        rcases List.mem_append.mp hx with h1 | h1
        · rcases hinv x h1 with h2 | h2
          · rcases List.mem_cons.mp h2 with h3 | h3
            · subst h3
              right
              intro p hp
              exact List.mem_append_right _ hp
            · left
              exact List.mem_append_right _ h3
          · right
            intro p hp
            exact List.mem_append_left _ (h2 p hp)
        · by_cases hxa : x ∈ acc
          · rcases hinv x hxa with h2 | h2
            · rcases List.mem_cons.mp h2 with h3 | h3
              · subst h3
                right
                intro p hp
                exact List.mem_append_right _ hp
              · left
                exact List.mem_append_right _ h3
            · right
              intro p hp
              exact List.mem_append_left _ (h2 p hp)
          · left
            apply List.mem_append_left
            rw [List.mem_filter]
            exact ⟨h1, by simpa using hxa⟩

/-- Set-level characterization of the per-symbol closure routine: on success
its result has exactly the members of the epsilon-reachability closure of the
seed set. -/
theorem epsClosureFrom_sets {nfa : NFA} {fuel : Nat} {seeds res : List Nat}
    (h : epsClosureFrom nfa fuel seeds = some res) :
    ∀ y, y ∈ res ↔ y ∈ epsReach nfa { x | x ∈ seeds } := by
  unfold epsClosureFrom at h
  have hsub : ∀ x ∈ seeds.filter (fun s => decide (nfa.nextStates s none ≠ [])),
      x ∈ seeds := fun x hx => List.mem_of_mem_filter hx
  have hinv : ∀ x ∈ seeds,
      x ∈ seeds.filter (fun s => decide (nfa.nextStates s none ≠ [])) ∨
      ∀ p ∈ nfa.nextStates x none, p ∈ seeds := by
    intro x hx
    by_cases hne : nfa.nextStates x none = []
    · right
      intro p hp
      rw [hne] at hp
      exact absurd hp (List.not_mem_nil p)
    · left
      rw [List.mem_filter]
      exact ⟨hx, by simpa using hne⟩
  have hcl := epsExtendLoop_closed h hsub hinv
  intro y
  constructor
  · intro hy
    exact epsExtendLoop_sound h
      (fun x hx => subset_epsReach nfa _ hx)
      (fun x hx => subset_epsReach nfa _ (hsub x hx)) y hy
  · intro hy
    exact epsReach_subset_of_closed (fun x hx => hcl.1 x hx)
      (fun x hx p hp => hcl.2 x hx p hp) hy

/-! ## The start-state closure -/

theorem startClosureLoop_zero (nfa : NFA) (ret stack : List Nat) :
    startClosureLoop nfa 0 ret stack = none := rfl

theorem startClosureLoop_nil (nfa : NFA) (fuel : Nat) (ret : List Nat) :
    startClosureLoop nfa (fuel + 1) ret [] = some ret := rfl

theorem startClosureLoop_cons (nfa : NFA) (fuel : Nat) (ret : List Nat)
    (s : Nat) (rest : List Nat) :
    startClosureLoop nfa (fuel + 1) ret (s :: rest) =
      startClosureLoop nfa fuel (ret ++ [s])
        ((nfa.nextStates s none).filter (fun x => decide (x ∉ ret ++ [s])) ++ rest) :=
  rfl

theorem startClosureLoop_sound {nfa : NFA} {S : Set Nat} :
    ∀ {fuel : Nat} {ret stack res : List Nat},
    startClosureLoop nfa fuel ret stack = some res →
    (∀ x ∈ ret, x ∈ epsReach nfa S) → (∀ x ∈ stack, x ∈ epsReach nfa S) →
    ∀ y ∈ res, y ∈ epsReach nfa S := by
  intro fuel
  induction fuel with
  | zero =>
    intro ret stack res h
    rw [startClosureLoop_zero] at h
    exact absurd h (by simp)
  | succ n ih =>
    intro ret stack res h hret hstack
    cases stack with
    | nil =>
      rw [startClosureLoop_nil] at h
      obtain rfl := Option.some_injective _ h
      exact hret
    | cons s rest =>
      rw [startClosureLoop_cons] at h
      have hs : s ∈ epsReach nfa S := hstack s (List.mem_cons_self _ _)
      refine ih h ?_ ?_
      · intro x hx
        rcases List.mem_append.mp hx with h1 | h1
        · exact hret x h1
        · rw [List.mem_singleton] at h1
          subst h1
          exact hs
      · intro x hx
        rcases List.mem_append.mp hx with h1 | h1
        · exact epsReach_closed nfa S s hs x (List.mem_of_mem_filter h1)
        · exact hstack x (List.mem_cons_of_mem _ h1)

theorem startClosureLoop_closed {nfa : NFA} :
    ∀ {fuel : Nat} {ret stack res : List Nat},
    startClosureLoop nfa fuel ret stack = some res →
    (∀ x ∈ ret, ∀ p ∈ nfa.nextStates x none, p ∈ ret ∨ p ∈ stack) →
    (∀ x ∈ ret, x ∈ res) ∧ (∀ x ∈ res, ∀ p ∈ nfa.nextStates x none, p ∈ res) := by
  intro fuel
  induction fuel with
  | zero =>
    intro ret stack res h
    rw [startClosureLoop_zero] at h
    exact absurd h (by simp)
  | succ n ih =>
    intro ret stack res h hinv
    cases stack with
    | nil =>
      rw [startClosureLoop_nil] at h
      obtain rfl := Option.some_injective _ h
      refine ⟨fun x hx => hx, fun x hx p hp => ?_⟩
      rcases hinv x hx p hp with h1 | h1
      · exact h1
      · exact absurd h1 (List.not_mem_nil p)
    | cons s rest =>
      rw [startClosureLoop_cons] at h
      have hstep := ih h ?_
      · exact ⟨fun x hx => hstep.1 x (List.mem_append_left _ hx), hstep.2⟩
      · intro x hx p hp
        rcases List.mem_append.mp hx with h1 | h1
        · rcases hinv x h1 p hp with h2 | h2
          · left
            exact List.mem_append_left _ h2
          · rcases List.mem_cons.mp h2 with h3 | h3
            · subst h3
              left
              exact List.mem_append_right _ (List.mem_singleton_self _)
            · right
              exact List.mem_append_right _ h3
        · rw [List.mem_singleton] at h1
          subst h1
          by_cases hpr : p ∈ ret ++ [x]
          · left
            exact hpr
          · right
            apply List.mem_append_left
            rw [List.mem_filter]
            exact ⟨hp, by simpa using hpr⟩

/-- Set-level characterization of the start-state closure of `from_nfa`. -/
theorem startClosure_sets {nfa : NFA} {fuel : Nat} {res : List Nat}
    (h : startClosureLoop nfa fuel [nfa.start] (nfa.nextStates nfa.start none) =
      some res) :
    ∀ y, y ∈ res ↔ y ∈ epsReach nfa {nfa.start} := by
  have hcl := startClosureLoop_closed h ?_
  · intro y
    constructor
    · intro hy
      refine startClosureLoop_sound h ?_ ?_ y hy
      · intro x hx
        rw [List.mem_singleton] at hx
        subst hx
        exact subset_epsReach nfa {nfa.start} rfl
      · intro x hx
        exact epsReach_closed nfa {nfa.start} nfa.start
          (subset_epsReach nfa {nfa.start} rfl) x hx
    · intro hy
      refine epsReach_subset_of_closed ?_
        (fun x hx p hp => hcl.2 x hx p hp) hy
      intro x hx
      rw [Set.mem_singleton_iff] at hx
      subst hx
      exact hcl.1 nfa.start (List.mem_singleton_self _)
  · intro x hx p hp
    rw [List.mem_singleton] at hx
    subst hx
    right
    exact hp

/-! ## Claim C9: idempotence of the epsilon closure -/

/-- C9: epsilon-closure is idempotent: running the closure routine of
`from_nfa` on a seed list whose member set is already closed under epsilon
transitions yields the same set of states. -/
theorem c9_closure_idempotent (nfa : NFA) (S : List Nat) (fuel : Nat)
    (res : List Nat)
    (hclosed : ∀ q ∈ S, ∀ p ∈ nfa.nextStates q none, p ∈ S)
    (h : epsClosureFrom nfa fuel S = some res) :
    ∀ y, y ∈ res ↔ y ∈ S := by
  intro y
  rw [epsClosureFrom_sets h y]
  have : epsReach nfa { x | x ∈ S } = { x | x ∈ S } :=
    epsReach_of_closed (fun q hq p hp => hclosed q hq p hp)
  rw [this]
  exact Iff.rfl

/-- Witness for `c9_closure_idempotent`: the NFA `0 --ε--> 1` and the closed
set `\x7b0, 1\x7d`. -/
theorem c9_witness :
    (∀ q ∈ ([0, 1] : List Nat),
      ∀ p ∈ ((NFA.mk' 0 []).addEmptyTransition 0 1).nextStates q none,
        p ∈ ([0, 1] : List Nat)) ∧
    epsClosureFrom ((NFA.mk' 0 []).addEmptyTransition 0 1) 5 [0, 1] =
      some [0, 1, 1] ∧
    (∀ y, y ∈ ([0, 1, 1] : List Nat) ↔ y ∈ ([0, 1] : List Nat)) :=
  ⟨by decide, by decide,
    c9_closure_idempotent ((NFA.mk' 0 []).addEmptyTransition 0 1) [0, 1] 5
      [0, 1, 1] (by decide) (by decide)⟩

/-! ## Claim C2: the per-symbol target sets of subset construction -/

theorem lookupA_updateA {α β : Type} [DecidableEq α] (m : List (α × β))
    (k k' : α) (d : β) (f : β → β) :
    lookupA (updateA k d f m) k' =
      if k' = k then some (f ((lookupA m k).getD d)) else lookupA m k' := by
  induction m with
  | nil =>
    show lookupA [(k, f d)] k' = _
    rw [lookupA_cons, lookupA_nil, lookupA_nil]
    by_cases hk : k' = k <;> simp [hk]
  | cons e rest ih =>
    obtain ⟨k0, v0⟩ := e
    show lookupA
      (if k = k0 then (k, f v0) :: rest else (k0, v0) :: updateA k d f rest) k' = _
    by_cases hk0 : k = k0
    · subst hk0
      rw [if_pos rfl, lookupA_cons, lookupA_cons]
      by_cases hk : k' = k <;> simp [lookupA_cons, hk]
    · rw [if_neg hk0, lookupA_cons, lookupA_cons, ih]
      by_cases hk' : k' = k0
      · subst hk'
        have hkk : ¬ k' = k := fun h => hk0 h.symm
        simp [lookupA_cons, hkk]
      · by_cases hk : k' = k <;> simp [lookupA_cons, hk, hk', hk0]

theorem nextStates_nil_of_not_key {nfa : NFA} {q : Nat} {oc : Option Char}
    (h : oc ∉ nfa.nextChars q) : nfa.nextStates q oc = [] := by
  unfold NFA.nextChars at h
  unfold NFA.nextStates
  cases htab : lookupA nfa.trans q with
  | none => rfl
  | some table =>
    rw [htab] at h
    have h' : oc ∉ table.map Prod.fst := h
    show (match lookupA table oc with | some tos => tos | none => []) = []
    cases hoc : lookupA table oc with
    | none => rfl
    | some tos =>
      exact absurd (List.mem_map_of_mem Prod.fst (lookupA_mem hoc)) h'

theorem mem_key_of_nextStates_ne {nfa : NFA} {q : Nat} {oc : Option Char}
    (h : nfa.nextStates q oc ≠ []) : oc ∈ nfa.nextChars q := by
  by_contra hmem
  exact h (nextStates_nil_of_not_key hmem)

/-- The membership of the `transition_map` entry for `c` after folding the
keys `ocs` of one `look_state`. -/
theorem charFold_sets {nfa : NFA} {fuel : Nat} {q : Nat} :
    ∀ {ocs : List (Option Char)} {tmap tmap' : List (Char × List Nat)},
    charFold nfa fuel q ocs tmap = some tmap' →
    ∀ c y, y ∈ (lookupA tmap' c).getD [] ↔
      (y ∈ (lookupA tmap c).getD [] ∨
        (some c ∈ ocs ∧
          y ∈ epsReach nfa
            { x | x ∈ nfa.nextStates q (some c) ++ nfa.nextStates q none })) := by
  intro ocs
  induction ocs with
  | nil =>
    intro tmap tmap' h c y
    obtain rfl : tmap = tmap' := Option.some_injective _ h
    simp
  | cons oc rest ih =>
    intro tmap tmap' h c y
    cases oc with
    | none =>
      rw [show charFold nfa fuel q (none :: rest) tmap =
        charFold nfa fuel q rest tmap from rfl] at h
      rw [ih h c y]
      simp
    | some c0 =>
      rw [show charFold nfa fuel q (some c0 :: rest) tmap =
        (match symbolClosure nfa fuel q c0 with
        | none => none
        | some ns => charFold nfa fuel q rest
            (updateA c0 [] (fun old => extendS old ns) tmap)) from rfl] at h
      cases hsc : symbolClosure nfa fuel q c0 with
      | none => rw [hsc] at h; exact absurd h (by simp)
      | some ns =>
        rw [hsc] at h
        have hns := epsClosureFrom_sets hsc
        rw [ih h c y, lookupA_updateA]
        by_cases hc : c = c0
        · subst hc
          rw [if_pos rfl]
          simp only [Option.getD_some]
          rw [mem_extendS]
          constructor
          · rintro (⟨h1 | h1⟩ | h1)
            · exact Or.inl h1
            · exact Or.inr ⟨List.mem_cons_self _ _, (hns y).mp h1⟩
            · exact Or.inr ⟨List.mem_cons_of_mem _ h1.1, h1.2⟩
          · rintro (h1 | ⟨h1, h2⟩)
            · exact Or.inl (Or.inl h1)
            · exact Or.inl (Or.inr ((hns y).mpr h2))
        · rw [if_neg hc]
          constructor
          · rintro (h1 | h1)
            · exact Or.inl h1
            · exact Or.inr ⟨List.mem_cons_of_mem _ h1.1, h1.2⟩
          · rintro (h1 | ⟨h1, h2⟩)
            · exact Or.inl h1
            · rcases List.mem_cons.mp h1 with h3 | h3
              · exact absurd (Option.some_injective _ h3.symm).symm hc
              · exact Or.inr ⟨h3, h2⟩

/-- The membership of the `transition_map` entry for `c` after folding all
states of the popped set `Q`. -/
theorem buildTMap_sets {nfa : NFA} {fuel : Nat} :
    ∀ {Q : List Nat} {tmap tmap' : List (Char × List Nat)},
    buildTMap nfa fuel Q tmap = some tmap' →
    ∀ c y, y ∈ (lookupA tmap' c).getD [] ↔
      (y ∈ (lookupA tmap c).getD [] ∨
        ∃ q ∈ Q, some c ∈ nfa.nextChars q ∧
          y ∈ epsReach nfa
            { x | x ∈ nfa.nextStates q (some c) ++ nfa.nextStates q none }) := by
  intro Q
  induction Q with
  | nil =>
    intro tmap tmap' h c y
    obtain rfl : tmap = tmap' := Option.some_injective _ h
    simp
  | cons q rest ih =>
    intro tmap tmap' h c y
    rw [show buildTMap nfa fuel (q :: rest) tmap =
      (match charFold nfa fuel q (nfa.nextChars q) tmap with
      | none => none
      | some tmapx => buildTMap nfa fuel rest tmapx) from rfl] at h
    cases hcf : charFold nfa fuel q (nfa.nextChars q) tmap with
    | none => rw [hcf] at h; exact absurd h (by simp)
    | some tmapx =>
      rw [hcf] at h
      rw [ih h c y, charFold_sets hcf c y]
      constructor
      · rintro ((h1 | h1) | h1)
        · exact Or.inl h1
        · exact Or.inr ⟨q, List.mem_cons_self _ _, h1⟩
        · obtain ⟨q0, hq0, hrest⟩ := h1
          exact Or.inr ⟨q0, List.mem_cons_of_mem _ hq0, hrest⟩
      · rintro (h1 | ⟨q0, hq0, hrest⟩)
        · exact Or.inl (Or.inl h1)
        · rcases List.mem_cons.mp hq0 with h3 | h3
          · subst h3
            exact Or.inl (Or.inr hrest)
          · exact Or.inr ⟨q0, h3, hrest⟩

theorem run_nil_of_no_eps {nfa : NFA} {q x : Nat}
    (hq : nfa.nextStates q none = []) (h : NRun nfa q [] x) : x = q := by
  cases h with
  | refl => rfl
  | eps hmem _ =>
    rw [hq] at hmem
    exact absurd hmem (List.not_mem_nil _)

/-- C2, counterexample: on `nfaMixedC2` the set `Q = \x7b0, 2\x7d` is popped (it is
the start closure), and for the symbol `a` the builder computes and
canonicalizes the target set `\x7b1, 2\x7d`, but the set of states reachable by one
`a`-edge from a member of `Q` followed by epsilon closure is `\x7b1\x7d`: the state
`2` is included although it is not reachable that way, because the code chains
the epsilon successors of the source state `0` itself into the seed set. -/
theorem c2_counterexample :
    buildTMap nfaMixedC2 9 [0, 2] [] = some [('a', [1, 2])] ∧
    (2 : Nat) ∈ ([1, 2] : List Nat) ∧
    ¬ (2 : Nat) ∈ epsReach nfaMixedC2
      { x | ∃ q ∈ ([0, 2] : List Nat), x ∈ nfaMixedC2.nextStates q (some 'a') } := by
  refine ⟨by decide, by decide, ?_⟩
  rintro ⟨s, ⟨q, hq, hs⟩, hrun⟩
  have hq01 : q = 0 ∨ q = 2 := by
    rcases List.mem_cons.mp hq with h | h
    · exact Or.inl h
    · right
      rcases List.mem_cons.mp h with h2 | h2
      · exact h2
      · exact absurd h2 (List.not_mem_nil _)
  have hs1 : s = 1 := by
    rcases hq01 with rfl | rfl
    · have : nfaMixedC2.nextStates 0 (some 'a') = [1] := by decide
      rw [this] at hs
      rcases List.mem_cons.mp hs with h | h
      · exact h
      · exact absurd h (List.not_mem_nil _)
    · have : nfaMixedC2.nextStates 2 (some 'a') = [] := by decide
      rw [this] at hs
      exact absurd hs (List.not_mem_nil _)
  subst hs1
  have h1 : nfaMixedC2.nextStates 1 none = [] := by decide
  have := run_nil_of_no_eps h1 hrun
  exact absurd this (by decide)

/-- On NFAs without mixed states, every `transition_map` entry computed for a
popped state-set `Q` and a symbol `c` is exactly the epsilon closure of the
one-step `c`-successors of `Q`. -/
theorem tmap_target_sets (nfa : NFA) (hnm : NoMixed nfa) (fuel : Nat)
    (Q : List Nat) (c : Char) (tmap : List (Char × List Nat))
    (target : List Nat)
    (h : buildTMap nfa fuel Q [] = some tmap)
    (ht : lookupA tmap c = some target) :
    ∀ y, y ∈ target ↔
      y ∈ epsReach nfa { x | ∃ q ∈ Q, x ∈ nfa.nextStates q (some c) } := by
  intro y
  have hb := buildTMap_sets h c y
  rw [ht] at hb
  rw [lookupA_nil] at hb
  simp only [Option.getD_some, Option.getD_none, List.not_mem_nil, false_or] at hb
  rw [hb]
  constructor
  · rintro ⟨q, hqQ, hkey, hreach⟩
    have heps : nfa.nextStates q none = [] := hnm q c hkey
    refine epsReach_mono ?_ hreach
    intro x hx
    rw [heps, List.append_nil] at hx
    exact ⟨q, hqQ, hx⟩
  · rintro ⟨s, ⟨q, hqQ, hs⟩, hrun⟩
    have hne : nfa.nextStates q (some c) ≠ [] := List.ne_nil_of_mem hs
    refine ⟨q, hqQ, mem_key_of_nextStates_ne hne, s, ?_, hrun⟩
    exact List.mem_append_left _ hs

/-- C2 (amended): for every NFA in which no state has both symbol and epsilon
out-edges (all NFAs built by `from_node` are such, see C10), the target set
the subset construction computes and canonicalizes for a popped state-set `Q`
and symbol `c` — the `transition_map` entry for `c` — consists of exactly the
NFA states reachable by taking one `c`-edge from a member of `Q` and then
closing under epsilon transitions. On NFAs with a mixed state the code also
chains the source state's own epsilon successors into the target set
(`c2_counterexample`). -/
theorem c2_target_sets (nfa : NFA) (hnm : NoMixed nfa) (fuel : Nat)
    (Q : List Nat) (c : Char) (tmap : List (Char × List Nat))
    (target : List Nat)
    (h : buildTMap nfa fuel Q [] = some tmap)
    (ht : lookupA tmap c = some target) :
    ∀ y, y ∈ target ↔
      y ∈ epsReach nfa { x | ∃ q ∈ Q, x ∈ nfa.nextStates q (some c) } :=
  tmap_target_sets nfa hnm fuel Q c tmap target h ht

/-- Witness for `c2_target_sets` on the NFA `0 --a--> 1` with `Q = [0]`. -/
theorem c2_witness :
    NoMixed ((NFA.mk' 0 [1]).addTransition 0 'a' 1) ∧
    buildTMap ((NFA.mk' 0 [1]).addTransition 0 'a' 1) 9 [0] [] =
      some [('a', [1])] ∧
    lookupA [('a', ([1] : List Nat))] 'a' = some [1] ∧
    (∀ y, y ∈ ([1] : List Nat) ↔
      y ∈ epsReach ((NFA.mk' 0 [1]).addTransition 0 'a' 1)
        { x | ∃ q ∈ ([0] : List Nat),
          x ∈ ((NFA.mk' 0 [1]).addTransition 0 'a' 1).nextStates q (some 'a') }) := by
  have hnm : NoMixed ((NFA.mk' 0 [1]).addTransition 0 'a' 1) := by
    intro q c hkey
    by_cases hq : q = 0
    · subst hq
      rfl
    · exfalso
      have hchars : ((NFA.mk' 0 [1]).addTransition 0 'a' 1).nextChars q = [] := by
        unfold NFA.nextChars
        have : lookupA ((NFA.mk' 0 [1]).addTransition 0 'a' 1).trans q = none := by
          show lookupA [(0, [(some 'a', [1])])] q = none
          rw [lookupA_cons, if_neg hq, lookupA_nil]
        rw [this]
      rw [hchars] at hkey
      exact absurd hkey (List.not_mem_nil _)
  exact ⟨hnm, by decide, by decide,
    c2_target_sets ((NFA.mk' 0 [1]).addTransition 0 'a' 1) hnm 9 [0] 'a'
      [('a', [1])] [1] (by decide) (by decide)⟩

/-! ## Edge-level lemmas for the NFA building operations -/

theorem nextStates_getD (nfa : NFA) (q : Nat) (oc : Option Char) :
    nfa.nextStates q oc = (lookupA ((lookupA nfa.trans q).getD []) oc).getD [] := by
  unfold NFA.nextStates
  cases lookupA nfa.trans q with
  | none => simp [lookupA_nil]
  | some table =>
    simp only [Option.getD_some]
    cases lookupA table oc <;> rfl

theorem nextStates_insertTransition (nfa : NFA) (src dst : Nat)
    (oc : Option Char) (q : Nat) (oc' : Option Char) :
    (nfa.insertTransition src dst oc).nextStates q oc' =
      if q = src ∧ oc' = oc then insertS (nfa.nextStates q oc') dst
      else nfa.nextStates q oc' := by
  rw [nextStates_getD, nextStates_getD]
  show (lookupA ((lookupA (updateA src []
    (updateA oc [] (fun tos => insertS tos dst)) nfa.trans) q).getD []) oc').getD [] = _
  rw [lookupA_updateA]
  by_cases hq : q = src
  · rw [if_pos hq]
    simp only [Option.getD_some]
    rw [lookupA_updateA]
    by_cases hoc : oc' = oc
    · rw [if_pos hoc, if_pos ⟨hq, hoc⟩]
      subst hq hoc
      simp
    · rw [if_neg hoc, if_neg (fun h => hoc h.2)]
      subst hq
      rfl
  · rw [if_neg hq, if_neg (fun h => hq h.1)]

theorem mem_nextStates_insertTransition {nfa : NFA} {src dst : Nat}
    {oc : Option Char} {q : Nat} {oc' : Option Char} {x : Nat} :
    x ∈ (nfa.insertTransition src dst oc).nextStates q oc' ↔
      ((q = src ∧ oc' = oc ∧ x = dst) ∨ x ∈ nfa.nextStates q oc') := by
  rw [nextStates_insertTransition]
  by_cases h : q = src ∧ oc' = oc
  · rw [if_pos h, mem_insertS]
    constructor
    · rintro (h1 | h1)
      · exact Or.inr h1
      · exact Or.inl ⟨h.1, h.2, h1⟩
    · rintro (⟨_, _, h1⟩ | h1)
      · exact Or.inr h1
      · exact Or.inl h1
  · rw [if_neg h]
    constructor
    · exact Or.inr
    · rintro (⟨h1, h2, _⟩ | h1)
      · exact absurd ⟨h1, h2⟩ h
      · exact h1

theorem mem_nextStates_addEmptyFold {t : Nat} :
    ∀ {as : List Nat} {nfa : NFA} {q : Nat} {oc : Option Char}
    {x : Nat},
    x ∈ ((as.foldl (fun acc a => acc.addEmptyTransition a t) nfa).nextStates q oc) ↔
      ((q ∈ as ∧ oc = none ∧ x = t) ∨ x ∈ nfa.nextStates q oc) := by
  intro as
  induction as with
  | nil => simp
  | cons a rest ih =>
    intro nfa q oc x
    rw [List.foldl_cons, ih]
    unfold NFA.addEmptyTransition
    rw [mem_nextStates_insertTransition]
    constructor
    · rintro (⟨h1, h2, h3⟩ | ⟨h1, h2, h3⟩ | h1)
      · exact Or.inl ⟨List.mem_cons_of_mem _ h1, h2, h3⟩
      · exact Or.inl ⟨h1 ▸ List.mem_cons_self _ _, h2, h3⟩
      · exact Or.inr h1
    · rintro (⟨h1, h2, h3⟩ | h1)
      · rcases List.mem_cons.mp h1 with h4 | h4
        · exact Or.inr (Or.inl ⟨h4, h2, h3⟩)
        · exact Or.inl ⟨h4, h2, h3⟩
      · exact Or.inr (Or.inr h1)

/-! ### Well-formed transition tables and `merge_transition` -/

theorem lookupA_of_mem_nodup {α β : Type} [DecidableEq α] {m : List (α × β)}
    (hnd : (m.map Prod.fst).Nodup) {k : α} {v : β} (hm : (k, v) ∈ m) :
    lookupA m k = some v := by
  induction m with
  | nil => simp at hm
  | cons e rest ih =>
    obtain ⟨k0, v0⟩ := e
    rw [lookupA_cons]
    rcases List.mem_cons.mp hm with h1 | h1
    · obtain ⟨rfl, rfl⟩ := Prod.mk.injEq .. ▸ h1
      rw [if_pos rfl]
    · by_cases hk : k = k0
      · subst hk
        exfalso
        have : k ∈ rest.map Prod.fst := List.mem_map_of_mem Prod.fst h1
        exact (List.nodup_cons.mp hnd).1 this
      · rw [if_neg hk]
        exact ih (List.nodup_cons.mp hnd).2 h1

/-- Membership in a well-formed table, through `next_states`. -/
theorem mem_nextStates_iff_entry {nfa : NFA} (hwf : WFTable nfa.trans)
    {q : Nat} {oc : Option Char} {x : Nat} :
    x ∈ nfa.nextStates q oc ↔
      ∃ inner, (q, inner) ∈ nfa.trans ∧ ∃ tos, (oc, tos) ∈ inner ∧ x ∈ tos := by
  rw [nextStates_getD]
  constructor
  · intro hx
    cases htab : lookupA nfa.trans q with
    | none =>
      rw [htab] at hx
      simp only [Option.getD_none] at hx
      rw [lookupA_nil] at hx
      simp at hx
    | some inner =>
      rw [htab] at hx
      simp only [Option.getD_some] at hx
      cases hoc : lookupA inner oc with
      | none => rw [hoc] at hx; simp at hx
      | some tos =>
        rw [hoc] at hx
        exact ⟨inner, lookupA_mem htab, tos, lookupA_mem hoc, hx⟩
  · rintro ⟨inner, hinner, tos, htos, hx⟩
    rw [lookupA_of_mem_nodup hwf.1 hinner]
    simp only [Option.getD_some]
    rw [lookupA_of_mem_nodup (hwf.2 _ hinner) htos]
    exact hx

theorem keys_updateA {α β : Type} [DecidableEq α] (k : α) (d : β) (f : β → β) :
    ∀ (m : List (α × β)),
    (updateA k d f m).map Prod.fst =
      if k ∈ m.map Prod.fst then m.map Prod.fst else m.map Prod.fst ++ [k]
  | [] => by simp [updateA]
  | (k0, v0) :: rest => by
    show ((if k = k0 then (k, f v0) :: rest else (k0, v0) :: updateA k d f rest).map
      Prod.fst) = _
    by_cases hk : k = k0
    · subst hk
      simp
    · rw [if_neg hk, List.map_cons, keys_updateA k d f rest, List.map_cons]
      by_cases hmem : k ∈ rest.map Prod.fst
      · rw [if_pos hmem, if_pos (List.mem_cons_of_mem _ hmem)]
      · rw [if_neg hmem, if_neg ?_, List.cons_append]
        intro hc
        rcases List.mem_cons.mp hc with h1 | h1
        · exact hk h1
        · exact hmem h1

theorem nodupKeys_updateA {α β : Type} [DecidableEq α] {m : List (α × β)}
    (h : (m.map Prod.fst).Nodup) (k : α) (d : β) (f : β → β) :
    ((updateA k d f m).map Prod.fst).Nodup := by
  rw [keys_updateA]
  by_cases hmem : k ∈ m.map Prod.fst
  · rwa [if_pos hmem]
  · rw [if_neg hmem]
    rw [List.nodup_append]
    exact ⟨h, List.nodup_singleton k, by simpa using fun h' => hmem h'⟩

theorem mem_updateA {α β : Type} [DecidableEq α] {k : α} {d : β} {f : β → β} :
    ∀ {m : List (α × β)} {e : α × β}, e ∈ updateA k d f m →
      e ∈ m ∨ ∃ v, e = (k, f v) ∧ (v = d ∨ (k, v) ∈ m) := by
  intro m
  induction m with
  | nil =>
    intro e he
    rcases List.mem_singleton.mp he with rfl
    exact Or.inr ⟨d, rfl, Or.inl rfl⟩
  | cons e0 rest ih =>
    obtain ⟨k0, v0⟩ := e0
    intro e he
    rw [show updateA k d f ((k0, v0) :: rest) =
      (if k = k0 then (k, f v0) :: rest else (k0, v0) :: updateA k d f rest)
      from rfl] at he
    by_cases hk : k = k0
    · rw [if_pos hk] at he
      rcases List.mem_cons.mp he with h1 | h1
      · exact Or.inr ⟨v0, h1, Or.inr (by rw [hk]; exact List.mem_cons_self _ _)⟩
      · exact Or.inl (List.mem_cons_of_mem _ h1)
    · rw [if_neg hk] at he
      rcases List.mem_cons.mp he with h1 | h1
      · exact Or.inl (h1 ▸ List.mem_cons_self _ _)
      · rcases ih h1 with h2 | ⟨v, hv, hd⟩
        · exact Or.inl (List.mem_cons_of_mem _ h2)
        · refine Or.inr ⟨v, hv, ?_⟩
          rcases hd with h3 | h3
          · exact Or.inl h3
          · exact Or.inr (List.mem_cons_of_mem _ h3)

/-- One `entry(src).or_insert(..).entry(oc0).or_insert(..)` update preserves
table well-formedness. -/
theorem WFTable_updateEdge {m : NTrans} (h : WFTable m) (src : Nat)
    (oc0 : Option Char) (g : List Nat → List Nat) :
    WFTable (updateA src [] (updateA oc0 [] g) m) := by
  constructor
  · exact nodupKeys_updateA h.1 src [] (updateA oc0 [] g)
  · intro e he
    rcases mem_updateA he with h1 | ⟨v, rfl, hd⟩
    · exact h.2 e h1
    · show ((updateA oc0 [] g v).map Prod.fst).Nodup
      rcases hd with rfl | h2
      · exact nodupKeys_updateA (by simp) oc0 [] g
      · exact nodupKeys_updateA (h.2 _ h2) oc0 [] g

theorem WFTable_nil : WFTable [] := ⟨List.nodup_nil, by simp⟩

theorem WFTable_insertTransition {nfa : NFA} (h : WFTable nfa.trans)
    (src dst : Nat) (oc : Option Char) :
    WFTable (nfa.insertTransition src dst oc).trans :=
  WFTable_updateEdge h src oc (fun tos => insertS tos dst)

theorem nextStates_eq_getNext (nfa : NFA) (q : Nat) (oc : Option Char) :
    nfa.nextStates q oc = getNext nfa.trans q oc :=
  nextStates_getD nfa q oc

theorem mem_getNext_updateEdge {m : NTrans} {src : Nat} {oc0 : Option Char}
    {tos0 : List Nat} {q : Nat} {oc : Option Char} {x : Nat} :
    x ∈ getNext (updateA src [] (updateA oc0 [] (fun tos => extendS tos tos0)) m)
        q oc ↔
      x ∈ getNext m q oc ∨ (q = src ∧ oc = oc0 ∧ x ∈ tos0) := by
  unfold getNext
  rw [lookupA_updateA]
  by_cases hq : q = src
  · rw [if_pos hq]
    simp only [Option.getD_some]
    rw [lookupA_updateA]
    by_cases hoc : oc = oc0
    · rw [if_pos hoc]
      simp only [Option.getD_some]
      rw [mem_extendS]
      subst hq hoc
      tauto
    · rw [if_neg hoc]
      subst hq
      constructor
      · exact Or.inl
      · rintro (h1 | ⟨_, h2, _⟩)
        · exact h1
        · exact absurd h2 hoc
  · rw [if_neg hq]
    constructor
    · exact Or.inl
    · rintro (h1 | ⟨h2, _, _⟩)
      · exact h1
      · exact absurd h2 hq

theorem mem_getNext_innerFold {src : Nat} :
    ∀ {cts : List (Option Char × List Nat)} {acc : NTrans} {q : Nat}
    {oc : Option Char} {x : Nat},
    x ∈ getNext (cts.foldl (fun acc2 ct =>
        updateA src [] (updateA ct.1 [] (fun tos => extendS tos ct.2)) acc2) acc)
        q oc ↔
      (x ∈ getNext acc q oc ∨ (q = src ∧ ∃ ct ∈ cts, ct.1 = oc ∧ x ∈ ct.2)) := by
  intro cts
  induction cts with
  | nil => simp
  | cons ct rest ih =>
    intro acc q oc x
    rw [List.foldl_cons, ih, mem_getNext_updateEdge]
    constructor
    · rintro ((h1 | ⟨h1, h2, h3⟩) | ⟨h1, ct2, h2, h3, h4⟩)
      · exact Or.inl h1
      · exact Or.inr ⟨h1, ct, List.mem_cons_self _ _, h2.symm, h3⟩
      · exact Or.inr ⟨h1, ct2, List.mem_cons_of_mem _ h2, h3, h4⟩
    · rintro (h1 | ⟨h1, ct2, h2, h3, h4⟩)
      · exact Or.inl (Or.inl h1)
      · rcases List.mem_cons.mp h2 with h5 | h5
        · subst h5
          exact Or.inl (Or.inr ⟨h1, h3.symm, h4⟩)
        · exact Or.inr ⟨h1, ct2, h5, h3, h4⟩

theorem mem_getNext_outerFold :
    ∀ {es : NTrans} {acc : NTrans} {q : Nat} {oc : Option Char} {x : Nat},
    x ∈ getNext (es.foldl (fun acc entry =>
        entry.2.foldl (fun acc2 ct =>
          updateA entry.1 [] (updateA ct.1 [] (fun tos => extendS tos ct.2)) acc2)
          acc) acc) q oc ↔
      (x ∈ getNext acc q oc ∨
        ∃ e ∈ es, q = e.1 ∧ ∃ ct ∈ e.2, ct.1 = oc ∧ x ∈ ct.2) := by
  intro es
  induction es with
  | nil => simp
  | cons e rest ih =>
    intro acc q oc x
    rw [List.foldl_cons, ih, mem_getNext_innerFold]
    constructor
    · rintro ((h1 | ⟨h1, ct, h2, h3, h4⟩) | ⟨e2, h1, h2, h3⟩)
      · exact Or.inl h1
      · exact Or.inr ⟨e, List.mem_cons_self _ _, h1, ct, h2, h3, h4⟩
      · exact Or.inr ⟨e2, List.mem_cons_of_mem _ h1, h2, h3⟩
    · rintro (h1 | ⟨e2, h1, h2, h3⟩)
      · exact Or.inl (Or.inl h1)
      · rcases List.mem_cons.mp h1 with h5 | h5
        · subst h5
          exact Or.inl (Or.inr ⟨h2, h3⟩)
        · exact Or.inr ⟨e2, h5, h2, h3⟩

/-- Membership in the merged transition table (`merge_transition`): an edge of
the merge is an edge of either operand, provided the merged-in table is
well-formed. -/
theorem mem_nextStates_merge {a b : NFA} (hb : WFTable b.trans)
    {q : Nat} {oc : Option Char} {x : Nat} :
    x ∈ (a.mergeTransition b).nextStates q oc ↔
      x ∈ a.nextStates q oc ∨ x ∈ b.nextStates q oc := by
  rw [nextStates_eq_getNext, nextStates_eq_getNext, nextStates_eq_getNext]
  show x ∈ getNext (b.trans.foldl _ a.trans) q oc ↔ _
  rw [mem_getNext_outerFold]
  constructor
  · rintro (h1 | ⟨e, h1, rfl, ct, h2, rfl, h4⟩)
    · exact Or.inl h1
    · right
      rw [← nextStates_eq_getNext, mem_nextStates_iff_entry hb]
      exact ⟨e.2, by simpa using h1, ct.2, by simpa using h2, h4⟩
  · rintro (h1 | h1)
    · exact Or.inl h1
    · right
      rw [← nextStates_eq_getNext, mem_nextStates_iff_entry hb] at h1
      obtain ⟨inner, hinner, tos, htos, hx⟩ := h1
      exact ⟨(q, inner), hinner, rfl, (oc, tos), htos, rfl, hx⟩

theorem WFTable_innerFold (src : Nat) :
    ∀ (cts : List (Option Char × List Nat)) {acc : NTrans}, WFTable acc →
    WFTable (cts.foldl (fun acc2 ct =>
      updateA src [] (updateA ct.1 [] (fun tos => extendS tos ct.2)) acc2) acc)
  | [], _, hacc => hacc
  | ct :: rest, acc, hacc => by
    rw [List.foldl_cons]
    exact WFTable_innerFold src rest
      (WFTable_updateEdge hacc src ct.1 (fun tos => extendS tos ct.2))

theorem WFTable_outerFold :
    ∀ (es : NTrans) {acc : NTrans}, WFTable acc →
    WFTable (es.foldl (fun acc entry =>
      entry.2.foldl (fun acc2 ct =>
        updateA entry.1 [] (updateA ct.1 [] (fun tos => extendS tos ct.2)) acc2)
        acc) acc)
  | [], _, hacc => hacc
  | e :: rest, acc, hacc => by
    rw [List.foldl_cons]
    exact WFTable_outerFold rest (WFTable_innerFold e.1 e.2 hacc)

/-- `merge_transition` preserves table well-formedness of the receiver. -/
theorem WFTable_merge {a b : NFA} (ha : WFTable a.trans) :
    WFTable (a.mergeTransition b).trans :=
  WFTable_outerFold b.trans ha

/-! ## Structure of the assembled fragments -/

theorem assemble_character_eq (c : Char) (n : Nat) :
    assemble (.character c) n =
      ((NFA.mk' n [n + 1]).addTransition n c (n + 1), n + 2) := rfl

theorem assemble_empty_eq (n : Nat) :
    assemble .empty n =
      ((NFA.mk' n [n + 1]).addEmptyTransition n (n + 1), n + 2) := rfl

theorem assemble_star_eq {node : Node} {n : Nat} {frag : NFA} {n1 : Nat}
    (h : assemble node n = (frag, n1)) :
    assemble (.star node) n =
      (frag.accepts.foldl (fun acc a => acc.addEmptyTransition a frag.start)
        (((NFA.mk' n1 (unionS frag.accepts [n1])).mergeTransition
          frag).addEmptyTransition n1 frag.start),
       n1 + 1) := by
  unfold assemble
  rw [h]

theorem assemble_union_eq {node1 node2 : Node} {n : Nat} {frag1 frag2 : NFA}
    {n1 n2 : Nat} (h1 : assemble node1 n = (frag1, n1))
    (h2 : assemble node2 n1 = (frag2, n2)) :
    assemble (.union node1 node2) n =
      (((((NFA.mk' n2 (unionS frag1.accepts frag2.accepts)).mergeTransition
          frag1).mergeTransition frag2).addEmptyTransition n2
          frag1.start).addEmptyTransition n2 frag2.start,
       n2 + 1) := by
  unfold assemble
  rw [h1]
  show (match assemble node2 n1 with
    | (frag2, n2) =>
      (((((NFA.mk' n2 (unionS frag1.accepts frag2.accepts)).mergeTransition
          frag1).mergeTransition frag2).addEmptyTransition n2
          frag1.start).addEmptyTransition n2 frag2.start,
       n2 + 1)) = _
  rw [h2]

theorem assemble_concat_eq {node1 node2 : Node} {n : Nat} {frag1 frag2 : NFA}
    {n1 n2 : Nat} (h1 : assemble node1 n = (frag1, n1))
    (h2 : assemble node2 n1 = (frag2, n2)) :
    assemble (.concat node1 node2) n =
      (frag1.accepts.foldl (fun acc a => acc.addEmptyTransition a frag2.start)
        (((NFA.mk' frag1.start frag2.accepts).mergeTransition
          frag1).mergeTransition frag2),
       n2) := by
  unfold assemble
  rw [h1]
  show (match assemble node2 n1 with
    | (frag2, n2) =>
      (frag1.accepts.foldl (fun (acc : NFA) a => acc.addEmptyTransition a frag2.start)
        (((NFA.mk' frag1.start frag2.accepts).mergeTransition
          frag1).mergeTransition frag2),
       n2)) = _
  rw [h2]

theorem insertTransition_start (nfa : NFA) (src dst : Nat) (oc : Option Char) :
    (nfa.insertTransition src dst oc).start = nfa.start := rfl

theorem insertTransition_accepts (nfa : NFA) (src dst : Nat)
    (oc : Option Char) : (nfa.insertTransition src dst oc).accepts = nfa.accepts :=
  rfl

theorem merge_start (a b : NFA) : (a.mergeTransition b).start = a.start := rfl

theorem merge_accepts (a b : NFA) : (a.mergeTransition b).accepts = a.accepts := rfl

theorem addEmptyFold_start {t : Nat} :
    ∀ (as : List Nat) (nfa : NFA),
    (as.foldl (fun acc a => acc.addEmptyTransition a t) nfa).start = nfa.start
  | [], _ => rfl
  | a :: rest, nfa => by
    rw [List.foldl_cons]
    exact addEmptyFold_start rest (nfa.addEmptyTransition a t)

theorem addEmptyFold_accepts {t : Nat} :
    ∀ (as : List Nat) (nfa : NFA),
    (as.foldl (fun acc a => acc.addEmptyTransition a t) nfa).accepts = nfa.accepts
  | [], _ => rfl
  | a :: rest, nfa => by
    rw [List.foldl_cons]
    exact addEmptyFold_accepts rest (nfa.addEmptyTransition a t)

theorem WFTable_addEmptyFold {t : Nat} :
    ∀ (as : List Nat) {nfa : NFA}, WFTable nfa.trans →
    WFTable ((as.foldl (fun acc a => acc.addEmptyTransition a t) nfa)).trans
  | [], _, h => h
  | a :: rest, nfa, h => by
    rw [List.foldl_cons]
    exact WFTable_addEmptyFold rest (WFTable_insertTransition h a t none)

theorem nextStates_mk' (s : Nat) (a : List Nat) (q : Nat)
    (oc : Option Char) : (NFA.mk' s a).nextStates q oc = [] := rfl

/-- Every assembled fragment has a well-formed (duplicate-key free) table. -/
theorem assemble_WFTable : ∀ (node : Node) (n : Nat),
    WFTable (assemble node n).1.trans := by
  intro node
  induction node with
  | character c =>
    intro n
    rw [assemble_character_eq]
    exact WFTable_insertTransition WFTable_nil n (n + 1) (some c)
  | empty =>
    intro n
    rw [assemble_empty_eq]
    exact WFTable_insertTransition WFTable_nil n (n + 1) none
  | star node ih =>
    intro n
    obtain ⟨frag, n1, h⟩ : ∃ frag n1, assemble node n = (frag, n1) :=
      ⟨_, _, rfl⟩
    rw [assemble_star_eq h]
    refine WFTable_addEmptyFold _ (WFTable_insertTransition ?_ n1 frag.start none)
    exact WFTable_merge WFTable_nil
  | union node1 node2 ih1 ih2 =>
    intro n
    obtain ⟨frag1, n1, h1⟩ : ∃ frag n1, assemble node1 n = (frag, n1) := ⟨_, _, rfl⟩
    obtain ⟨frag2, n2, h2⟩ : ∃ frag n2, assemble node2 n1 = (frag, n2) := ⟨_, _, rfl⟩
    rw [assemble_union_eq h1 h2]
    exact WFTable_insertTransition
      (WFTable_insertTransition (WFTable_merge (WFTable_merge WFTable_nil))
        n2 frag1.start none) n2 frag2.start none
  | concat node1 node2 ih1 ih2 =>
    intro n
    obtain ⟨frag1, n1, h1⟩ : ∃ frag n1, assemble node1 n = (frag, n1) := ⟨_, _, rfl⟩
    obtain ⟨frag2, n2, h2⟩ : ∃ frag n2, assemble node2 n1 = (frag, n2) := ⟨_, _, rfl⟩
    rw [assemble_concat_eq h1 h2]
    exact WFTable_addEmptyFold _ (WFTable_merge (WFTable_merge WFTable_nil))

/-- Edge characterization of the `Star` fragment. -/
theorem star_edges {node : Node} {n : Nat} {frag : NFA} {n1 : Nat}
    (h : assemble node n = (frag, n1)) (hwf : WFTable frag.trans)
    (q : Nat) (oc : Option Char) (x : Nat) :
    x ∈ (assemble (.star node) n).1.nextStates q oc ↔
      (x ∈ frag.nextStates q oc ∨
        (q = n1 ∧ oc = none ∧ x = frag.start) ∨
        (q ∈ frag.accepts ∧ oc = none ∧ x = frag.start)) := by
  rw [assemble_star_eq h]
  dsimp only
  rw [mem_nextStates_addEmptyFold]
  unfold NFA.addEmptyTransition
  rw [mem_nextStates_insertTransition, mem_nextStates_merge hwf, nextStates_mk']
  simp only [List.not_mem_nil, false_or]
  tauto

/-- Edge characterization of the `Union` fragment. -/
theorem union_edges {node1 node2 : Node} {n : Nat} {frag1 frag2 : NFA}
    {n1 n2 : Nat} (h1 : assemble node1 n = (frag1, n1))
    (h2 : assemble node2 n1 = (frag2, n2)) (hwf1 : WFTable frag1.trans)
    (hwf2 : WFTable frag2.trans) (q : Nat) (oc : Option Char) (x : Nat) :
    x ∈ (assemble (.union node1 node2) n).1.nextStates q oc ↔
      (x ∈ frag1.nextStates q oc ∨ x ∈ frag2.nextStates q oc ∨
        (q = n2 ∧ oc = none ∧ (x = frag1.start ∨ x = frag2.start))) := by
  rw [assemble_union_eq h1 h2]
  unfold NFA.addEmptyTransition
  rw [mem_nextStates_insertTransition, mem_nextStates_insertTransition,
    mem_nextStates_merge hwf2]
  have : ∀ y, y ∈ ((NFA.mk' n2 (unionS frag1.accepts
      frag2.accepts)).mergeTransition frag1).nextStates q oc ↔
      y ∈ frag1.nextStates q oc := by
    intro y
    rw [mem_nextStates_merge hwf1, nextStates_mk']
    simp
  rw [this]
  tauto

/-- Edge characterization of the `Concat` fragment. -/
theorem concat_edges {node1 node2 : Node} {n : Nat} {frag1 frag2 : NFA}
    {n1 n2 : Nat} (h1 : assemble node1 n = (frag1, n1))
    (h2 : assemble node2 n1 = (frag2, n2)) (hwf1 : WFTable frag1.trans)
    (hwf2 : WFTable frag2.trans) (q : Nat) (oc : Option Char) (x : Nat) :
    x ∈ (assemble (.concat node1 node2) n).1.nextStates q oc ↔
      (x ∈ frag1.nextStates q oc ∨ x ∈ frag2.nextStates q oc ∨
        (q ∈ frag1.accepts ∧ oc = none ∧ x = frag2.start)) := by
  rw [assemble_concat_eq h1 h2]
  dsimp only
  rw [mem_nextStates_addEmptyFold, mem_nextStates_merge hwf2]
  have : ∀ y, y ∈ ((NFA.mk' frag1.start
      frag2.accepts).mergeTransition frag1).nextStates q oc ↔
      y ∈ frag1.nextStates q oc := by
    intro y
    rw [mem_nextStates_merge hwf1, nextStates_mk']
    simp
  rw [this]
  tauto

/-- Edge characterization of the `Literal` fragment. -/
theorem character_edges (c : Char) (n : Nat) (q : Nat) (oc : Option Char)
    (x : Nat) :
    x ∈ (assemble (.character c) n).1.nextStates q oc ↔
      (q = n ∧ oc = some c ∧ x = n + 1) := by
  rw [assemble_character_eq]
  unfold NFA.addTransition
  rw [mem_nextStates_insertTransition, nextStates_mk']
  simp

/-- Edge characterization of the `Empty` fragment. -/
theorem empty_edges (n : Nat) (q : Nat) (oc : Option Char) (x : Nat) :
    x ∈ (assemble .empty n).1.nextStates q oc ↔
      (q = n ∧ oc = none ∧ x = n + 1) := by
  rw [assemble_empty_eq]
  unfold NFA.addEmptyTransition
  rw [mem_nextStates_insertTransition, nextStates_mk']
  simp

theorem assemble_star_start {node : Node} {n : Nat} {frag : NFA} {n1 : Nat}
    (h : assemble node n = (frag, n1)) :
    (assemble (.star node) n).1.start = n1 := by
  rw [assemble_star_eq h]
  exact addEmptyFold_start _ _

theorem assemble_star_accepts {node : Node} {n : Nat} {frag : NFA} {n1 : Nat}
    (h : assemble node n = (frag, n1)) :
    (assemble (.star node) n).1.accepts = unionS frag.accepts [n1] := by
  rw [assemble_star_eq h]
  exact addEmptyFold_accepts _ _

theorem assemble_star_counter {node : Node} {n : Nat} {frag : NFA} {n1 : Nat}
    (h : assemble node n = (frag, n1)) :
    (assemble (.star node) n).2 = n1 + 1 := by
  rw [assemble_star_eq h]

theorem assemble_union_start {node1 node2 : Node} {n : Nat} {frag1 frag2 : NFA}
    {n1 n2 : Nat} (h1 : assemble node1 n = (frag1, n1))
    (h2 : assemble node2 n1 = (frag2, n2)) :
    (assemble (.union node1 node2) n).1.start = n2 := by
  rw [assemble_union_eq h1 h2]
  rfl

theorem assemble_union_accepts {node1 node2 : Node} {n : Nat} {frag1 frag2 : NFA}
    {n1 n2 : Nat} (h1 : assemble node1 n = (frag1, n1))
    (h2 : assemble node2 n1 = (frag2, n2)) :
    (assemble (.union node1 node2) n).1.accepts =
      unionS frag1.accepts frag2.accepts := by
  rw [assemble_union_eq h1 h2]
  rfl

theorem assemble_union_counter {node1 node2 : Node} {n : Nat} {frag1 frag2 : NFA}
    {n1 n2 : Nat} (h1 : assemble node1 n = (frag1, n1))
    (h2 : assemble node2 n1 = (frag2, n2)) :
    (assemble (.union node1 node2) n).2 = n2 + 1 := by
  rw [assemble_union_eq h1 h2]

theorem assemble_concat_start {node1 node2 : Node} {n : Nat} {frag1 frag2 : NFA}
    {n1 n2 : Nat} (h1 : assemble node1 n = (frag1, n1))
    (h2 : assemble node2 n1 = (frag2, n2)) :
    (assemble (.concat node1 node2) n).1.start = frag1.start := by
  rw [assemble_concat_eq h1 h2]
  exact addEmptyFold_start _ _

theorem assemble_concat_accepts {node1 node2 : Node} {n : Nat}
    {frag1 frag2 : NFA} {n1 n2 : Nat} (h1 : assemble node1 n = (frag1, n1))
    (h2 : assemble node2 n1 = (frag2, n2)) :
    (assemble (.concat node1 node2) n).1.accepts = frag2.accepts := by
  rw [assemble_concat_eq h1 h2]
  exact addEmptyFold_accepts _ _

theorem assemble_concat_counter {node1 node2 : Node} {n : Nat}
    {frag1 frag2 : NFA} {n1 n2 : Nat} (h1 : assemble node1 n = (frag1, n1))
    (h2 : assemble node2 n1 = (frag2, n2)) :
    (assemble (.concat node1 node2) n).2 = n2 := by
  rw [assemble_concat_eq h1 h2]

/-- The assembled fragment only mentions states in the interval of counter
values consumed by its construction, and the counter strictly increases. -/
theorem assemble_bounds : ∀ (node : Node) (n : Nat),
    n < (assemble node n).2 ∧ StateIn (assemble node n).1 n (assemble node n).2 := by
  intro node
  induction node with
  | character c =>
    intro n
    refine ⟨?_, ⟨?_, ?_, ?_⟩⟩
    · show n < n + 2
      omega
    · exact ⟨(by omega : n ≤ n), (by omega : n < n + 2)⟩
    · intro a ha
      have ha2 : a ∈ [n + 1] := ha
      rcases List.mem_singleton.mp ha2 with rfl
      exact ⟨(by omega : n ≤ n + 1), (by omega : n + 1 < n + 2)⟩
    · intro q oc x hx
      rw [character_edges] at hx
      obtain ⟨rfl, _, rfl⟩ := hx
      exact ⟨⟨(by omega : q ≤ q), (by omega : q < q + 2)⟩,
        ⟨(by omega : q ≤ q + 1), (by omega : q + 1 < q + 2)⟩⟩
  | empty =>
    intro n
    refine ⟨?_, ⟨?_, ?_, ?_⟩⟩
    · show n < n + 2
      omega
    · exact ⟨(by omega : n ≤ n), (by omega : n < n + 2)⟩
    · intro a ha
      have ha2 : a ∈ [n + 1] := ha
      rcases List.mem_singleton.mp ha2 with rfl
      exact ⟨(by omega : n ≤ n + 1), (by omega : n + 1 < n + 2)⟩
    · intro q oc x hx
      rw [empty_edges] at hx
      obtain ⟨rfl, _, rfl⟩ := hx
      exact ⟨⟨(by omega : q ≤ q), (by omega : q < q + 2)⟩,
        ⟨(by omega : q ≤ q + 1), (by omega : q + 1 < q + 2)⟩⟩
  | star node ih =>
    intro n
    obtain ⟨frag, n1, h⟩ : ∃ frag n1, assemble node n = (frag, n1) := ⟨_, _, rfl⟩
    have ih' : n < n1 ∧ StateIn frag n n1 := by
      have hx := ih n
      rw [h] at hx
      exact hx
    obtain ⟨hn1, ⟨hst, hacc, hedge⟩⟩ := ih'
    obtain ⟨hst1, hst2⟩ := hst
    have hwf : WFTable frag.trans := by
      have hx := assemble_WFTable node n
      rw [h] at hx
      exact hx
    rw [assemble_star_counter h]
    refine ⟨by omega, ⟨?_, ?_, ?_⟩⟩
    · rw [assemble_star_start h]
      exact ⟨by omega, by omega⟩
    · intro a ha
      rw [assemble_star_accepts h] at ha
      rcases mem_unionS.mp ha with h1 | h1
      · obtain ⟨g1, g2⟩ := hacc a h1
        exact ⟨by omega, by omega⟩
      · rcases List.mem_singleton.mp h1 with rfl
        exact ⟨by omega, by omega⟩
    · intro q oc x hx
      rw [star_edges h hwf] at hx
      rcases hx with h1 | ⟨rfl, _, rfl⟩ | ⟨h1, _, rfl⟩
      · obtain ⟨⟨g1, g2⟩, ⟨g3, g4⟩⟩ := hedge q oc x h1
        exact ⟨⟨by omega, by omega⟩, ⟨by omega, by omega⟩⟩
      · exact ⟨⟨by omega, by omega⟩, ⟨by omega, by omega⟩⟩
      · obtain ⟨g1, g2⟩ := hacc q h1
        exact ⟨⟨by omega, by omega⟩, ⟨by omega, by omega⟩⟩
  | union node1 node2 ih1 ih2 =>
    intro n
    obtain ⟨frag1, n1, h1⟩ : ∃ f m, assemble node1 n = (f, m) := ⟨_, _, rfl⟩
    obtain ⟨frag2, n2, h2⟩ : ∃ f m, assemble node2 n1 = (f, m) := ⟨_, _, rfl⟩
    have ih1' : n < n1 ∧ StateIn frag1 n n1 := by
      have hx := ih1 n
      rw [h1] at hx
      exact hx
    have ih2' : n1 < n2 ∧ StateIn frag2 n1 n2 := by
      have hx := ih2 n1
      rw [h2] at hx
      exact hx
    obtain ⟨hn1, ⟨⟨hsta1, hstb1⟩, hacc1, hedge1⟩⟩ := ih1'
    obtain ⟨hn2, ⟨⟨hsta2, hstb2⟩, hacc2, hedge2⟩⟩ := ih2'
    have hwf1 : WFTable frag1.trans := by
      have hx := assemble_WFTable node1 n
      rw [h1] at hx
      exact hx
    have hwf2 : WFTable frag2.trans := by
      have hx := assemble_WFTable node2 n1
      rw [h2] at hx
      exact hx
    rw [assemble_union_counter h1 h2]
    refine ⟨by omega, ⟨?_, ?_, ?_⟩⟩
    · rw [assemble_union_start h1 h2]
      exact ⟨by omega, by omega⟩
    · intro a ha
      rw [assemble_union_accepts h1 h2] at ha
      rcases mem_unionS.mp ha with h3 | h3
      · obtain ⟨g1, g2⟩ := hacc1 a h3
        exact ⟨by omega, by omega⟩
      · obtain ⟨g1, g2⟩ := hacc2 a h3
        exact ⟨by omega, by omega⟩
    · intro q oc x hx
      rw [union_edges h1 h2 hwf1 hwf2] at hx
      rcases hx with h3 | h3 | ⟨rfl, _, h3⟩
      · obtain ⟨⟨g1, g2⟩, ⟨g3, g4⟩⟩ := hedge1 q oc x h3
        exact ⟨⟨by omega, by omega⟩, ⟨by omega, by omega⟩⟩
      · obtain ⟨⟨g1, g2⟩, ⟨g3, g4⟩⟩ := hedge2 q oc x h3
        exact ⟨⟨by omega, by omega⟩, ⟨by omega, by omega⟩⟩
      · rcases h3 with rfl | rfl
        · exact ⟨⟨by omega, by omega⟩, ⟨by omega, by omega⟩⟩
        · exact ⟨⟨by omega, by omega⟩, ⟨by omega, by omega⟩⟩
  | concat node1 node2 ih1 ih2 =>
    intro n
    obtain ⟨frag1, n1, h1⟩ : ∃ f m, assemble node1 n = (f, m) := ⟨_, _, rfl⟩
    obtain ⟨frag2, n2, h2⟩ : ∃ f m, assemble node2 n1 = (f, m) := ⟨_, _, rfl⟩
    have ih1' : n < n1 ∧ StateIn frag1 n n1 := by
      have hx := ih1 n
      rw [h1] at hx
      exact hx
    have ih2' : n1 < n2 ∧ StateIn frag2 n1 n2 := by
      have hx := ih2 n1
      rw [h2] at hx
      exact hx
    obtain ⟨hn1, ⟨⟨hsta1, hstb1⟩, hacc1, hedge1⟩⟩ := ih1'
    obtain ⟨hn2, ⟨⟨hsta2, hstb2⟩, hacc2, hedge2⟩⟩ := ih2'
    have hwf1 : WFTable frag1.trans := by
      have hx := assemble_WFTable node1 n
      rw [h1] at hx
      exact hx
    have hwf2 : WFTable frag2.trans := by
      have hx := assemble_WFTable node2 n1
      rw [h2] at hx
      exact hx
    rw [assemble_concat_counter h1 h2]
    refine ⟨by omega, ⟨?_, ?_, ?_⟩⟩
    · rw [assemble_concat_start h1 h2]
      exact ⟨by omega, by omega⟩
    · intro a ha
      rw [assemble_concat_accepts h1 h2] at ha
      obtain ⟨g1, g2⟩ := hacc2 a ha
      exact ⟨by omega, by omega⟩
    · intro q oc x hx
      rw [concat_edges h1 h2 hwf1 hwf2] at hx
      rcases hx with h3 | h3 | ⟨h3, _, rfl⟩
      · obtain ⟨⟨g1, g2⟩, ⟨g3, g4⟩⟩ := hedge1 q oc x h3
        exact ⟨⟨by omega, by omega⟩, ⟨by omega, by omega⟩⟩
      · obtain ⟨⟨g1, g2⟩, ⟨g3, g4⟩⟩ := hedge2 q oc x h3
        exact ⟨⟨by omega, by omega⟩, ⟨by omega, by omega⟩⟩
      · obtain ⟨g1, g2⟩ := hacc1 q h3
        exact ⟨⟨by omega, by omega⟩, ⟨by omega, by omega⟩⟩

/-! ## Claim C6: the shape of the `Star` fragment -/

/-- C6: assembling `Star(child)` builds the child fragment `F`, creates one
fresh state `s` (the current counter value, consumed by incrementing the
counter), adds an epsilon edge from `s` to `F.start` and an epsilon edge from
every accept state of `F` back to `F.start` — and no other edge — and yields a
fragment whose start is `s` and whose accept set is `F.accepts` together with
`s` (so the empty repetition is accepted). -/
theorem c6_star_assembly {node : Node} {n : Nat} {frag : NFA} {n1 : Nat}
    (h : assemble node n = (frag, n1)) :
    (assemble (.star node) n).2 = n1 + 1 ∧
    (assemble (.star node) n).1.start = n1 ∧
    (∀ a, a ∈ (assemble (.star node) n).1.accepts ↔
      (a ∈ frag.accepts ∨ a = n1)) ∧
    (∀ q oc x, x ∈ (assemble (.star node) n).1.nextStates q oc ↔
      (x ∈ frag.nextStates q oc ∨
        (q = n1 ∧ oc = none ∧ x = frag.start) ∨
        (q ∈ frag.accepts ∧ oc = none ∧ x = frag.start))) := by
  have hwf : WFTable frag.trans := by
    have hx := assemble_WFTable node n
    rw [h] at hx
    exact hx
  refine ⟨assemble_star_counter h, assemble_star_start h, ?_,
    fun q oc x => star_edges h hwf q oc x⟩
  intro a
  rw [assemble_star_accepts h, mem_unionS, List.mem_singleton]

/-- Witness for `c6_star_assembly` on the child `Literal('a')`. -/
theorem c6_witness :
    assemble (.character 'a') 0 = ((NFA.mk' 0 [1]).addTransition 0 'a' 1, 2) ∧
    ((assemble (.star (.character 'a')) 0).2 = 2 + 1 ∧
      (assemble (.star (.character 'a')) 0).1.start = 2 ∧
      (∀ a, a ∈ (assemble (.star (.character 'a')) 0).1.accepts ↔
        (a ∈ ((NFA.mk' 0 [1]).addTransition 0 'a' 1).accepts ∨ a = 2)) ∧
      (∀ q oc x, x ∈ (assemble (.star (.character 'a')) 0).1.nextStates q oc ↔
        (x ∈ ((NFA.mk' 0 [1]).addTransition 0 'a' 1).nextStates q oc ∨
          (q = 2 ∧ oc = none ∧
            x = ((NFA.mk' 0 [1]).addTransition 0 'a' 1).start) ∨
          (q ∈ ((NFA.mk' 0 [1]).addTransition 0 'a' 1).accepts ∧ oc = none ∧
            x = ((NFA.mk' 0 [1]).addTransition 0 'a' 1).start)))) :=
  ⟨rfl, c6_star_assembly rfl⟩

/-! ## Claim C10: no state of a Thompson NFA mixes edge kinds -/

/-- Strengthened induction invariant: in any assembled fragment, a state with
an outgoing symbol edge has exactly that one edge and no epsilon out-edges,
and accept states have no symbol out-edges. -/
theorem assemble_no_mixed : ∀ (node : Node) (n : Nat),
    (∀ q c x, x ∈ (assemble node n).1.nextStates q (some c) →
      ((∀ c' x', x' ∈ (assemble node n).1.nextStates q (some c') →
        c' = c ∧ x' = x) ∧
       (assemble node n).1.nextStates q none = [])) ∧
    (∀ a ∈ (assemble node n).1.accepts, ∀ c x,
      x ∉ (assemble node n).1.nextStates a (some c)) := by
  intro node
  induction node with
  | character c0 =>
    intro n
    constructor
    · intro q c x hx
      rw [character_edges] at hx
      obtain ⟨rfl, hoc, rfl⟩ := hx
      obtain rfl : c = c0 := by
        injection hoc
      refine ⟨?_, ?_⟩
      · intro c' x' hx'
        rw [character_edges] at hx'
        obtain ⟨_, hoc', rfl⟩ := hx'
        obtain rfl : c' = c := by
          injection hoc'
        exact ⟨rfl, rfl⟩
      · rw [List.eq_nil_iff_forall_not_mem]
        intro y hy
        rw [character_edges] at hy
        exact Option.noConfusion hy.2.1
    · intro a ha c x hx
      have ha2 : a ∈ [n + 1] := ha
      rcases List.mem_singleton.mp ha2 with rfl
      rw [character_edges] at hx
      omega
  | empty =>
    intro n
    constructor
    · intro q c x hx
      rw [empty_edges] at hx
      exact Option.noConfusion hx.2.1
    · intro a ha c x hx
      rw [empty_edges] at hx
      exact Option.noConfusion hx.2.1
  | star node ih =>
    intro n
    obtain ⟨frag, n1, h⟩ : ∃ f m, assemble node n = (f, m) := ⟨_, _, rfl⟩
    have ih' : (∀ q c x, x ∈ frag.nextStates q (some c) →
        ((∀ c' x', x' ∈ frag.nextStates q (some c') → c' = c ∧ x' = x) ∧
         frag.nextStates q none = [])) ∧
        (∀ a ∈ frag.accepts, ∀ c x, x ∉ frag.nextStates a (some c)) := by
      have hx := ih n
      rw [h] at hx
      exact hx
    obtain ⟨ihc, iha⟩ := ih'
    have hwf : WFTable frag.trans := by
      have hx := assemble_WFTable node n
      rw [h] at hx
      exact hx
    have hb : StateIn frag n n1 := by
      have hx := (assemble_bounds node n).2
      rw [h] at hx
      exact hx
    constructor
    · intro q c x hx
      rw [star_edges h hwf] at hx
      rcases hx with hx | ⟨_, hoc, _⟩ | ⟨_, hoc, _⟩
      · obtain ⟨huniq, heps⟩ := ihc q c x hx
        refine ⟨?_, ?_⟩
        · intro c' x' hx'
          rw [star_edges h hwf] at hx'
          rcases hx' with hx' | ⟨_, hoc', _⟩ | ⟨_, hoc', _⟩
          · exact huniq c' x' hx'
          · exact Option.noConfusion hoc'
          · exact Option.noConfusion hoc'
        · rw [List.eq_nil_iff_forall_not_mem]
          intro y hy
          rw [star_edges h hwf] at hy
          rcases hy with hy | ⟨rfl, _, _⟩ | ⟨hacc', _, _⟩
          · rw [heps] at hy
            exact absurd hy (List.not_mem_nil y)
          · have := (hb.2.2 q _ x hx).1.2
            omega
          · exact iha q hacc' c x hx
      · exact Option.noConfusion hoc
      · exact Option.noConfusion hoc
    · intro a ha c x hx
      rw [assemble_star_accepts h, mem_unionS] at ha
      rw [star_edges h hwf] at hx
      rcases hx with hx | ⟨_, hoc, _⟩ | ⟨_, hoc, _⟩
      · rcases ha with ha | ha
        · exact iha a ha c x hx
        · rcases List.mem_singleton.mp ha with rfl
          have := (hb.2.2 a _ x hx).1.2
          omega
      · exact Option.noConfusion hoc
      · exact Option.noConfusion hoc
  | union node1 node2 ih1 ih2 =>
    intro n
    obtain ⟨frag1, n1, h1⟩ : ∃ f m, assemble node1 n = (f, m) := ⟨_, _, rfl⟩
    obtain ⟨frag2, n2, h2⟩ : ∃ f m, assemble node2 n1 = (f, m) := ⟨_, _, rfl⟩
    have ih1' : (∀ q c x, x ∈ frag1.nextStates q (some c) →
        ((∀ c' x', x' ∈ frag1.nextStates q (some c') → c' = c ∧ x' = x) ∧
         frag1.nextStates q none = [])) ∧
        (∀ a ∈ frag1.accepts, ∀ c x, x ∉ frag1.nextStates a (some c)) := by
      have hx := ih1 n
      rw [h1] at hx
      exact hx
    have ih2' : (∀ q c x, x ∈ frag2.nextStates q (some c) →
        ((∀ c' x', x' ∈ frag2.nextStates q (some c') → c' = c ∧ x' = x) ∧
         frag2.nextStates q none = [])) ∧
        (∀ a ∈ frag2.accepts, ∀ c x, x ∉ frag2.nextStates a (some c)) := by
      have hx := ih2 n1
      rw [h2] at hx
      exact hx
    obtain ⟨ihc1, iha1⟩ := ih1'
    obtain ⟨ihc2, iha2⟩ := ih2'
    have hwf1 : WFTable frag1.trans := by
      have hx := assemble_WFTable node1 n
      rw [h1] at hx
      exact hx
    have hwf2 : WFTable frag2.trans := by
      have hx := assemble_WFTable node2 n1
      rw [h2] at hx
      exact hx
    have hb1 : StateIn frag1 n n1 := by
      have hx := (assemble_bounds node1 n).2
      rw [h1] at hx
      exact hx
    have hb2 : StateIn frag2 n1 n2 := by
      have hx := (assemble_bounds node2 n1).2
      rw [h2] at hx
      exact hx
    have hn2 : n1 < n2 := by
      have hx := (assemble_bounds node2 n1).1
      rw [h2] at hx
      exact hx
    constructor
    · intro q c x hx
      rw [union_edges h1 h2 hwf1 hwf2] at hx
      rcases hx with hx | hx | ⟨_, hoc, _⟩
      · obtain ⟨huniq, heps⟩ := ihc1 q c x hx
        have hqlt : q < n1 := (hb1.2.2 q _ x hx).1.2
        refine ⟨?_, ?_⟩
        · intro c' x' hx'
          rw [union_edges h1 h2 hwf1 hwf2] at hx'
          rcases hx' with hx' | hx' | ⟨rfl, _, _⟩
          · exact huniq c' x' hx'
          · have := (hb2.2.2 q _ x' hx').1.1
            omega
          · omega
        · rw [List.eq_nil_iff_forall_not_mem]
          intro y hy
          rw [union_edges h1 h2 hwf1 hwf2] at hy
          rcases hy with hy | hy | ⟨rfl, _, _⟩
          · rw [heps] at hy
            exact absurd hy (List.not_mem_nil y)
          · have := (hb2.2.2 q _ y hy).1.1
            omega
          · omega
      · obtain ⟨huniq, heps⟩ := ihc2 q c x hx
        have hqge : n1 ≤ q := (hb2.2.2 q _ x hx).1.1
        have hqlt : q < n2 := (hb2.2.2 q _ x hx).1.2
        refine ⟨?_, ?_⟩
        · intro c' x' hx'
          rw [union_edges h1 h2 hwf1 hwf2] at hx'
          rcases hx' with hx' | hx' | ⟨rfl, _, _⟩
          · have := (hb1.2.2 q _ x' hx').1.2
            omega
          · exact huniq c' x' hx'
          · omega
        · rw [List.eq_nil_iff_forall_not_mem]
          intro y hy
          rw [union_edges h1 h2 hwf1 hwf2] at hy
          rcases hy with hy | hy | ⟨rfl, _, _⟩
          · have := (hb1.2.2 q _ y hy).1.2
            omega
          · rw [heps] at hy
            exact absurd hy (List.not_mem_nil y)
          · omega
      · exact Option.noConfusion hoc
    · intro a ha c x hx
      rw [assemble_union_accepts h1 h2, mem_unionS] at ha
      rw [union_edges h1 h2 hwf1 hwf2] at hx
      rcases hx with hx | hx | ⟨_, hoc, _⟩
      · rcases ha with ha | ha
        · exact iha1 a ha c x hx
        · have hge := (hb2.2.1 a ha).1
          have := (hb1.2.2 a _ x hx).1.2
          omega
      · rcases ha with ha | ha
        · have hlt := (hb1.2.1 a ha).2
          have := (hb2.2.2 a _ x hx).1.1
          omega
        · exact iha2 a ha c x hx
      · exact Option.noConfusion hoc
  | concat node1 node2 ih1 ih2 =>
    intro n
    obtain ⟨frag1, n1, h1⟩ : ∃ f m, assemble node1 n = (f, m) := ⟨_, _, rfl⟩
    obtain ⟨frag2, n2, h2⟩ : ∃ f m, assemble node2 n1 = (f, m) := ⟨_, _, rfl⟩
    have ih1' : (∀ q c x, x ∈ frag1.nextStates q (some c) →
        ((∀ c' x', x' ∈ frag1.nextStates q (some c') → c' = c ∧ x' = x) ∧
         frag1.nextStates q none = [])) ∧
        (∀ a ∈ frag1.accepts, ∀ c x, x ∉ frag1.nextStates a (some c)) := by
      have hx := ih1 n
      rw [h1] at hx
      exact hx
    have ih2' : (∀ q c x, x ∈ frag2.nextStates q (some c) →
        ((∀ c' x', x' ∈ frag2.nextStates q (some c') → c' = c ∧ x' = x) ∧
         frag2.nextStates q none = [])) ∧
        (∀ a ∈ frag2.accepts, ∀ c x, x ∉ frag2.nextStates a (some c)) := by
      have hx := ih2 n1
      rw [h2] at hx
      exact hx
    obtain ⟨ihc1, iha1⟩ := ih1'
    obtain ⟨ihc2, iha2⟩ := ih2'
    have hwf1 : WFTable frag1.trans := by
      have hx := assemble_WFTable node1 n
      rw [h1] at hx
      exact hx
    have hwf2 : WFTable frag2.trans := by
      have hx := assemble_WFTable node2 n1
      rw [h2] at hx
      exact hx
    have hb1 : StateIn frag1 n n1 := by
      have hx := (assemble_bounds node1 n).2
      rw [h1] at hx
      exact hx
    have hb2 : StateIn frag2 n1 n2 := by
      have hx := (assemble_bounds node2 n1).2
      rw [h2] at hx
      exact hx
    constructor
    · intro q c x hx
      rw [concat_edges h1 h2 hwf1 hwf2] at hx
      rcases hx with hx | hx | ⟨_, hoc, _⟩
      · obtain ⟨huniq, heps⟩ := ihc1 q c x hx
        have hqlt : q < n1 := (hb1.2.2 q _ x hx).1.2
        refine ⟨?_, ?_⟩
        · intro c' x' hx'
          rw [concat_edges h1 h2 hwf1 hwf2] at hx'
          rcases hx' with hx' | hx' | ⟨hacc', hoc', _⟩
          · exact huniq c' x' hx'
          · have := (hb2.2.2 q _ x' hx').1.1
            omega
          · exact Option.noConfusion hoc'
        · rw [List.eq_nil_iff_forall_not_mem]
          intro y hy
          rw [concat_edges h1 h2 hwf1 hwf2] at hy
          rcases hy with hy | hy | ⟨hacc', _, _⟩
          · rw [heps] at hy
            exact absurd hy (List.not_mem_nil y)
          · have := (hb2.2.2 q _ y hy).1.1
            omega
          · exact iha1 q hacc' c x hx
      · obtain ⟨huniq, heps⟩ := ihc2 q c x hx
        have hqge : n1 ≤ q := (hb2.2.2 q _ x hx).1.1
        refine ⟨?_, ?_⟩
        · intro c' x' hx'
          rw [concat_edges h1 h2 hwf1 hwf2] at hx'
          rcases hx' with hx' | hx' | ⟨hacc', hoc', _⟩
          · have := (hb1.2.2 q _ x' hx').1.2
            omega
          · exact huniq c' x' hx'
          · exact Option.noConfusion hoc'
        · rw [List.eq_nil_iff_forall_not_mem]
          intro y hy
          rw [concat_edges h1 h2 hwf1 hwf2] at hy
          rcases hy with hy | hy | ⟨hacc', _, _⟩
          · have := (hb1.2.2 q _ y hy).1.2
            omega
          · rw [heps] at hy
            exact absurd hy (List.not_mem_nil y)
          · have := (hb1.2.1 q hacc').2
            omega
      · exact Option.noConfusion hoc
    · intro a ha c x hx
      rw [assemble_concat_accepts h1 h2] at ha
      rw [concat_edges h1 h2 hwf1 hwf2] at hx
      rcases hx with hx | hx | ⟨_, hoc, _⟩
      · have hge := (hb2.2.1 a ha).1
        have := (hb1.2.2 a _ x hx).1.2
        omega
      · exact iha2 a ha c x hx
      · exact Option.noConfusion hoc

theorem insertS_ne_nil {α : Type} [DecidableEq α] (xs : List α) (x : α) :
    insertS xs x ≠ [] := by
  by_cases hmem : x ∈ xs
  · rw [insertS, if_pos hmem]
    intro h
    rw [h] at hmem
    exact absurd hmem (List.not_mem_nil x)
  · rw [insertS, if_neg hmem]
    simp

theorem extendS_ne_nil {α : Type} [DecidableEq α] {xs ys : List α}
    (h : xs ≠ [] ∨ ys ≠ []) : extendS xs ys ≠ [] := by
  have : ∃ a, a ∈ extendS xs ys := by
    rcases h with h | h
    · obtain ⟨a, ha⟩ := List.exists_mem_of_ne_nil _ h
      exact ⟨a, mem_extendS.mpr (Or.inl ha)⟩
    · obtain ⟨a, ha⟩ := List.exists_mem_of_ne_nil _ h
      exact ⟨a, mem_extendS.mpr (Or.inr ha)⟩
  obtain ⟨a, ha⟩ := this
  exact List.ne_nil_of_mem ha

theorem ValuesNonempty_updateEdge {m : NTrans} (h : ValuesNonempty m)
    (src : Nat) (oc0 : Option Char) {g : List Nat → List Nat}
    (hg : ∀ tos, g tos ≠ []) :
    ValuesNonempty (updateA src [] (updateA oc0 [] g) m) := by
  intro e he ct hct
  rcases mem_updateA he with h1 | ⟨v, rfl, hd⟩
  · exact h e h1 ct hct
  · rcases mem_updateA hct with h2 | ⟨w, rfl, _⟩
    · rcases hd with rfl | h3
      · exact absurd h2 (List.not_mem_nil ct)
      · exact h _ h3 ct h2
    · exact hg w

theorem ValuesNonempty_nil : ValuesNonempty [] := by
  intro e he
  exact absurd he (List.not_mem_nil e)

theorem ValuesNonempty_insertTransition {nfa : NFA} (h : ValuesNonempty nfa.trans)
    (src dst : Nat) (oc : Option Char) :
    ValuesNonempty (nfa.insertTransition src dst oc).trans :=
  ValuesNonempty_updateEdge h src oc (fun tos => insertS_ne_nil tos dst)

theorem ValuesNonempty_innerFold (src : Nat) :
    ∀ (cts : List (Option Char × List Nat)), (∀ ct ∈ cts, ct.2 ≠ []) →
    ∀ {acc : NTrans}, ValuesNonempty acc →
    ValuesNonempty (cts.foldl (fun acc2 ct =>
      updateA src [] (updateA ct.1 [] (fun tos => extendS tos ct.2)) acc2) acc)
  | [], _, _, hacc => hacc
  | ct :: rest, hcts, acc, hacc => by
    rw [List.foldl_cons]
    refine ValuesNonempty_innerFold src rest
      (fun ct2 h2 => hcts ct2 (List.mem_cons_of_mem _ h2)) ?_
    exact ValuesNonempty_updateEdge hacc src ct.1
      (fun tos => extendS_ne_nil (Or.inr (hcts ct (List.mem_cons_self _ _))))

theorem ValuesNonempty_outerFold :
    ∀ (es : NTrans), ValuesNonempty es → ∀ {acc : NTrans}, ValuesNonempty acc →
    ValuesNonempty (es.foldl (fun acc entry =>
      entry.2.foldl (fun acc2 ct =>
        updateA entry.1 [] (updateA ct.1 [] (fun tos => extendS tos ct.2)) acc2)
        acc) acc)
  | [], _, _, hacc => hacc
  | e :: rest, hes, acc, hacc => by
    rw [List.foldl_cons]
    refine ValuesNonempty_outerFold rest
      (fun e2 h2 => hes e2 (List.mem_cons_of_mem _ h2)) ?_
    exact ValuesNonempty_innerFold e.1 e.2
      (fun ct hct => hes e (List.mem_cons_self _ _) ct hct) hacc

theorem ValuesNonempty_merge {a b : NFA} (ha : ValuesNonempty a.trans)
    (hb : ValuesNonempty b.trans) : ValuesNonempty (a.mergeTransition b).trans :=
  ValuesNonempty_outerFold b.trans hb ha

theorem ValuesNonempty_addEmptyFold {t : Nat} :
    ∀ (as : List Nat) {nfa : NFA}, ValuesNonempty nfa.trans →
    ValuesNonempty ((as.foldl (fun acc a => acc.addEmptyTransition a t) nfa)).trans
  | [], _, h => h
  | a :: rest, nfa, h => by
    rw [List.foldl_cons]
    exact ValuesNonempty_addEmptyFold rest (ValuesNonempty_insertTransition h a t none)

theorem assemble_ValuesNonempty : ∀ (node : Node) (n : Nat),
    ValuesNonempty (assemble node n).1.trans := by
  intro node
  induction node with
  | character c =>
    intro n
    rw [assemble_character_eq]
    exact ValuesNonempty_insertTransition ValuesNonempty_nil n (n + 1) (some c)
  | empty =>
    intro n
    rw [assemble_empty_eq]
    exact ValuesNonempty_insertTransition ValuesNonempty_nil n (n + 1) none
  | star node ih =>
    intro n
    obtain ⟨frag, n1, h⟩ : ∃ f m, assemble node n = (f, m) := ⟨_, _, rfl⟩
    have ihv : ValuesNonempty frag.trans := by
      have hx := ih n
      rw [h] at hx
      exact hx
    rw [assemble_star_eq h]
    exact ValuesNonempty_addEmptyFold _
      (ValuesNonempty_insertTransition (ValuesNonempty_merge ValuesNonempty_nil ihv)
        n1 frag.start none)
  | union node1 node2 ih1 ih2 =>
    intro n
    obtain ⟨frag1, n1, h1⟩ : ∃ f m, assemble node1 n = (f, m) := ⟨_, _, rfl⟩
    obtain ⟨frag2, n2, h2⟩ : ∃ f m, assemble node2 n1 = (f, m) := ⟨_, _, rfl⟩
    have ihv1 : ValuesNonempty frag1.trans := by
      have hx := ih1 n
      rw [h1] at hx
      exact hx
    have ihv2 : ValuesNonempty frag2.trans := by
      have hx := ih2 n1
      rw [h2] at hx
      exact hx
    rw [assemble_union_eq h1 h2]
    exact ValuesNonempty_insertTransition
      (ValuesNonempty_insertTransition
        (ValuesNonempty_merge (ValuesNonempty_merge ValuesNonempty_nil ihv1) ihv2)
        n2 frag1.start none) n2 frag2.start none
  | concat node1 node2 ih1 ih2 =>
    intro n
    obtain ⟨frag1, n1, h1⟩ : ∃ f m, assemble node1 n = (f, m) := ⟨_, _, rfl⟩
    obtain ⟨frag2, n2, h2⟩ : ∃ f m, assemble node2 n1 = (f, m) := ⟨_, _, rfl⟩
    have ihv1 : ValuesNonempty frag1.trans := by
      have hx := ih1 n
      rw [h1] at hx
      exact hx
    have ihv2 : ValuesNonempty frag2.trans := by
      have hx := ih2 n1
      rw [h2] at hx
      exact hx
    rw [assemble_concat_eq h1 h2]
    exact ValuesNonempty_addEmptyFold _
      (ValuesNonempty_merge (ValuesNonempty_merge ValuesNonempty_nil ihv1) ihv2)

/-- Every NFA produced by `from_node` has no mixed state: a state with a
symbol key in its transition table has no epsilon out-edges. -/
theorem fromNode_NoMixed (node : Node) : NoMixed (fromNode node) := by
  intro q c hkey
  obtain ⟨table, htab, hc⟩ : ∃ table,
      lookupA (fromNode node).trans q = some table ∧
      some c ∈ table.map Prod.fst := by
    unfold NFA.nextChars at hkey
    cases htab : lookupA (fromNode node).trans q with
    | none =>
      rw [htab] at hkey
      exact absurd hkey (List.not_mem_nil _)
    | some table =>
      rw [htab] at hkey
      exact ⟨table, rfl, hkey⟩
  obtain ⟨ct, hct, hfst⟩ := List.mem_map.mp hc
  have hwf : WFTable (fromNode node).trans := assemble_WFTable node 0
  have hvn : ValuesNonempty (fromNode node).trans := assemble_ValuesNonempty node 0
  have htosne : ct.2 ≠ [] := hvn (q, table) (lookupA_mem htab) ct hct
  obtain ⟨x, hx⟩ := List.exists_mem_of_ne_nil _ htosne
  have hctPair : ct = (some c, ct.2) := by
    obtain ⟨f, s⟩ := ct
    simp only at hfst
    rw [hfst]
  have hxmem : x ∈ (fromNode node).nextStates q (some c) := by
    rw [mem_nextStates_iff_entry hwf]
    refine ⟨table, lookupA_mem htab, ct.2, ?_, hx⟩
    rw [← hctPair]
    exact hct
  exact ((assemble_no_mixed node 0).1 q c x hxmem).2

/-- C10: in every NFA built by `from_node`, no state mixes outgoing edge
kinds: a state with an outgoing symbol-labelled transition has exactly one
such transition (one symbol, one destination) and no outgoing epsilon
transitions; consequently every other state has only epsilon out-edges or
none at all. -/
theorem c10_no_mixed_states (node : Node) (q : Nat) (c : Char) (x : Nat)
    (hx : x ∈ (fromNode node).nextStates q (some c)) :
    (∀ c' x', x' ∈ (fromNode node).nextStates q (some c') → c' = c ∧ x' = x) ∧
    (fromNode node).nextStates q none = [] :=
  (assemble_no_mixed node 0).1 q c x hx

/-- Witness for `c10_no_mixed_states` on the tree `Literal('a')`. -/
theorem c10_witness :
    (1 : Nat) ∈ (fromNode (.character 'a')).nextStates 0 (some 'a') ∧
    ((∀ c' x', x' ∈ (fromNode (.character 'a')).nextStates 0 (some c') →
      c' = 'a' ∧ x' = 1) ∧
     (fromNode (.character 'a')).nextStates 0 none = []) :=
  ⟨by decide, c10_no_mixed_states (.character 'a') 0 'a' 1 (by decide)⟩

/-! ## Claim C4: `Regex::new` panics on a lone trailing backslash -/

/-- C4: the lexer calls `.unwrap()` on the character following a backslash
(lexer.rs line 44), so a pattern consisting of (or ending in) a lone
backslash makes `Regex::new` panic instead of returning `Err`; it is neither
`Ok` nor `Err` there. -/
theorem c4_lone_backslash_panics :
    scan ['\\'] = none ∧
    regexNew ['\\'] = NewRes.panic ∧
    regexNew ['a', '\\'] = NewRes.panic ∧
    (∀ dfa, regexNew ['\\'] ≠ NewRes.ok dfa) ∧
    (∀ msg, regexNew ['\\'] ≠ NewRes.error msg) := by
  refine ⟨rfl, by decide, by decide, ?_, ?_⟩
  · intro dfa h
    rw [show regexNew ['\\'] = NewRes.panic from by decide] at h
    exact NewRes.noConfusion h
  · intro msg h
    rw [show regexNew ['\\'] = NewRes.panic from by decide] at h
    exact NewRes.noConfusion h

/-! ## Claim C8: re-expansion of canonical states in the work-list loop -/

theorem worklistLoopE_fst (nfa : NFA) (fuel : Nat) :
    ∀ (wfuel : Nat) (st : BuildSt) (evs : List Ev),
    (worklistLoopE nfa fuel wfuel st evs).map Prod.fst =
      worklistLoop nfa fuel wfuel st := by
  intro wfuel
  induction wfuel with
  | zero => intro st evs; rfl
  | succ n ih =>
    intro st evs
    show (match st.waiting with
      | [] => some (st, evs)
      | look :: waiting' =>
        match expandStep nfa fuel look { st with waiting := waiting' } with
        | none => none
        | some (st', id0, pushed) =>
          worklistLoopE nfa fuel n st'
            (evs ++ Ev.pop id0 :: (pushed.reverse.map Ev.push))).map Prod.fst =
      (match st.waiting with
      | [] => some st
      | look :: waiting' =>
        match expandStep nfa fuel look { st with waiting := waiting' } with
        | none => none
        | some (st', _, _) => worklistLoop nfa fuel n st')
    cases st.waiting with
    | nil => rfl
    | cons look waiting' =>
      show (match expandStep nfa fuel look { st with waiting := waiting' } with
        | none => none
        | some (st', id0, pushed) =>
          worklistLoopE nfa fuel n st'
            (evs ++ Ev.pop id0 :: (pushed.reverse.map Ev.push))).map Prod.fst =
        (match expandStep nfa fuel look { st with waiting := waiting' } with
        | none => none
        | some (st', _, _) => worklistLoop nfa fuel n st')
      cases expandStep nfa fuel look { st with waiting := waiting' } with
      | none => rfl
      | some res =>
        obtain ⟨st', id0, pushed⟩ := res
        exact ih st' _

theorem PushesSafe_append_pushes {seen : List Nat} :
    ∀ {l : List Nat} {rest : List Ev},
    (∀ i ∈ l, i ∉ seen) → PushesSafe seen rest →
    PushesSafe seen (l.map Ev.push ++ rest) := by
  intro l
  induction l with
  | nil => intro rest _ h; exact h
  | cons i l' ih =>
    intro rest hl h
    exact ⟨hl i (List.mem_cons_self _ _),
      ih (fun j hj => hl j (List.mem_cons_of_mem _ hj)) h⟩

theorem recordTransitions_spec (formState : Nat) :
    ∀ (entries : List (Char × List Nat)) (st : BuildSt),
    (recordTransitions formState entries st).1.visited = st.visited ∧
    ∀ i ∈ (recordTransitions formState entries st).2, i ∉ st.visited := by
  intro entries
  induction entries with
  | nil =>
    intro st
    exact ⟨rfl, fun i hi => absurd hi (List.not_mem_nil i)⟩
  | cons e rest ih =>
    intro st
    obtain ⟨c, nsl⟩ := e
    unfold recordTransitions
    cases st.ctx.getState nsl with
    | mk toState ctx' =>
      dsimp only
      constructor
      · exact (ih _).1
      · intro i hi
        rcases List.mem_append.mp hi with hi | hi
        · exact (ih { ctx := ctx',
                      table := insertA st.table (formState, c) toState,
                      waiting := if toState ∈ st.visited then st.waiting
                        else nsl :: st.waiting,
                      visited := st.visited }).2 i hi
        · by_cases hv : toState ∈ st.visited
          · rw [if_pos hv] at hi
            exact absurd hi (List.not_mem_nil i)
          · rw [if_neg hv] at hi
            rw [List.mem_singleton] at hi
            subst hi
            exact hv

theorem expandStep_spec {nfa : NFA} {fuel : Nat} {look : List Nat}
    {st st' : BuildSt} {id0 : Nat} {pushed : List Nat}
    (h : expandStep nfa fuel look st = some (st', id0, pushed)) :
    st'.visited = insertS st.visited id0 ∧
    id0 = (st.ctx.getState look).1 ∧
    ∀ i ∈ pushed, i ∉ insertS st.visited id0 := by
  unfold expandStep at h
  cases htm : buildTMap nfa fuel look [] with
  | none =>
    rw [htm] at h
    exact absurd h (by simp)
  | some tmap =>
    rw [htm] at h
    have h' : some
        ((recordTransitions (((st.ctx.getState look).2.getState look).1) tmap
          { ctx := ((st.ctx.getState look).2.getState look).2,
            table := st.table, waiting := st.waiting,
            visited := insertS st.visited (st.ctx.getState look).1 }).1,
         (st.ctx.getState look).1,
         (recordTransitions (((st.ctx.getState look).2.getState look).1) tmap
          { ctx := ((st.ctx.getState look).2.getState look).2,
            table := st.table, waiting := st.waiting,
            visited := insertS st.visited (st.ctx.getState look).1 }).2) =
        some (st', id0, pushed) := h
    injection h' with h2
    injection h2 with h3 h4
    injection h4 with h5 h6
    subst h3
    subst h6
    subst h5
    refine ⟨(recordTransitions_spec _ tmap _).1, rfl, ?_⟩
    intro i hi
    exact (recordTransitions_spec
      (((st.ctx.getState look).2.getState look).1) tmap
      { ctx := ((st.ctx.getState look).2.getState look).2,
        table := st.table, waiting := st.waiting,
        visited := insertS st.visited (st.ctx.getState look).1 }).2 i hi

theorem worklistLoopE_succ (nfa : NFA) (fuel n : Nat) (st : BuildSt)
    (evs : List Ev) :
    worklistLoopE nfa fuel (n + 1) st evs =
      (match st.waiting with
      | [] => some (st, evs)
      | look :: waiting' =>
        match expandStep nfa fuel look { st with waiting := waiting' } with
        | none => none
        | some (st', id0, pushed) =>
          worklistLoopE nfa fuel n st'
            (evs ++ Ev.pop id0 :: (pushed.reverse.map Ev.push))) := rfl

theorem worklistLoopE_safe (nfa : NFA) (fuel : Nat) :
    ∀ (wfuel : Nat) (st : BuildSt) (evs0 : List Ev) (stf : BuildSt)
      (evsf : List Ev),
    worklistLoopE nfa fuel wfuel st evs0 = some (stf, evsf) →
    ∃ suffix, evsf = evs0 ++ suffix ∧ PushesSafe st.visited suffix := by
  intro wfuel
  induction wfuel with
  | zero =>
    intro st evs0 stf evsf h
    exact absurd h (by simp [worklistLoopE])
  | succ n ih =>
    intro st evs0 stf evsf h
    rw [worklistLoopE_succ] at h
    cases hw : st.waiting with
    | nil =>
      rw [hw] at h
      have h' : (some (st, evs0) : Option (BuildSt × List Ev)) =
          some (stf, evsf) := h
      injection h' with h2
      injection h2 with h3 h4
      subst h4
      exact ⟨[], (List.append_nil evs0).symm, trivial⟩
    | cons look waiting' =>
      rw [hw] at h
      have h' : (match expandStep nfa fuel look { st with waiting := waiting' }
          with
          | none => none
          | some (st', id0, pushed) =>
            worklistLoopE nfa fuel n st'
              (evs0 ++ Ev.pop id0 :: (pushed.reverse.map Ev.push))) =
          some (stf, evsf) := h
      cases hex : expandStep nfa fuel look { st with waiting := waiting' } with
      | none =>
        rw [hex] at h'
        exact absurd h' (by simp)
      | some v =>
        obtain ⟨st1, id1, push1⟩ := v
        rw [hex] at h'
        have h'' : worklistLoopE nfa fuel n st1
            (evs0 ++ Ev.pop id1 :: (push1.reverse.map Ev.push)) =
            some (stf, evsf) := h'
        obtain ⟨suffix', hsx, hsafe⟩ := ih st1 _ stf evsf h''
        obtain ⟨hv, _, hp⟩ := expandStep_spec hex
        have hv' : st1.visited = insertS st.visited id1 := hv
        refine ⟨Ev.pop id1 :: (push1.reverse.map Ev.push ++ suffix'), ?_, ?_⟩
        · rw [hsx, List.append_assoc, List.cons_append]
        · show PushesSafe (insertS st.visited id1)
            (push1.reverse.map Ev.push ++ suffix')
          refine PushesSafe_append_pushes ?_ ?_
          · intro i hi
            exact hp i (List.mem_reverse.mp hi)
          · rw [hv'] at hsafe
            exact hsafe

/-- C8 counterexample: on `nfaC8` the exploration trace is
`pop 0, push 1, push 1, pop 1, pop 1` — the canonical state `1` is popped from
the work-list and expanded twice, because the `visited` check happens only at
push time and nothing skips an already-visited identifier at pop time
(dfa.rs lines 64-65). -/
theorem c8_counterexample :
    fromNfaTrace nfaC8 =
      some [Ev.pop 0, Ev.push 1, Ev.push 1, Ev.pop 1, Ev.pop 1] ∧
    ¬ (popsOf [Ev.pop 0, Ev.push 1, Ev.push 1, Ev.pop 1, Ev.pop 1]).Nodup :=
  ⟨by decide, by decide⟩

/-- C8 (amended): in every exploration trace of `from_nfa`, each pushed
canonical identifier is unvisited at the moment it is pushed (the `visited`
set guards pushes), but the same unvisited identifier may be pushed more than
once and hence popped and expanded more than once. -/
theorem c8_push_guard (nfa : NFA) (evs : List Ev)
    (h : fromNfaTrace nfa = some evs) : PushesSafe [] evs := by
  unfold fromNfaTrace at h
  cases hsc : startClosureLoop nfa (closureFuel nfa) [nfa.start]
      (nfa.nextStates nfa.start none) with
  | none =>
    rw [hsc] at h
    exact absurd h (by simp)
  | some startStates =>
    rw [hsc] at h
    have h' : (worklistLoopE nfa (closureFuel nfa) (worklistFuel nfa)
        { ctx := (Context.new.getState startStates).2, table := [],
          waiting := [startStates], visited := [] } []).map Prod.snd =
        some evs := h
    cases hwl : worklistLoopE nfa (closureFuel nfa) (worklistFuel nfa)
        { ctx := (Context.new.getState startStates).2, table := [],
          waiting := [startStates], visited := [] } [] with
    | none =>
      rw [hwl] at h'
      exact absurd h' (by simp)
    | some p =>
      obtain ⟨stf, evsf⟩ := p
      rw [hwl] at h'
      have h'' : some evsf = some evs := h'
      injection h'' with h2
      subst h2
      obtain ⟨suffix, hsx, hsafe⟩ := worklistLoopE_safe nfa (closureFuel nfa)
        (worklistFuel nfa) _ [] stf evsf hwl
      rw [hsx, List.nil_append]
      exact hsafe

/-- Witness for `c8_push_guard` on the NFA compiled from `Literal('a')`. -/
theorem c8_witness :
    fromNfaTrace (fromNode (.character 'a')) =
      some [Ev.pop 0, Ev.push 1, Ev.pop 1] ∧
    PushesSafe [] [Ev.pop 0, Ev.push 1, Ev.pop 1] :=
  ⟨by decide, c8_push_guard (fromNode (.character 'a')) _ (by decide)⟩

/-! ## Claim C5: termination of the DFA construction (fuel sufficiency) -/

theorem length_filter_le_of_imp {α : Type} (p q : α → Bool) :
    ∀ (l : List α), (∀ x ∈ l, q x = true → p x = true) →
    (l.filter q).length ≤ (l.filter p).length := by
  intro l
  induction l with
  | nil => intro _; exact Nat.le_refl _
  | cons a l' ih =>
    intro h
    rw [List.filter_cons, List.filter_cons]
    have hle := ih (fun x hx => h x (List.mem_cons_of_mem _ hx))
    by_cases hq : q a = true
    · rw [if_pos hq, if_pos (h a (List.mem_cons_self _ _) hq)]
      exact Nat.succ_le_succ hle
    · rw [if_neg hq]
      by_cases hp : p a = true
      · rw [if_pos hp]
        exact Nat.le_succ_of_le hle
      · rw [if_neg hp]
        exact hle

theorem length_filter_lt_of_witness {α : Type} (p q : α → Bool) (t : α)
    (hpt : p t = true) (hqt : q t = false) :
    ∀ (l : List α), (∀ x ∈ l, q x = true → p x = true) → t ∈ l →
    (l.filter q).length < (l.filter p).length := by
  intro l
  induction l with
  | nil => intro _ ht; cases ht
  | cons a l' ih =>
    intro h ht
    rw [List.filter_cons, List.filter_cons]
    rcases List.mem_cons.mp ht with rfl | ht'
    · rw [if_neg (by simp [hqt]), if_pos hpt]
      exact Nat.lt_succ_of_le (length_filter_le_of_imp p q l'
        (fun x hx => h x (List.mem_cons_of_mem _ hx)))
    · have hlt := ih (fun x hx => h x (List.mem_cons_of_mem _ hx)) ht'
      by_cases hq : q a = true
      · rw [if_pos hq, if_pos (h a (List.mem_cons_self _ _) hq)]
        exact Nat.succ_lt_succ hlt
      · rw [if_neg hq]
        by_cases hp : p a = true
        · rw [if_pos hp]
          exact Nat.lt_succ_of_lt hlt
        · rw [if_neg hp]
          exact hlt

theorem missCount_le_of_subset (nfa : NFA) {s s' : List Nat}
    (h : ∀ x, x ∈ s → x ∈ s') : missCount nfa s' ≤ missCount nfa s := by
  refine length_filter_le_of_imp _ _ _ ?_
  intro x _ hq
  rw [decide_eq_true_eq] at hq ⊢
  intro hx
  exact hq (h x hx)

theorem missCount_lt (nfa : NFA) {s s' : List Nat}
    (hsub : ∀ x, x ∈ s → x ∈ s') {t : Nat} (htS : t ∈ statesOf nfa)
    (hts : t ∉ s) (hts' : t ∈ s') : missCount nfa s' < missCount nfa s := by
  refine length_filter_lt_of_witness _ _ t ?_ ?_ _ ?_ (List.mem_dedup.mpr htS)
  · rw [decide_eq_true_eq]
    exact hts
  · rw [decide_eq_false_iff_not]
    exact fun hn => hn hts'
  · intro x _ hq
    rw [decide_eq_true_eq] at hq ⊢
    intro hx
    exact hq (hsub x hx)

theorem missCount_pos (nfa : NFA) {seen : List Nat} {t : Nat}
    (htS : t ∈ statesOf nfa) (hts : t ∉ seen) :
    1 ≤ missCount nfa seen := by
  have : t ∈ ((statesOf nfa).dedup.filter (fun x => decide (x ∉ seen))) :=
    List.mem_filter.mpr ⟨List.mem_dedup.mpr htS, by
      rw [decide_eq_true_eq]; exact hts⟩
  exact List.length_pos.mpr (List.ne_nil_of_mem this)

theorem mem_statesOf_of_nextStates {nfa : NFA} {x s : Nat} {c : Option Char}
    (h : x ∈ nfa.nextStates s c) : x ∈ statesOf nfa := by
  unfold NFA.nextStates at h
  cases ht : lookupA nfa.trans s with
  | none =>
    rw [ht] at h
    cases h
  | some table =>
    rw [ht] at h
    have h' : x ∈ (match lookupA table c with
      | some tos => tos
      | none => []) := h
    cases hc : lookupA table c with
    | none =>
      rw [hc] at h'
      cases h'
    | some tos =>
      rw [hc] at h'
      unfold statesOf
      refine List.mem_cons_of_mem _ (List.mem_append_right _ ?_)
      rw [List.mem_flatMap]
      refine ⟨(s, table), lookupA_mem ht, List.mem_cons_of_mem _ ?_⟩
      rw [List.mem_flatMap]
      exact ⟨(c, tos), lookupA_mem hc, h'⟩

theorem nextStates_length_lt (nfa : NFA) (s : Nat) (c : Option Char) :
    (nfa.nextStates s c).length < transSize nfa := by
  unfold NFA.nextStates transSize
  cases ht : lookupA nfa.trans s with
  | none => simp
  | some table =>
    show (match lookupA table c with
      | some tos => tos
      | none => []).length < _
    cases hc : lookupA table c with
    | none => simp
    | some tos =>
      have h1 : tos.length ≤ (table.map (fun ct => ct.2.length)).sum := by
        refine List.single_le_sum (fun x _ => Nat.zero_le x) _ ?_
        exact List.mem_map_of_mem _ (lookupA_mem hc)
      have h2 : (table.map (fun ct => ct.2.length)).sum ≤
          (nfa.trans.map
            (fun e => (e.2.map (fun ct => ct.2.length)).sum)).sum := by
        refine List.single_le_sum (fun x _ => Nat.zero_le x) _ ?_
        exact List.mem_map_of_mem _ (lookupA_mem ht)
      simp only
      omega

theorem startClosureLoop_sufficient (nfa : NFA) :
    ∀ (n1 : Nat) (stack ret : List Nat),
    (∀ x ∈ stack, x ∈ statesOf nfa) → missCount nfa ret ≤ n1 →
    ∀ fuel, (2 * transSize nfa + 1) * n1 + stack.length + 1 ≤ fuel →
    (startClosureLoop nfa fuel ret stack).isSome := by
  intro n1
  induction n1 with
  | zero =>
    intro stack
    induction stack with
    | nil =>
      intro ret _ _ fuel hfuel
      cases fuel with
      | zero => exact absurd hfuel (by simp)
      | succ f =>
        rw [startClosureLoop_nil]
        rfl
    | cons s rest ihs =>
      intro ret hmem hmiss fuel hfuel
      rw [List.length_cons] at hfuel
      cases fuel with
      | zero => exact absurd hfuel (by omega)
      | succ f =>
        rw [startClosureLoop_cons]
        have hs : s ∈ ret := by
          by_contra hsc
          have := missCount_pos nfa (hmem s (List.mem_cons_self _ _)) hsc
          omega
        cases hfil : (nfa.nextStates s none).filter
            (fun x => decide (x ∉ ret ++ [s])) with
        | cons t ts =>
          exfalso
          have htmem : t ∈ (nfa.nextStates s none).filter
              (fun x => decide (x ∉ ret ++ [s])) := by
            rw [hfil]
            exact List.mem_cons_self t ts
          obtain ⟨htn, htd⟩ := List.mem_filter.mp htmem
          have htr : t ∉ ret ++ [s] := of_decide_eq_true htd
          have htr' : t ∉ ret := fun hc => htr (List.mem_append_left _ hc)
          have := missCount_pos nfa (mem_statesOf_of_nextStates htn) htr'
          omega
        | nil =>
          rw [List.nil_append]
          refine ihs (ret ++ [s])
            (fun x hx => hmem x (List.mem_cons_of_mem _ hx)) ?_ f (by omega)
          have := missCount_le_of_subset nfa
            (fun x (hx : x ∈ ret) => List.mem_append_left [s] hx)
          omega
  | succ m ih =>
    intro stack
    induction stack with
    | nil =>
      intro ret _ _ fuel hfuel
      cases fuel with
      | zero => exact absurd hfuel (by omega)
      | succ f =>
        rw [startClosureLoop_nil]
        rfl
    | cons s rest ihs =>
      intro ret hmem hmiss fuel hfuel
      rw [List.length_cons] at hfuel
      have hsS : s ∈ statesOf nfa := hmem s (List.mem_cons_self _ _)
      have hrestmem : ∀ x ∈ rest, x ∈ statesOf nfa :=
        fun x hx => hmem x (List.mem_cons_of_mem _ hx)
      have hT := nextStates_length_lt nfa s none
      have hA : (2 * transSize nfa + 1) * (m + 1) =
          (2 * transSize nfa + 1) * m + (2 * transSize nfa + 1) := by ring
      cases fuel with
      | zero => exact absurd hfuel (by omega)
      | succ f =>
        rw [startClosureLoop_cons]
        by_cases hs : s ∈ ret
        · -- `s` was already collected
          have hsub : ∀ x, x ∈ ret ++ [s] → x ∈ ret := by
            intro x hx
            rcases List.mem_append.mp hx with hx | hx
            · exact hx
            · rw [List.mem_singleton] at hx
              subst hx
              exact hs
          have hmiss1 : missCount nfa (ret ++ [s]) ≤ missCount nfa ret :=
            missCount_le_of_subset nfa
              (fun x (hx : x ∈ ret) => List.mem_append_left [s] hx)
          cases hfil : (nfa.nextStates s none).filter
              (fun x => decide (x ∉ ret ++ [s])) with
          | nil =>
            rw [List.nil_append]
            exact ihs (ret ++ [s]) hrestmem (by omega) f (by omega)
          | cons t ts =>
            have htmem : t ∈ (nfa.nextStates s none).filter
                (fun x => decide (x ∉ ret ++ [s])) := by
              rw [hfil]
              exact List.mem_cons_self t ts
            obtain ⟨htn, htd⟩ := List.mem_filter.mp htmem
            have htS : t ∈ statesOf nfa := mem_statesOf_of_nextStates htn
            have htr : t ∉ ret ++ [s] := of_decide_eq_true htd
            have hts_len : (t :: ts).length ≤ (nfa.nextStates s none).length := by
              rw [← hfil]
              exact List.length_filter_le _ _
            rw [List.length_cons] at hts_len
            cases f with
            | zero => exact absurd hfuel (by omega)
            | succ f2 =>
              rw [List.cons_append, startClosureLoop_cons]
              have hmiss2 : missCount nfa ((ret ++ [s]) ++ [t]) <
                  missCount nfa (ret ++ [s]) :=
                missCount_lt nfa (fun x hx => List.mem_append_left [t] hx)
                  htS htr (List.mem_append_right _ (List.mem_singleton_self t))
              have hT2 := nextStates_length_lt nfa t none
              have hfl2 : ((nfa.nextStates t none).filter
                  (fun x => decide (x ∉ (ret ++ [s]) ++ [t]))).length ≤
                  (nfa.nextStates t none).length := List.length_filter_le _ _
              refine ih _ ((ret ++ [s]) ++ [t]) ?_ (by omega) f2 ?_
              · intro x hx
                rcases List.mem_append.mp hx with hx | hx
                · exact mem_statesOf_of_nextStates (List.mem_filter.mp hx).1
                · rcases List.mem_append.mp hx with hx | hx
                  · have hx' : x ∈ (nfa.nextStates s none).filter
                        (fun xx => decide (xx ∉ ret ++ [s])) := by
                      rw [hfil]
                      exact List.mem_cons_of_mem _ hx
                    exact mem_statesOf_of_nextStates (List.mem_filter.mp hx').1
                  · exact hrestmem x hx
              · rw [List.length_append, List.length_append]
                omega
        · -- `s` is fresh
          have hmiss' : missCount nfa (ret ++ [s]) < missCount nfa ret :=
            missCount_lt nfa (fun x hx => List.mem_append_left [s] hx)
              hsS hs (List.mem_append_right _ (List.mem_singleton_self s))
          have hfl : ((nfa.nextStates s none).filter
              (fun x => decide (x ∉ ret ++ [s]))).length ≤
              (nfa.nextStates s none).length := List.length_filter_le _ _
          refine ih _ (ret ++ [s]) ?_ (by omega) f ?_
          · intro x hx
            rcases List.mem_append.mp hx with hx | hx
            · exact mem_statesOf_of_nextStates (List.mem_filter.mp hx).1
            · exact hrestmem x hx
          · rw [List.length_append]
            omega

theorem epsExtendLoop_sufficient (nfa : NFA) :
    ∀ (n1 : Nat) (stack acc : List Nat),
    (∀ x ∈ stack, x ∈ statesOf nfa) → missCount nfa acc ≤ n1 →
    ∀ fuel, (transSize nfa + 1) * n1 + stack.length + 1 ≤ fuel →
    (epsExtendLoop nfa fuel acc stack).isSome := by
  intro n1
  induction n1 with
  | zero =>
    intro stack
    induction stack with
    | nil =>
      intro acc _ _ fuel hfuel
      cases fuel with
      | zero => exact absurd hfuel (by simp)
      | succ f =>
        rw [epsExtendLoop_nil]
        rfl
    | cons s rest ihs =>
      intro acc hmem hmiss fuel hfuel
      rw [List.length_cons] at hfuel
      cases fuel with
      | zero => exact absurd hfuel (by omega)
      | succ f =>
        rw [epsExtendLoop_cons]
        cases hfil : (nfa.nextStates s none).filter
            (fun x => decide (x ∉ acc)) with
        | cons t ts =>
          exfalso
          have htmem : t ∈ (nfa.nextStates s none).filter
              (fun x => decide (x ∉ acc)) := by
            rw [hfil]
            exact List.mem_cons_self t ts
          obtain ⟨htn, htd⟩ := List.mem_filter.mp htmem
          have := missCount_pos nfa (mem_statesOf_of_nextStates htn)
            (of_decide_eq_true htd)
          omega
        | nil =>
          rw [List.nil_append]
          refine ihs (acc ++ nfa.nextStates s none)
            (fun x hx => hmem x (List.mem_cons_of_mem _ hx)) ?_ f (by omega)
          have := missCount_le_of_subset nfa
            (fun x (hx : x ∈ acc) =>
              List.mem_append_left (nfa.nextStates s none) hx)
          omega
  | succ m ih =>
    intro stack
    induction stack with
    | nil =>
      intro acc _ _ fuel hfuel
      cases fuel with
      | zero => exact absurd hfuel (by omega)
      | succ f =>
        rw [epsExtendLoop_nil]
        rfl
    | cons s rest ihs =>
      intro acc hmem hmiss fuel hfuel
      rw [List.length_cons] at hfuel
      have hrestmem : ∀ x ∈ rest, x ∈ statesOf nfa :=
        fun x hx => hmem x (List.mem_cons_of_mem _ hx)
      have hT := nextStates_length_lt nfa s none
      have hA : (transSize nfa + 1) * (m + 1) =
          (transSize nfa + 1) * m + (transSize nfa + 1) := by ring
      cases fuel with
      | zero => exact absurd hfuel (by omega)
      | succ f =>
        rw [epsExtendLoop_cons]
        cases hfil : (nfa.nextStates s none).filter
            (fun x => decide (x ∉ acc)) with
        | nil =>
          rw [List.nil_append]
          refine ihs (acc ++ nfa.nextStates s none) hrestmem ?_ f (by omega)
          have := missCount_le_of_subset nfa
            (fun x (hx : x ∈ acc) =>
              List.mem_append_left (nfa.nextStates s none) hx)
          omega
        | cons t ts =>
          have htmem : t ∈ (nfa.nextStates s none).filter
              (fun x => decide (x ∉ acc)) := by
            rw [hfil]
            exact List.mem_cons_self t ts
          obtain ⟨htn, htd⟩ := List.mem_filter.mp htmem
          have hta : t ∉ acc := of_decide_eq_true htd
          have hmiss' : missCount nfa (acc ++ nfa.nextStates s none) <
              missCount nfa acc :=
            missCount_lt nfa
              (fun x hx => List.mem_append_left (nfa.nextStates s none) hx)
              (mem_statesOf_of_nextStates htn) hta
              (List.mem_append_right _ htn)
          have hts_len : (t :: ts).length ≤ (nfa.nextStates s none).length := by
            rw [← hfil]
            exact List.length_filter_le _ _
          rw [List.length_cons] at hts_len
          refine ih _ (acc ++ nfa.nextStates s none) ?_ (by omega) f ?_
          · intro x hx
            rcases List.mem_append.mp hx with hx | hx
            · rcases List.mem_cons.mp hx with rfl | hx'
              · exact mem_statesOf_of_nextStates htn
              · have hx'' : x ∈ (nfa.nextStates s none).filter
                    (fun xx => decide (xx ∉ acc)) := by
                  rw [hfil]
                  exact List.mem_cons_of_mem _ hx'
                exact mem_statesOf_of_nextStates (List.mem_filter.mp hx'').1
            · exact hrestmem x hx
          · rw [List.length_append, List.length_cons]
            omega

theorem missCount_le_dedup (nfa : NFA) (seen : List Nat) :
    missCount nfa seen ≤ (statesOf nfa).dedup.length :=
  List.length_filter_le _ _

theorem epsClosureFrom_sufficient (nfa : NFA) (seeds : List Nat)
    (hseeds : ∀ x ∈ seeds, x ∈ statesOf nfa)
    (hlen : seeds.length ≤ 2 * transSize nfa) :
    (epsClosureFrom nfa (closureFuel nfa) seeds).isSome := by
  unfold epsClosureFrom
  refine epsExtendLoop_sufficient nfa ((statesOf nfa).dedup.length) _ seeds
    ?_ (missCount_le_dedup nfa seeds) _ ?_
  · intro x hx
    exact hseeds x (List.mem_of_mem_filter hx)
  · have hfl : (seeds.filter
        (fun s => decide (nfa.nextStates s none ≠ []))).length ≤
        seeds.length := List.length_filter_le _ _
    unfold closureFuel
    have e1 : (2 * transSize nfa + 2) * ((statesOf nfa).dedup.length + 1) =
        (2 * transSize nfa + 2) * (statesOf nfa).dedup.length +
        (2 * transSize nfa + 2) := by ring
    have e2 : (transSize nfa + 1) * (statesOf nfa).dedup.length ≤
        (2 * transSize nfa + 2) * (statesOf nfa).dedup.length :=
      Nat.mul_le_mul_right _ (by omega)
    omega

theorem symbolClosure_sufficient (nfa : NFA) (s : Nat) (c : Char) :
    (symbolClosure nfa (closureFuel nfa) s c).isSome := by
  unfold symbolClosure
  refine epsClosureFrom_sufficient nfa _ ?_ ?_
  · intro x hx
    rcases List.mem_append.mp hx with hx | hx
    · exact mem_statesOf_of_nextStates hx
    · exact mem_statesOf_of_nextStates hx
  · rw [List.length_append]
    have h1 := nextStates_length_lt nfa s (some c)
    have h2 := nextStates_length_lt nfa s none
    omega

theorem charFold_sufficient (nfa : NFA) (lookState : Nat) :
    ∀ (chars : List (Option Char)) (tmap : List (Char × List Nat)),
    (charFold nfa (closureFuel nfa) lookState chars tmap).isSome := by
  intro chars
  induction chars with
  | nil => intro tmap; rfl
  | cons oc rest ih =>
    intro tmap
    cases oc with
    | none => exact ih tmap
    | some c =>
      show (match symbolClosure nfa (closureFuel nfa) lookState c with
        | none => none
        | some ns => charFold nfa (closureFuel nfa) lookState rest
            (updateA c [] (fun old => extendS old ns) tmap)).isSome = true
      cases hsc : symbolClosure nfa (closureFuel nfa) lookState c with
      | none =>
        exact absurd (symbolClosure_sufficient nfa lookState c)
          (by rw [hsc]; simp)
      | some ns => exact ih _

theorem buildTMap_sufficient (nfa : NFA) :
    ∀ (look : List Nat) (tmap : List (Char × List Nat)),
    (buildTMap nfa (closureFuel nfa) look tmap).isSome := by
  intro look
  induction look with
  | nil => intro tmap; rfl
  | cons s rest ih =>
    intro tmap
    show (match charFold nfa (closureFuel nfa) s (nfa.nextChars s) tmap with
      | none => none
      | some tmap' => buildTMap nfa (closureFuel nfa) rest tmap').isSome = true
    cases hcf : charFold nfa (closureFuel nfa) s (nfa.nextChars s) tmap with
    | none =>
      exact absurd (charFold_sufficient nfa s (nfa.nextChars s) tmap)
        (by rw [hcf]; simp)
    | some tmap' => exact ih _

theorem startClosure_sufficient (nfa : NFA) :
    (startClosureLoop nfa (closureFuel nfa) [nfa.start]
      (nfa.nextStates nfa.start none)).isSome := by
  refine startClosureLoop_sufficient nfa ((statesOf nfa).dedup.length) _ _
    ?_ (missCount_le_dedup nfa [nfa.start]) _ ?_
  · intro x hx
    exact mem_statesOf_of_nextStates hx
  · have h1 := nextStates_length_lt nfa nfa.start none
    unfold closureFuel
    have e1 : (2 * transSize nfa + 2) * ((statesOf nfa).dedup.length + 1) =
        (2 * transSize nfa + 2) * (statesOf nfa).dedup.length +
        (2 * transSize nfa + 2) := by ring
    have e2 : (2 * transSize nfa + 1) * (statesOf nfa).dedup.length ≤
        (2 * transSize nfa + 2) * (statesOf nfa).dedup.length :=
      Nat.mul_le_mul_right _ (by omega)
    omega

theorem ctxLE_refl (c : Context) : CtxLE c c :=
  ⟨[], (List.append_nil _).symm⟩

theorem ctxLE_trans {c1 c2 c3 : Context} (h1 : CtxLE c1 c2)
    (h2 : CtxLE c2 c3) : CtxLE c1 c3 := by
  obtain ⟨e1, he1⟩ := h1
  obtain ⟨e2, he2⟩ := h2
  exact ⟨e1 ++ e2, by rw [he2, he1, List.append_assoc]⟩

theorem getState_ctxLE (ctx : Context) (l : List Nat) :
    CtxLE ctx (ctx.getState l).2 := by
  cases hl : lookupA ctx.stateMap (sortStates l) with
  | some s =>
    rw [Context.getState_hit hl]
    exact ctxLE_refl ctx
  | none =>
    rw [Context.getState_miss hl]
    exact ⟨[(sortStates l, ctx.stateCount)], rfl⟩

theorem getState_count_le (ctx : Context) (l : List Nat) :
    ctx.stateCount ≤ (ctx.getState l).2.stateCount := by
  cases hl : lookupA ctx.stateMap (sortStates l) with
  | some s =>
    rw [Context.getState_hit hl]
  | none =>
    rw [Context.getState_miss hl]
    exact Nat.le_succ _

theorem getState_fst_lt {ctx : Context} (hwf : ctx.WF) (l : List Nat) :
    (ctx.getState l).1 < (ctx.getState l).2.stateCount := by
  cases hl : lookupA ctx.stateMap (sortStates l) with
  | some s =>
    rw [Context.getState_hit hl]
    show s < ctx.stateCount
    have := snd_lt_of_lookupA hwf hl
    rw [hwf.1]
    omega
  | none =>
    rw [Context.getState_miss hl]
    exact Nat.lt_succ_self _

theorem getState_lookup_self (ctx : Context) (l : List Nat) :
    lookupA (ctx.getState l).2.stateMap (sortStates l) =
      some (ctx.getState l).1 := by
  cases hl : lookupA ctx.stateMap (sortStates l) with
  | some s =>
    rw [Context.getState_hit hl]
    exact hl
  | none =>
    rw [Context.getState_miss hl]
    show lookupA (ctx.stateMap ++ [(sortStates l, ctx.stateCount)])
      (sortStates l) = some ctx.stateCount
    rw [lookupA_append_right hl, lookupA_cons, if_pos rfl]

theorem getState_stable {ctx1 ctx2 : Context} (hle : CtxLE ctx1 ctx2)
    {l : List Nat} {v : Nat}
    (hl : lookupA ctx1.stateMap (sortStates l) = some v) :
    ctx2.getState l = (v, ctx2) := by
  obtain ⟨ext, hext⟩ := hle
  refine Context.getState_hit ?_
  rw [hext]
  exact lookupA_append_left hl ext

theorem getState_twice (ctx : Context) (l : List Nat) :
    (ctx.getState l).2.getState l = ((ctx.getState l).1, (ctx.getState l).2) :=
  getState_stable (ctxLE_refl _) (getState_lookup_self ctx l)

theorem getState_keysNodup {ctx : Context}
    (h : (ctx.stateMap.map Prod.fst).Nodup) (l : List Nat) :
    ((ctx.getState l).2.stateMap.map Prod.fst).Nodup := by
  cases hl : lookupA ctx.stateMap (sortStates l) with
  | some s =>
    rw [Context.getState_hit hl]
    exact h
  | none =>
    rw [Context.getState_miss hl]
    show ((ctx.stateMap ++ [(sortStates l, ctx.stateCount)]).map
      Prod.fst).Nodup
    rw [List.map_append]
    rw [List.nodup_append]
    refine ⟨h, List.nodup_singleton _, ?_⟩
    intro k hk
    rw [List.mem_map] at hk
    obtain ⟨⟨k0, v0⟩, hk0, rfl⟩ := hk
    intro hk1
    simp only [List.map_cons, List.map_nil, List.mem_singleton] at hk1
    exact lookupA_eq_none.mp hl v0 (hk1 ▸ hk0)

theorem getState_keysGood {ctx : Context} (P : List Nat → Prop)
    (h : ∀ k ∈ ctx.stateMap, ∃ l, k.1 = sortStates l ∧ P l)
    {l0 : List Nat} (hP : P l0) :
    ∀ k ∈ (ctx.getState l0).2.stateMap, ∃ l, k.1 = sortStates l ∧ P l := by
  cases hl : lookupA ctx.stateMap (sortStates l0) with
  | some s =>
    rw [Context.getState_hit hl]
    exact h
  | none =>
    rw [Context.getState_miss hl]
    intro k hk
    have hk' : k ∈ ctx.stateMap ++ [(sortStates l0, ctx.stateCount)] := hk
    rcases List.mem_append.mp hk' with hk | hk
    · exact h k hk
    · rw [List.mem_singleton] at hk
      subst hk
      exact ⟨l0, rfl, hP⟩

theorem ctxLE_count_le {c1 c2 : Context} (h1 : c1.WF) (h2 : c2.WF)
    (hle : CtxLE c1 c2) : c1.stateCount ≤ c2.stateCount := by
  obtain ⟨ext, hext⟩ := hle
  rw [h1.1, h2.1, hext, List.length_append]
  omega

theorem insertS_nodup {α : Type} [DecidableEq α] {xs : List α} (h : xs.Nodup)
    (x : α) : (insertS xs x).Nodup := by
  by_cases hx : x ∈ xs
  · rw [insertS, if_pos hx]
    exact h
  · rw [insertS, if_neg hx]
    rw [List.nodup_append]
    refine ⟨h, List.nodup_singleton x, ?_⟩
    intro y hy hy1
    rw [List.mem_singleton] at hy1
    subst hy1
    exact hx hy

theorem extendS_nodup {α : Type} [DecidableEq α] :
    ∀ (ys : List α) {xs : List α}, xs.Nodup → (extendS xs ys).Nodup
  | [], _, h => h
  | y :: ys, _, h => extendS_nodup ys (insertS_nodup h y)

theorem epsExtendLoop_mem {nfa : NFA} :
    ∀ {fuel : Nat} {acc stack res : List Nat},
    epsExtendLoop nfa fuel acc stack = some res →
    (∀ x ∈ acc, x ∈ statesOf nfa) → ∀ x ∈ res, x ∈ statesOf nfa := by
  intro fuel
  induction fuel with
  | zero =>
    intro acc stack res h
    exact absurd h (by simp [epsExtendLoop_zero])
  | succ n ih =>
    intro acc stack res h hacc
    cases stack with
    | nil =>
      rw [epsExtendLoop_nil] at h
      obtain rfl := Option.some_injective _ h
      exact hacc
    | cons s rest =>
      rw [epsExtendLoop_cons] at h
      refine ih h ?_
      intro x hx
      rcases List.mem_append.mp hx with hx | hx
      · exact hacc x hx
      · exact mem_statesOf_of_nextStates hx

theorem symbolClosure_mem {nfa : NFA} {fuel : Nat} {s : Nat} {c : Char}
    {res : List Nat} (h : symbolClosure nfa fuel s c = some res) :
    ∀ x ∈ res, x ∈ statesOf nfa := by
  unfold symbolClosure epsClosureFrom at h
  refine epsExtendLoop_mem h ?_
  intro x hx
  rcases List.mem_append.mp hx with hx | hx
  · exact mem_statesOf_of_nextStates hx
  · exact mem_statesOf_of_nextStates hx

theorem mem_charsOf_of_nextChars {nfa : NFA} {s : Nat} {c : Char}
    (h : some c ∈ nfa.nextChars s) : c ∈ charsOf nfa := by
  unfold NFA.nextChars at h
  cases ht : lookupA nfa.trans s with
  | none =>
    rw [ht] at h
    cases h
  | some table =>
    rw [ht] at h
    have h' : some c ∈ table.map Prod.fst := h
    rw [List.mem_map] at h'
    obtain ⟨⟨oc, tos⟩, hmem, heq⟩ := h'
    unfold charsOf
    rw [List.mem_flatMap]
    refine ⟨(s, table), lookupA_mem ht, ?_⟩
    rw [List.mem_filterMap]
    exact ⟨(oc, tos), hmem, heq⟩

theorem charFold_good {nfa : NFA} {fuel : Nat} {lookState : Nat} :
    ∀ {chars : List (Option Char)} {tmap tmap' : List (Char × List Nat)},
    charFold nfa fuel lookState chars tmap = some tmap' →
    (∀ oc ∈ chars, oc ∈ nfa.nextChars lookState) →
    (∀ e ∈ tmap, GoodList nfa e.2) →
    ((tmap.map Prod.fst).Nodup ∧ ∀ c ∈ tmap.map Prod.fst, c ∈ charsOf nfa) →
    (∀ e ∈ tmap', GoodList nfa e.2) ∧
    ((tmap'.map Prod.fst).Nodup ∧
      ∀ c ∈ tmap'.map Prod.fst, c ∈ charsOf nfa) := by
  intro chars
  induction chars with
  | nil =>
    intro tmap tmap' h _ hv hk
    have h' : some tmap = some tmap' := h
    obtain rfl := Option.some_injective _ h'
    exact ⟨hv, hk⟩
  | cons oc rest ih =>
    intro tmap tmap' h hchars hv hk
    cases oc with
    | none =>
      exact ih h (fun x hx => hchars x (List.mem_cons_of_mem _ hx)) hv hk
    | some c =>
      have h' : (match symbolClosure nfa fuel lookState c with
        | none => none
        | some ns => charFold nfa fuel lookState rest
            (updateA c [] (fun old => extendS old ns) tmap)) = some tmap' := h
      cases hsc : symbolClosure nfa fuel lookState c with
      | none =>
        rw [hsc] at h'
        exact absurd h' (by simp)
      | some ns =>
        rw [hsc] at h'
        refine ih h' (fun x hx => hchars x (List.mem_cons_of_mem _ hx)) ?_ ?_
        · intro e he
          rcases mem_updateA he with h1 | ⟨v, rfl, hd⟩
          · exact hv e h1
          · constructor
            · refine extendS_nodup ns ?_
              rcases hd with rfl | h2
              · exact List.nodup_nil
              · exact (hv (c, v) h2).1
            · intro x hx
              rcases mem_extendS.mp hx with hx | hx
              · rcases hd with rfl | h2
                · cases hx
                · exact (hv (c, v) h2).2 x hx
              · exact symbolClosure_mem hsc x hx
        · constructor
          · exact nodupKeys_updateA hk.1 c [] _
          · intro c' hc'
            rw [keys_updateA] at hc'
            by_cases hcm : c ∈ tmap.map Prod.fst
            · rw [if_pos hcm] at hc'
              exact hk.2 c' hc'
            · rw [if_neg hcm] at hc'
              rcases List.mem_append.mp hc' with hc' | hc'
              · exact hk.2 c' hc'
              · rw [List.mem_singleton] at hc'
                subst hc'
                exact mem_charsOf_of_nextChars
                  (hchars (some c') (List.mem_cons_self _ _))

theorem buildTMap_good {nfa : NFA} {fuel : Nat} :
    ∀ {look : List Nat} {tmap tmap' : List (Char × List Nat)},
    buildTMap nfa fuel look tmap = some tmap' →
    (∀ e ∈ tmap, GoodList nfa e.2) →
    ((tmap.map Prod.fst).Nodup ∧ ∀ c ∈ tmap.map Prod.fst, c ∈ charsOf nfa) →
    (∀ e ∈ tmap', GoodList nfa e.2) ∧
    ((tmap'.map Prod.fst).Nodup ∧
      ∀ c ∈ tmap'.map Prod.fst, c ∈ charsOf nfa) := by
  intro look
  induction look with
  | nil =>
    intro tmap tmap' h hv hk
    have h' : some tmap = some tmap' := h
    obtain rfl := Option.some_injective _ h'
    exact ⟨hv, hk⟩
  | cons s rest ih =>
    intro tmap tmap' h hv hk
    have h' : (match charFold nfa fuel s (nfa.nextChars s) tmap with
      | none => none
      | some t2 => buildTMap nfa fuel rest t2) = some tmap' := h
    cases hcf : charFold nfa fuel s (nfa.nextChars s) tmap with
    | none =>
      rw [hcf] at h'
      exact absurd h' (by simp)
    | some t2 =>
      rw [hcf] at h'
      have hg := charFold_good hcf (fun oc hoc => hoc) hv hk
      exact ih h' hg.1 hg.2

theorem length_le_dedup_of_nodup {α : Type} [DecidableEq α] {l m : List α}
    (hn : l.Nodup) (hsub : ∀ x ∈ l, x ∈ m) : l.length ≤ m.dedup.length := by
  rw [← List.toFinset_card_of_nodup hn, ← List.card_toFinset]
  exact Finset.card_le_card
    (fun x hx => List.mem_toFinset.mpr (hsub x (List.mem_toFinset.mp hx)))

theorem charsOf_length_lt (nfa : NFA) :
    (charsOf nfa).length < charCount nfa := by
  unfold charsOf charCount
  have hb : ∀ t : NTrans,
      (t.flatMap (fun e => e.2.filterMap (fun ct => ct.1))).length ≤
      (t.map (fun e => e.2.length)).sum := by
    intro t
    induction t with
    | nil => simp
    | cons e rest ih =>
      rw [List.flatMap_cons, List.length_append, List.map_cons, List.sum_cons]
      have := List.length_filterMap_le (fun ct => ct.1) e.2
      omega
  have h := hb nfa.trans
  omega

theorem tmap_length_lt (nfa : NFA) {tmap : List (Char × List Nat)}
    (hk : (tmap.map Prod.fst).Nodup ∧
      ∀ c ∈ tmap.map Prod.fst, c ∈ charsOf nfa) :
    tmap.length < charCount nfa := by
  have h1 : (tmap.map Prod.fst).length ≤ (charsOf nfa).dedup.length :=
    length_le_dedup_of_nodup hk.1 hk.2
  have h2 : (charsOf nfa).dedup.length ≤ (charsOf nfa).length :=
    List.Sublist.length_le (List.dedup_sublist _)
  have h3 := charsOf_length_lt nfa
  rw [List.length_map] at h1
  omega

theorem keys_length_le (S : List Nat) (special : List Nat)
    (keys : List (List Nat)) (hnd : keys.Nodup)
    (hgood : ∀ k ∈ keys, k = special ∨
      (List.Sorted (· ≤ ·) k ∧ k.Nodup ∧ ∀ x ∈ k, x ∈ S)) :
    keys.length ≤ 2 ^ S.dedup.length + 1 := by
  classical
  set f : List Nat → Option (Finset Nat) :=
    fun k => if k = special then none else some k.toFinset with hf
  have hinj : ∀ x ∈ keys, ∀ y ∈ keys, f x = f y → x = y := by
    intro x hx y hy hxy
    by_cases hxs : x = special
    · by_cases hys : y = special
      · rw [hxs, hys]
      · rw [hf] at hxy
        simp only [if_pos hxs, if_neg hys] at hxy
        cases hxy
    · by_cases hys : y = special
      · rw [hf] at hxy
        simp only [if_neg hxs, if_pos hys] at hxy
        cases hxy
      · rw [hf] at hxy
        simp only [if_neg hxs, if_neg hys, Option.some_inj] at hxy
        have hgx := (hgood x hx).resolve_left hxs
        have hgy := (hgood y hy).resolve_left hys
        have hperm : x.Perm y :=
          List.perm_of_nodup_nodup_toFinset_eq hgx.2.1 hgy.2.1 hxy
        exact List.eq_of_perm_of_sorted hperm hgx.1 hgy.1
  have hmapnd : (keys.map f).Nodup := List.Nodup.map_on hinj hnd
  have hsub : (keys.map f).toFinset ⊆
      insert none ((S.toFinset.powerset).image some) := by
    intro o ho
    rw [List.mem_toFinset, List.mem_map] at ho
    obtain ⟨k, hk, rfl⟩ := ho
    simp only [hf]
    by_cases hks : k = special
    · rw [if_pos hks]
      exact Finset.mem_insert_self _ _
    · rw [if_neg hks]
      refine Finset.mem_insert_of_mem ?_
      rw [Finset.mem_image]
      refine ⟨k.toFinset, ?_, rfl⟩
      rw [Finset.mem_powerset]
      intro x hx
      rw [List.mem_toFinset] at hx
      exact List.mem_toFinset.mpr (((hgood k hk).resolve_left hks).2.2 x hx)
  have hcard : (keys.map f).toFinset.card ≤
      (insert none ((S.toFinset.powerset).image some)).card :=
    Finset.card_le_card hsub
  rw [List.toFinset_card_of_nodup hmapnd, List.length_map] at hcard
  have h2 : (insert none ((S.toFinset.powerset).image some)).card ≤
      ((S.toFinset.powerset).image some).card + 1 := Finset.card_insert_le _ _
  have h3 : ((S.toFinset.powerset).image some).card ≤
      S.toFinset.powerset.card := Finset.card_image_le
  rw [Finset.card_powerset, List.card_toFinset] at h3
  omega

theorem stateCount_le_keyBound (nfa : NFA) (start0 : List Nat) {ctx : Context}
    (hwf : ctx.WF) (hnd : (ctx.stateMap.map Prod.fst).Nodup)
    (hgood : ∀ k ∈ ctx.stateMap, ∃ l, k.1 = sortStates l ∧
      (l = start0 ∨ GoodList nfa l)) :
    ctx.stateCount ≤ keyBound nfa := by
  rw [hwf.1]
  have hlen : ctx.stateMap.length = (ctx.stateMap.map Prod.fst).length :=
    (List.length_map _ _).symm
  rw [hlen]
  unfold keyBound
  refine keys_length_le (statesOf nfa) (sortStates start0) _ hnd ?_
  intro k hk
  rw [List.mem_map] at hk
  obtain ⟨e, he, rfl⟩ := hk
  obtain ⟨l, hl, hcase⟩ := hgood e he
  rw [hl]
  rcases hcase with rfl | hgl
  · exact Or.inl rfl
  · refine Or.inr ⟨sortStates_sorted l, ?_, ?_⟩
    · exact ((sortStates_perm l).nodup_iff).mpr hgl.1
    · intro x hx
      exact hgl.2 x (mem_sortStates.mp hx)

theorem recordTransitions_full (nfa : NFA) (start0 : List Nat)
    (formState : Nat) :
    ∀ (entries : List (Char × List Nat)) (st : BuildSt),
    st.ctx.WF →
    (st.ctx.stateMap.map Prod.fst).Nodup →
    (∀ k ∈ st.ctx.stateMap, ∃ l, k.1 = sortStates l ∧
      (l = start0 ∨ GoodList nfa l)) →
    (∀ e ∈ entries, GoodList nfa e.2) →
    (recordTransitions formState entries st).1.ctx.WF ∧
    ((recordTransitions formState entries st).1.ctx.stateMap.map
      Prod.fst).Nodup ∧
    (∀ k ∈ (recordTransitions formState entries st).1.ctx.stateMap,
      ∃ l, k.1 = sortStates l ∧ (l = start0 ∨ GoodList nfa l)) ∧
    CtxLE st.ctx (recordTransitions formState entries st).1.ctx ∧
    (recordTransitions formState entries st).2.length ≤ entries.length ∧
    ∃ newLists,
      (recordTransitions formState entries st).1.waiting =
        newLists ++ st.waiting ∧
      newLists.length = (recordTransitions formState entries st).2.length ∧
      (∀ w ∈ newLists, GoodList nfa w) ∧
      ∀ hw : newLists ≠ [],
        ((recordTransitions formState entries st).1.ctx.getState
          (newLists.head hw)).1 ∈
          (recordTransitions formState entries st).2 := by
  intro entries
  induction entries with
  | nil =>
    intro st hwf hnd hgood _
    refine ⟨hwf, hnd, hgood, ctxLE_refl _, Nat.le_refl _, [], rfl, rfl,
      ?_, ?_⟩
    · intro w hw
      cases hw
    · intro hw
      exact absurd rfl hw
  | cons e rest ih =>
    intro st hwf hnd hgood hent
    obtain ⟨c, nsl⟩ := e
    have hnslgood : GoodList nfa nsl := hent (c, nsl) (List.mem_cons_self _ _)
    have hrestgood : ∀ e' ∈ rest, GoodList nfa e'.2 :=
      fun e' he' => hent e' (List.mem_cons_of_mem _ he')
    unfold recordTransitions
    cases hgs : st.ctx.getState nsl with
    | mk toState ctx' =>
      dsimp only
      have hwf' : ctx'.WF := by
        have h := Context.getState_WF hwf nsl
        rw [hgs] at h
        exact h
      have hnd' : (ctx'.stateMap.map Prod.fst).Nodup := by
        have h := getState_keysNodup hnd nsl
        rw [hgs] at h
        exact h
      have hgood' : ∀ k ∈ ctx'.stateMap, ∃ l, k.1 = sortStates l ∧
          (l = start0 ∨ GoodList nfa l) := by
        have h := getState_keysGood
          (fun l => l = start0 ∨ GoodList nfa l) hgood (Or.inr hnslgood)
        rw [hgs] at h
        exact h
      have hself : lookupA ctx'.stateMap (sortStates nsl) = some toState := by
        have h := getState_lookup_self st.ctx nsl
        rw [hgs] at h
        exact h
      have hle0 : CtxLE st.ctx ctx' := by
        have h := getState_ctxLE st.ctx nsl
        rw [hgs] at h
        exact h
      by_cases hv : toState ∈ st.visited
      · simp only [if_pos hv]
        obtain ⟨hwfR, hndR, hgoodR, hleR, hlenR, nl, hwaitR, hlenN, hgoodN,
          hheadR⟩ := ih
          { ctx := ctx', table := insertA st.table (formState, c) toState,
            waiting := st.waiting, visited := st.visited }
          hwf' hnd' hgood' hrestgood
        refine ⟨hwfR, hndR, hgoodR, ctxLE_trans hle0 hleR, ?_, nl, hwaitR,
          ?_, hgoodN, ?_⟩
        · rw [List.length_append, List.length_cons]
          simp only [List.length_nil]
          omega
        · rw [List.length_append]
          simp only [List.length_nil]
          omega
        · intro hw
          exact List.mem_append_left _ (hheadR hw)
      · simp only [if_neg hv]
        obtain ⟨hwfR, hndR, hgoodR, hleR, hlenR, nl, hwaitR, hlenN, hgoodN,
          hheadR⟩ := ih
          { ctx := ctx', table := insertA st.table (formState, c) toState,
            waiting := nsl :: st.waiting, visited := st.visited }
          hwf' hnd' hgood' hrestgood
        have hres : (recordTransitions formState rest
            { ctx := ctx', table := insertA st.table (formState, c) toState,
              waiting := nsl :: st.waiting,
              visited := st.visited }).1.ctx.getState nsl =
            (toState, (recordTransitions formState rest
            { ctx := ctx', table := insertA st.table (formState, c) toState,
              waiting := nsl :: st.waiting,
              visited := st.visited }).1.ctx) :=
          getState_stable hleR hself
        refine ⟨hwfR, hndR, hgoodR, ctxLE_trans hle0 hleR, ?_,
          nl ++ [nsl], ?_, ?_, ?_, ?_⟩
        · simp only [List.length_append, List.length_cons, List.length_nil]
          omega
        · rw [hwaitR, List.append_assoc]
          rfl
        · simp only [List.length_append, List.length_cons, List.length_nil]
          omega
        · intro w hw
          rcases List.mem_append.mp hw with hw | hw
          · exact hgoodN w hw
          · rw [List.mem_singleton] at hw
            subst hw
            exact hnslgood
        · intro hw
          cases nl with
          | nil =>
            rw [show (([] : List (List Nat)) ++ [nsl]).head hw = nsl from rfl]
            rw [hres]
            exact List.mem_append_right _ (List.mem_singleton_self toState)
          | cons x nl' =>
            rw [show ((x :: nl') ++ [nsl]).head hw = x from rfl]
            exact List.mem_append_left _ (hheadR (List.cons_ne_nil x nl'))

theorem expandStep_eq {nfa : NFA} {fuel : Nat} {look : List Nat}
    {st : BuildSt} {tmap : List (Char × List Nat)}
    (hbt : buildTMap nfa fuel look [] = some tmap) :
    expandStep nfa fuel look st = some
      ((recordTransitions (st.ctx.getState look).1 tmap
        { ctx := (st.ctx.getState look).2, table := st.table,
          waiting := st.waiting,
          visited := insertS st.visited (st.ctx.getState look).1 }).1,
       (st.ctx.getState look).1,
       (recordTransitions (st.ctx.getState look).1 tmap
        { ctx := (st.ctx.getState look).2, table := st.table,
          waiting := st.waiting,
          visited := insertS st.visited (st.ctx.getState look).1 }).2) := by
  unfold expandStep
  rw [hbt]
  dsimp only
  rw [getState_twice]

theorem insertS_eq_of_mem {α : Type} [DecidableEq α] {xs : List α} {x : α}
    (h : x ∈ xs) : insertS xs x = xs := by
  rw [insertS, if_pos h]

theorem toFinset_insertS (xs : List Nat) (x : Nat) :
    (insertS xs x).toFinset = insert x xs.toFinset := by
  by_cases hx : x ∈ xs
  · rw [insertS, if_pos hx]
    exact (Finset.insert_eq_self.mpr (List.mem_toFinset.mpr hx)).symm
  · rw [insertS, if_neg hx, List.toFinset_append]
    ext y
    simp only [Finset.mem_union, List.mem_toFinset, List.mem_singleton,
      Finset.mem_insert]
    constructor
    · rintro (h | rfl)
      · exact Or.inr h
      · exact Or.inl rfl
    · rintro (rfl | h)
      · exact Or.inr rfl
      · exact Or.inl h

theorem card_insertS_of_not_mem {xs : List Nat} {x : Nat} (hx : x ∉ xs) :
    (insertS xs x).toFinset.card = xs.toFinset.card + 1 := by
  rw [toFinset_insertS]
  exact Finset.card_insert_of_not_mem (fun hc => hx (List.mem_toFinset.mp hc))

theorem card_visited_le {visited : List Nat} {count : Nat}
    (h : ∀ i ∈ visited, i < count) : visited.toFinset.card ≤ count := by
  have hsub : visited.toFinset ⊆ Finset.range count := by
    intro i hi
    rw [Finset.mem_range]
    exact h i (List.mem_toFinset.mp hi)
  have := Finset.card_le_card hsub
  rwa [Finset.card_range] at this

theorem expandStep_full (nfa : NFA) (start0 : List Nat) (look : List Nat)
    (ctx : Context) (table : List ((Nat × Char) × Nat))
    (waiting : List (List Nat)) (visited : List Nat)
    (hwf : ctx.WF) (hnd : (ctx.stateMap.map Prod.fst).Nodup)
    (hgood : ∀ k ∈ ctx.stateMap, ∃ l, k.1 = sortStates l ∧
      (l = start0 ∨ GoodList nfa l))
    (hwait : ∀ w ∈ waiting, w = start0 ∨ GoodList nfa w)
    (hvis : ∀ i ∈ visited, i < ctx.stateCount)
    (hlook : look = start0 ∨ GoodList nfa look) :
    ∃ st' pushed,
      expandStep nfa (closureFuel nfa) look
        ⟨ctx, table, waiting, visited⟩ =
        some (st', (ctx.getState look).1, pushed) ∧
      WInv nfa start0 st' ∧
      st'.visited = insertS visited (ctx.getState look).1 ∧
      (∀ i ∈ pushed, i ∉ insertS visited (ctx.getState look).1) ∧
      CtxLE ctx st'.ctx ∧
      st'.ctx.stateCount ≤ keyBound nfa ∧
      pushed.length < charCount nfa ∧
      ∃ newLists, st'.waiting = newLists ++ waiting ∧
        newLists.length = pushed.length ∧
        ∀ hw : newLists ≠ [],
          (st'.ctx.getState (newLists.head hw)).1 ∈ pushed := by
  obtain ⟨tmap, hbt⟩ :=
    Option.isSome_iff_exists.mp (buildTMap_sufficient nfa look [])
  have htg := buildTMap_good hbt (fun e he => absurd he (List.not_mem_nil e))
    ⟨List.nodup_nil, fun c hc => absurd hc (List.not_mem_nil c)⟩
  have heq := @expandStep_eq nfa (closureFuel nfa) look
    ⟨ctx, table, waiting, visited⟩ tmap hbt
  dsimp only at heq
  have hwf1 : (ctx.getState look).2.WF := Context.getState_WF hwf look
  have hnd1 := getState_keysNodup hnd look
  have hgood1 := getState_keysGood
    (fun l => l = start0 ∨ GoodList nfa l) hgood hlook
  obtain ⟨hwfR, hndR, hgoodR, hleR, hlenR, nl, hwaitR, hlenN, hgoodN,
    hheadR⟩ :=
    recordTransitions_full nfa start0 (ctx.getState look).1 tmap
      { ctx := (ctx.getState look).2, table := table, waiting := waiting,
        visited := insertS visited (ctx.getState look).1 }
      hwf1 hnd1 hgood1 htg.1
  have hspec := recordTransitions_spec (ctx.getState look).1 tmap
    { ctx := (ctx.getState look).2, table := table, waiting := waiting,
      visited := insertS visited (ctx.getState look).1 }
  refine ⟨_, _, heq, ⟨hwfR, hndR, hgoodR, ?_, ?_⟩, hspec.1, hspec.2, ?_,
    ?_, ?_, nl, hwaitR, hlenN, hheadR⟩
  · intro w hw
    rw [hwaitR] at hw
    rcases List.mem_append.mp hw with hw | hw
    · exact Or.inr (hgoodN w hw)
    · exact hwait w hw
  · intro i hi
    rw [hspec.1] at hi
    have hc1 : ctx.stateCount ≤ (ctx.getState look).2.stateCount :=
      getState_count_le ctx look
    have hc2 : (ctx.getState look).2.stateCount ≤
        (recordTransitions (ctx.getState look).1 tmap
          { ctx := (ctx.getState look).2, table := table,
            waiting := waiting,
            visited := insertS visited
              (ctx.getState look).1 }).1.ctx.stateCount :=
      ctxLE_count_le hwf1 hwfR hleR
    rcases mem_insertS.mp hi with hi | rfl
    · have := hvis i hi
      omega
    · have := getState_fst_lt hwf look
      omega
  · exact ctxLE_trans (getState_ctxLE ctx look) hleR
  · exact stateCount_le_keyBound nfa start0 hwfR hndR hgoodR
  · have := tmap_length_lt nfa htg.2
    omega

theorem worklistLoop_zero (nfa : NFA) (fuel : Nat) (st : BuildSt) :
    worklistLoop nfa fuel 0 st = none := rfl

theorem worklistLoop_nil (nfa : NFA) (fuel n : Nat) (ctx : Context)
    (table : List ((Nat × Char) × Nat)) (visited : List Nat) :
    worklistLoop nfa fuel (n + 1) ⟨ctx, table, [], visited⟩ =
      some ⟨ctx, table, [], visited⟩ := rfl

theorem worklistLoop_cons (nfa : NFA) (fuel n : Nat) (ctx : Context)
    (table : List ((Nat × Char) × Nat)) (look : List Nat)
    (w' : List (List Nat)) (visited : List Nat) :
    worklistLoop nfa fuel (n + 1) ⟨ctx, table, look :: w', visited⟩ =
      (match expandStep nfa fuel look ⟨ctx, table, w', visited⟩ with
      | none => none
      | some (st', _, _) => worklistLoop nfa fuel n st') := rfl

theorem worklistLoop_sufficient (nfa : NFA) (start0 : List Nat) :
    ∀ (M : Nat) (w : List (List Nat)) (ctx : Context)
      (table : List ((Nat × Char) × Nat)) (visited : List Nat),
    WInv nfa start0 ⟨ctx, table, w, visited⟩ →
    keyBound nfa ≤ visited.toFinset.card + M →
    ∀ wfuel, (2 * charCount nfa + 1) * M + w.length + 1 ≤ wfuel →
    (worklistLoop nfa (closureFuel nfa) wfuel
      ⟨ctx, table, w, visited⟩).isSome := by
  intro M
  induction M using Nat.strong_induction_on with
  | _ M ihM =>
  intro w
  induction w with
  | nil =>
    intro ctx table visited _ _ wfuel hfuel
    cases wfuel with
    | zero => exact absurd hfuel (by omega)
    | succ n =>
      rw [worklistLoop_nil]
      rfl
  | cons look rest ihw =>
    intro ctx table visited hinv hcard wfuel hfuel
    rw [List.length_cons] at hfuel
    obtain ⟨hwf, hnd, hgood, hwaitAll, hvis⟩ := hinv
    have hlook : look = start0 ∨ GoodList nfa look :=
      hwaitAll look (List.mem_cons_self _ _)
    have hwaitRest : ∀ w' ∈ rest, w' = start0 ∨ GoodList nfa w' :=
      fun w' hw' => hwaitAll w' (List.mem_cons_of_mem _ hw')
    obtain ⟨st', pushed, heq, hinv', hviseq, hpushNot, hle, hcountB, hplen,
      nl, hwaitEq, hlenN, hhead⟩ :=
      expandStep_full nfa start0 look ctx table rest visited
        hwf hnd hgood hwaitRest hvis hlook
    obtain ⟨ctx1, table1, w1, visited1⟩ := st'
    have hw1 : w1 = nl ++ rest := hwaitEq
    have hv1 : visited1 = insertS visited (ctx.getState look).1 := hviseq
    subst hw1
    subst hv1
    cases wfuel with
    | zero => exact absurd hfuel (by omega)
    | succ n =>
      rw [worklistLoop_cons, heq]
      show (worklistLoop nfa (closureFuel nfa) n
        ⟨ctx1, table1, nl ++ rest,
          insertS visited (ctx.getState look).1⟩).isSome = true
      dsimp only at hcountB
      by_cases hdup : (ctx.getState look).1 ∈ visited
      · -- the popped identifier was already visited
        have hveq : insertS visited (ctx.getState look).1 = visited :=
          insertS_eq_of_mem hdup
        rw [hveq] at hinv' hpushNot
        rw [hveq]
        cases nl with
        | nil =>
          refine ihw ctx1 table1 visited hinv' hcard n (by omega)
        | cons x nl' =>
          -- a pushed identifier is on top of the work-list and is unvisited,
          -- so the next iteration pops a fresh identifier
          have hx2 : (ctx1.getState x).1 ∈ pushed :=
            hhead (List.cons_ne_nil x nl')
          have hfresh2 : (ctx1.getState x).1 ∉ visited := hpushNot _ hx2
          obtain ⟨hwf1, hnd1, hgood1, hwait1, hvis1⟩ := hinv'
          have hlook2 : x = start0 ∨ GoodList nfa x :=
            hwait1 x (List.mem_cons_self _ _)
          have hwait2 : ∀ w' ∈ nl' ++ rest, w' = start0 ∨ GoodList nfa w' :=
            fun w' hw' => hwait1 w' (List.mem_cons_of_mem _ hw')
          obtain ⟨st'', pushed2, heq2, hinv2, hviseq2, hpushNot2, hle2,
            hcountB2, hplen2, nl2, hwaitEq2, hlenN2, hhead2⟩ :=
            expandStep_full nfa start0 x ctx1 table1 (nl' ++ rest) visited
              hwf1 hnd1 hgood1 hwait2 hvis1 hlook2
          obtain ⟨ctx2, table2, w2, visited2⟩ := st''
          have hw2 : w2 = nl2 ++ (nl' ++ rest) := hwaitEq2
          have hv2 : visited2 = insertS visited (ctx1.getState x).1 := hviseq2
          subst hw2
          subst hv2
          dsimp only at hcountB2
          have hcard2 : (insertS visited (ctx1.getState x).1).toFinset.card =
              visited.toFinset.card + 1 := card_insertS_of_not_mem hfresh2
          have hvb2 : (insertS visited
              (ctx1.getState x).1).toFinset.card ≤ ctx2.stateCount :=
            card_visited_le hinv2.2.2.2.2
          have hM1 : 1 ≤ M := by omega
          cases n with
          | zero => exact absurd hfuel (by omega)
          | succ n2 =>
            rw [List.cons_append, worklistLoop_cons, heq2]
            show (worklistLoop nfa (closureFuel nfa) n2
              ⟨ctx2, table2, nl2 ++ (nl' ++ rest),
                insertS visited (ctx1.getState x).1⟩).isSome = true
            have hMs : M - 1 + 1 = M := by omega
            have hA : (2 * charCount nfa + 1) * (M - 1 + 1) =
                (2 * charCount nfa + 1) * (M - 1) +
                (2 * charCount nfa + 1) := by ring
            rw [hMs] at hA
            have hlen1 : (x :: nl').length = pushed.length := hlenN
            rw [List.length_cons] at hlen1
            refine ihM (M - 1) (by omega) (nl2 ++ (nl' ++ rest)) ctx2 table2
              (insertS visited (ctx1.getState x).1) hinv2 (by omega) n2 ?_
            rw [List.length_append, List.length_append]
            omega
      · -- the popped identifier is fresh
        have hcard1 : (insertS visited
            (ctx.getState look).1).toFinset.card =
            visited.toFinset.card + 1 := card_insertS_of_not_mem hdup
        have hvb1 : (insertS visited
            (ctx.getState look).1).toFinset.card ≤ ctx1.stateCount :=
          card_visited_le hinv'.2.2.2.2
        have hM1 : 1 ≤ M := by omega
        have hMs : M - 1 + 1 = M := by omega
        have hA : (2 * charCount nfa + 1) * (M - 1 + 1) =
            (2 * charCount nfa + 1) * (M - 1) +
            (2 * charCount nfa + 1) := by ring
        rw [hMs] at hA
        refine ihM (M - 1) (by omega) (nl ++ rest) ctx1 table1
          (insertS visited (ctx.getState look).1) hinv' (by omega) n ?_
        rw [List.length_append]
        omega

/-- C5: with the canonical fuel, the DFA construction of `from_nfa` runs to
completion on every finite NFA, cyclic or not: the start-state epsilon
closure, every per-symbol epsilon closure, and the work-list exploration loop
all finish within the fuel, so `from_nfa` produces a DFA. -/
theorem c5_construction_terminates (nfa : NFA) :
    (startClosureLoop nfa (closureFuel nfa) [nfa.start]
      (nfa.nextStates nfa.start none)).isSome ∧
    (∀ s c, (symbolClosure nfa (closureFuel nfa) s c).isSome) ∧
    (fromNfa nfa).isSome := by
  refine ⟨startClosure_sufficient nfa, symbolClosure_sufficient nfa, ?_⟩
  unfold fromNfa fromNfaFuel
  obtain ⟨startStates, hsc⟩ :=
    Option.isSome_iff_exists.mp (startClosure_sufficient nfa)
  rw [hsc]
  dsimp only
  have hinit : WInv nfa startStates
      ⟨(Context.new.getState startStates).2, [], [startStates], []⟩ := by
    refine ⟨Context.getState_WF Context.new_WF startStates, ?_, ?_, ?_, ?_⟩
    · exact getState_keysNodup (by simp [Context.new]) startStates
    · refine getState_keysGood (fun l => l = startStates ∨ GoodList nfa l)
        ?_ (Or.inl rfl)
      intro k hk
      simp [Context.new] at hk
    · intro w hw
      rw [List.mem_singleton] at hw
      exact Or.inl hw
    · intro i hi
      cases hi
  have harith : (2 * charCount nfa + 1) * keyBound nfa +
      ([startStates] : List (List Nat)).length + 1 ≤ worklistFuel nfa := by
    unfold keyBound worklistFuel
    have e1 : (2 * charCount nfa + 2) *
        (2 ^ (statesOf nfa).dedup.length + 2) =
        (2 * charCount nfa + 2) * 2 ^ (statesOf nfa).dedup.length +
        (2 * charCount nfa + 2) * 2 := by ring
    have e2 : (2 * charCount nfa + 1) *
        (2 ^ (statesOf nfa).dedup.length + 1) =
        (2 * charCount nfa + 1) * 2 ^ (statesOf nfa).dedup.length +
        (2 * charCount nfa + 1) := by ring
    have e3 : (2 * charCount nfa + 1) * 2 ^ (statesOf nfa).dedup.length ≤
        (2 * charCount nfa + 2) * 2 ^ (statesOf nfa).dedup.length :=
      Nat.mul_le_mul_right _ (by omega)
    rw [List.length_singleton]
    omega
  have hwl := worklistLoop_sufficient nfa startStates (keyBound nfa)
    [startStates] (Context.new.getState startStates).2 [] []
    hinit (by simp) (worklistFuel nfa) harith
  obtain ⟨stf, hwlf⟩ := Option.isSome_iff_exists.mp hwl
  rw [hwlf]
  rfl

/-! ## Claim C1: language correctness of the compiled automaton -/

/-! ### Thompson construction: `assemble` builds an NFA for `lang` -/

theorem NRun.mono {nfa nfa' : NFA}
    (hsub : ∀ q oc x, x ∈ nfa.nextStates q oc → x ∈ nfa'.nextStates q oc) :
    ∀ {q w r}, NRun nfa q w r → NRun nfa' q w r := by
  intro q w r h
  induction h with
  | refl q => exact .refl q
  | eps hmem _ ih => exact .eps (hsub _ _ _ hmem) ih
  | char hmem _ ih => exact .char (hsub _ _ _ hmem) ih

theorem frag_bounds {node : Node} {n : Nat} {frag : NFA} {n1 : Nat}
    (h : assemble node n = (frag, n1)) :
    n < n1 ∧ InRange n n1 frag.start ∧
    (∀ a ∈ frag.accepts, InRange n n1 a) ∧
    (∀ q oc x, x ∈ frag.nextStates q oc →
      InRange n n1 q ∧ InRange n n1 x) := by
  have hb := assemble_bounds node n
  rw [h] at hb
  exact ⟨hb.1, hb.2.1, hb.2.2.1, hb.2.2.2⟩

theorem frag_no_edges_outside {node : Node} {n : Nat} {frag : NFA} {n1 : Nat}
    (h : assemble node n = (frag, n1)) {q : Nat} (hq : ¬ InRange n n1 q)
    (oc : Option Char) {x : Nat} : x ∉ frag.nextStates q oc := by
  intro hx
  exact hq ((frag_bounds h).2.2.2 q oc x hx).1

theorem run_stay_range {big sub : NFA} {lo hi : Nat}
    (hrange : ∀ q oc x, x ∈ sub.nextStates q oc →
      InRange lo hi q ∧ InRange lo hi x)
    (hchar : ∀ q oc x, InRange lo hi q → x ∈ big.nextStates q oc →
      x ∈ sub.nextStates q oc) :
    ∀ {q w r}, NRun big q w r → InRange lo hi q →
      NRun sub q w r ∧ InRange lo hi r := by
  intro q w r h
  induction h with
  | refl q => exact fun hq => ⟨.refl q, hq⟩
  | eps hmem _ ih =>
    intro hq
    have hm := hchar _ _ _ hq hmem
    obtain ⟨hr, hrr⟩ := ih (hrange _ _ _ hm).2
    exact ⟨.eps hm hr, hrr⟩
  | char hmem _ ih =>
    intro hq
    have hm := hchar _ _ _ hq hmem
    obtain ⟨hr, hrr⟩ := ih (hrange _ _ _ hm).2
    exact ⟨.char hm hr, hrr⟩

theorem character_run (c : Char) (n : Nat) :
    ∀ {q w r}, NRun (assemble (.character c) n).1 q w r →
    (r = q ∧ w = []) ∨ (q = n ∧ r = n + 1 ∧ w = [c]) := by
  intro q w r h
  induction h with
  | refl q => exact Or.inl ⟨rfl, rfl⟩
  | @eps q p r w hmem _ _ =>
    rw [character_edges] at hmem
    exact absurd hmem.2.1 (by simp)
  | @char q p r c0 w hmem _ ih =>
    rw [character_edges] at hmem
    obtain ⟨rfl, hoc, rfl⟩ := hmem
    injection hoc with hc
    subst hc
    rcases ih with ⟨rfl, rfl⟩ | ⟨heq, _, _⟩
    · exact Or.inr ⟨rfl, rfl, rfl⟩
    · omega

theorem empty_run (n : Nat) :
    ∀ {q w r}, NRun (assemble .empty n).1 q w r →
    (r = q ∧ w = []) ∨ (q = n ∧ r = n + 1 ∧ w = []) := by
  intro q w r h
  induction h with
  | refl q => exact Or.inl ⟨rfl, rfl⟩
  | @eps q p r w hmem _ ih =>
    rw [empty_edges] at hmem
    obtain ⟨rfl, _, rfl⟩ := hmem
    rcases ih with ⟨rfl, rfl⟩ | ⟨heq, _, _⟩
    · exact Or.inr ⟨rfl, rfl, rfl⟩
    · omega
  | @char q p r c0 w hmem _ _ =>
    rw [empty_edges] at hmem
    exact absurd hmem.2.1 (by simp)

theorem assemble_character_start (c : Char) (n : Nat) :
    (assemble (.character c) n).1.start = n := by
  rw [assemble_character_eq]
  rfl

theorem assemble_character_accepts (c : Char) (n : Nat) :
    (assemble (.character c) n).1.accepts = [n + 1] := by
  rw [assemble_character_eq]
  rfl

theorem assemble_empty_start (n : Nat) :
    (assemble .empty n).1.start = n := by
  rw [assemble_empty_eq]
  rfl

theorem assemble_empty_accepts (n : Nat) :
    (assemble .empty n).1.accepts = [n + 1] := by
  rw [assemble_empty_eq]
  rfl

theorem star_run_in_range {node : Node} {n : Nat} {frag : NFA} {n1 : Nat}
    (h : assemble node n = (frag, n1)) (hwf : WFTable frag.trans) :
    ∀ {q w r}, NRun (assemble (.star node) n).1 q w r →
    InRange n n1 q → InRange n n1 r := by
  have hb := frag_bounds h
  intro q w r hrun
  induction hrun with
  | refl q => exact id
  | @eps q p r w hmem _ ih =>
    intro hq
    rw [star_edges h hwf] at hmem
    rcases hmem with hm | ⟨rfl, _, rfl⟩ | ⟨_, _, rfl⟩
    · exact ih (hb.2.2.2 _ _ _ hm).2
    · exact absurd hq.2 (by omega)
    · exact ih hb.2.1
  | @char q p r c w hmem _ ih =>
    intro hq
    rw [star_edges h hwf] at hmem
    rcases hmem with hm | ⟨_, hoc, _⟩ | ⟨_, hoc, _⟩
    · exact ih (hb.2.2.2 _ _ _ hm).2
    · exact absurd hoc (by simp)
    · exact absurd hoc (by simp)

theorem star_decompose {node : Node} {n : Nat} {frag : NFA} {n1 : Nat}
    (h : assemble node n = (frag, n1)) (hwf : WFTable frag.trans) :
    ∀ {q w r}, NRun (assemble (.star node) n).1 q w r →
    InRange n n1 q → r ∈ frag.accepts →
    ∃ (u : List Char) (parts : List (List Char)) (a : Nat),
      w = u ++ parts.flatten ∧ NRun frag q u a ∧ a ∈ frag.accepts ∧
      ∀ p ∈ parts, ∃ b ∈ frag.accepts, NRun frag frag.start p b := by
  have hb := frag_bounds h
  intro q w r hrun
  induction hrun with
  | refl q =>
    intro _ hr
    exact ⟨[], [], q, rfl, .refl q, hr, fun p hp => absurd hp
      (List.not_mem_nil p)⟩
  | @eps q p r w hmem _ ih =>
    intro hq hr
    rw [star_edges h hwf] at hmem
    rcases hmem with hm | ⟨rfl, _, rfl⟩ | ⟨hacc, _, rfl⟩
    · obtain ⟨u, parts, a, heq, hrun', ha, hparts⟩ :=
        ih (hb.2.2.2 _ _ _ hm).2 hr
      exact ⟨u, parts, a, heq, .eps hm hrun', ha, hparts⟩
    · exact absurd hq.2 (by omega)
    · obtain ⟨u, parts, a, heq, hrun', ha, hparts⟩ := ih hb.2.1 hr
      refine ⟨[], u :: parts, q, ?_, .refl q, hacc, ?_⟩
      · rw [heq]
        rfl
      · intro p hp
        rcases List.mem_cons.mp hp with rfl | hp
        · exact ⟨a, ha, hrun'⟩
        · exact hparts p hp
  | @char q p r c w hmem _ ih =>
    intro hq hr
    rw [star_edges h hwf] at hmem
    rcases hmem with hm | ⟨_, hoc, _⟩ | ⟨_, hoc, _⟩
    · obtain ⟨u, parts, a, heq, hrun', ha, hparts⟩ :=
        ih (hb.2.2.2 _ _ _ hm).2 hr
      exact ⟨c :: u, parts, a, by rw [heq]; rfl, .char hm hrun', ha, hparts⟩
    · exact absurd hoc (by simp)
    · exact absurd hoc (by simp)

theorem star_glue {node : Node} {n : Nat} {frag : NFA} {n1 : Nat}
    (h : assemble node n = (frag, n1)) (hwf : WFTable frag.trans) :
    ∀ (parts : List (List Char)),
    (∀ p ∈ parts, ∃ b ∈ frag.accepts, NRun frag frag.start p b) →
    parts ≠ [] →
    ∃ b ∈ frag.accepts,
      NRun (assemble (.star node) n).1 frag.start parts.flatten b := by
  have hembed : ∀ {q0 w0 r0}, NRun frag q0 w0 r0 →
      NRun (assemble (.star node) n).1 q0 w0 r0 :=
    NRun.mono (fun q oc x hx => (star_edges h hwf q oc x).mpr (Or.inl hx))
  intro parts
  induction parts with
  | nil => intro _ hne; exact absurd rfl hne
  | cons p rest ih =>
    intro hall _
    obtain ⟨b, hbacc, hbrun⟩ := hall p (List.mem_cons_self _ _)
    cases rest with
    | nil =>
      refine ⟨b, hbacc, ?_⟩
      rw [show (([p] : List (List Char)).flatten) = p ++ [] from rfl]
      exact (hembed hbrun).trans (.refl b)
    | cons p2 rest2 =>
      obtain ⟨b2, hb2acc, hb2run⟩ :=
        ih (fun p' hp' => hall p' (List.mem_cons_of_mem _ hp'))
          (List.cons_ne_nil p2 rest2)
      refine ⟨b2, hb2acc, ?_⟩
      rw [show ((p :: p2 :: rest2 : List (List Char)).flatten) =
        p ++ (p2 :: rest2 : List (List Char)).flatten from rfl]
      refine (hembed hbrun).trans (.eps ?_ hb2run)
      exact (star_edges h hwf b none frag.start).mpr
        (Or.inr (Or.inr ⟨hbacc, rfl, rfl⟩))

theorem union_stay1 {node1 node2 : Node} {n : Nat} {frag1 frag2 : NFA}
    {n1 n2 : Nat} (h1 : assemble node1 n = (frag1, n1))
    (h2 : assemble node2 n1 = (frag2, n2)) (hwf1 : WFTable frag1.trans)
    (hwf2 : WFTable frag2.trans) :
    ∀ {q w r}, NRun (assemble (.union node1 node2) n).1 q w r →
    InRange n n1 q → NRun frag1 q w r ∧ InRange n n1 r := by
  have hb1 := frag_bounds h1
  have hb2 := frag_bounds h2
  intro q w r hrun hq
  refine run_stay_range hb1.2.2.2 ?_ hrun hq
  intro q oc x hq hx
  have hq2 : q < n1 := hq.2
  have hn12 : n1 < n2 := hb2.1
  rw [union_edges h1 h2 hwf1 hwf2] at hx
  rcases hx with hx | hx | ⟨rfl, _, _⟩
  · exact hx
  · have hle : n1 ≤ q := (hb2.2.2.2 _ _ _ hx).1.1
    exact absurd hq2 (by omega)
  · exact absurd hq2 (by omega)

theorem union_stay2 {node1 node2 : Node} {n : Nat} {frag1 frag2 : NFA}
    {n1 n2 : Nat} (h1 : assemble node1 n = (frag1, n1))
    (h2 : assemble node2 n1 = (frag2, n2)) (hwf1 : WFTable frag1.trans)
    (hwf2 : WFTable frag2.trans) :
    ∀ {q w r}, NRun (assemble (.union node1 node2) n).1 q w r →
    InRange n1 n2 q → NRun frag2 q w r ∧ InRange n1 n2 r := by
  have hb1 := frag_bounds h1
  have hb2 := frag_bounds h2
  intro q w r hrun hq
  refine run_stay_range hb2.2.2.2 ?_ hrun hq
  intro q oc x hq hx
  have hq1 : n1 ≤ q := hq.1
  have hq2 : q < n2 := hq.2
  rw [union_edges h1 h2 hwf1 hwf2] at hx
  rcases hx with hx | hx | ⟨rfl, _, _⟩
  · have hlt : q < n1 := (hb1.2.2.2 _ _ _ hx).1.2
    exact absurd hq1 (by omega)
  · exact hx
  · exact absurd hq2 (by omega)

theorem concat_stay2 {node1 node2 : Node} {n : Nat} {frag1 frag2 : NFA}
    {n1 n2 : Nat} (h1 : assemble node1 n = (frag1, n1))
    (h2 : assemble node2 n1 = (frag2, n2)) (hwf1 : WFTable frag1.trans)
    (hwf2 : WFTable frag2.trans) :
    ∀ {q w r}, NRun (assemble (.concat node1 node2) n).1 q w r →
    InRange n1 n2 q → NRun frag2 q w r ∧ InRange n1 n2 r := by
  have hb1 := frag_bounds h1
  have hb2 := frag_bounds h2
  intro q w r hrun hq
  refine run_stay_range hb2.2.2.2 ?_ hrun hq
  intro q oc x hq hx
  have hq1 : n1 ≤ q := hq.1
  rw [concat_edges h1 h2 hwf1 hwf2] at hx
  rcases hx with hx | hx | ⟨hacc, _, _⟩
  · have hlt : q < n1 := (hb1.2.2.2 _ _ _ hx).1.2
    exact absurd hq1 (by omega)
  · exact hx
  · have hlt : q < n1 := (hb1.2.2.1 q hacc).2
    exact absurd hq1 (by omega)

theorem concat_decompose {node1 node2 : Node} {n : Nat} {frag1 frag2 : NFA}
    {n1 n2 : Nat} (h1 : assemble node1 n = (frag1, n1))
    (h2 : assemble node2 n1 = (frag2, n2)) (hwf1 : WFTable frag1.trans)
    (hwf2 : WFTable frag2.trans) :
    ∀ {q w r}, NRun (assemble (.concat node1 node2) n).1 q w r →
    InRange n n1 q → r ∈ frag2.accepts →
    ∃ u v a, w = u ++ v ∧ NRun frag1 q u a ∧ a ∈ frag1.accepts ∧
      NRun frag2 frag2.start v r := by
  have hb1 := frag_bounds h1
  have hb2 := frag_bounds h2
  intro q w r hrun
  induction hrun with
  | refl q =>
    intro hq hr
    have hge : n1 ≤ q := (hb2.2.2.1 q hr).1
    have hlt : q < n1 := hq.2
    exact absurd hlt (by omega)
  | @eps q p r w hmem hrest ih =>
    intro hq hr
    rw [concat_edges h1 h2 hwf1 hwf2] at hmem
    rcases hmem with hm | hm | ⟨hacc, _, rfl⟩
    · obtain ⟨u, v, a, heq, hrun1, ha, hrun2⟩ :=
        ih (hb1.2.2.2 _ _ _ hm).2 hr
      exact ⟨u, v, a, heq, .eps hm hrun1, ha, hrun2⟩
    · have hge : n1 ≤ q := (hb2.2.2.2 _ _ _ hm).1.1
      have hlt : q < n1 := hq.2
      exact absurd hlt (by omega)
    · exact ⟨[], w, q, rfl, .refl q, hacc,
        (concat_stay2 h1 h2 hwf1 hwf2 hrest hb2.2.1).1⟩
  | @char q p r c w hmem _ ih =>
    intro hq hr
    rw [concat_edges h1 h2 hwf1 hwf2] at hmem
    rcases hmem with hm | hm | ⟨_, hoc, _⟩
    · obtain ⟨u, v, a, heq, hrun1, ha, hrun2⟩ :=
        ih (hb1.2.2.2 _ _ _ hm).2 hr
      exact ⟨c :: u, v, a, by rw [heq]; rfl, .char hm hrun1, ha, hrun2⟩
    · have hge : n1 ≤ q := (hb2.2.2.2 _ _ _ hm).1.1
      have hlt : q < n1 := hq.2
      exact absurd hlt (by omega)
    · exact absurd hoc (by simp)

theorem assemble_correct : ∀ (node : Node) (n : Nat),
    (∀ w q, q ∈ (assemble node n).1.accepts →
      NRun (assemble node n).1 (assemble node n).1.start w q →
      lang node w) ∧
    (∀ w, lang node w → ∃ q, q ∈ (assemble node n).1.accepts ∧
      NRun (assemble node n).1 (assemble node n).1.start w q) := by
  intro node
  induction node with
  | character c =>
    intro n
    constructor
    · intro w q hq hrun
      rw [assemble_character_accepts, List.mem_singleton] at hq
      subst hq
      rw [assemble_character_start] at hrun
      rcases character_run c n hrun with ⟨heq, _⟩ | ⟨_, _, rfl⟩
      · omega
      · rfl
    · intro w hw
      have hw' : w = [c] := hw
      subst hw'
      refine ⟨n + 1, ?_, ?_⟩
      · rw [assemble_character_accepts]
        exact List.mem_singleton_self _
      · rw [assemble_character_start]
        refine .char ?_ (.refl (n + 1))
        exact (character_edges c n n (some c) (n + 1)).mpr ⟨rfl, rfl, rfl⟩
  | empty =>
    intro n
    constructor
    · intro w q hq hrun
      rw [assemble_empty_accepts, List.mem_singleton] at hq
      subst hq
      rw [assemble_empty_start] at hrun
      rcases empty_run n hrun with ⟨heq, rfl⟩ | ⟨_, _, rfl⟩
      · rfl
      · rfl
    · intro w hw
      have hw' : w = [] := hw
      subst hw'
      refine ⟨n + 1, ?_, ?_⟩
      · rw [assemble_empty_accepts]
        exact List.mem_singleton_self _
      · rw [assemble_empty_start]
        refine .eps ?_ (.refl (n + 1))
        exact (empty_edges n n none (n + 1)).mpr ⟨rfl, rfl, rfl⟩
  | star node ih =>
    intro n
    obtain ⟨frag, n1, h⟩ : ∃ frag n1, assemble node n = (frag, n1) :=
      ⟨_, _, rfl⟩
    have hwf : WFTable frag.trans := by
      have := assemble_WFTable node n
      rw [h] at this
      exact this
    have hb := frag_bounds h
    have ihn := ih n
    rw [h] at ihn
    constructor
    · intro w q hq hrun
      rw [assemble_star_accepts h] at hq
      rw [assemble_star_start h] at hrun
      cases hrun with
      | refl =>
        exact ⟨[], fun p hp => absurd hp (List.not_mem_nil p), rfl⟩
      | @eps _ p _ _ hmem hrest =>
        rw [star_edges h hwf] at hmem
        rcases hmem with hm | ⟨_, _, rfl⟩ | ⟨hacc, _, rfl⟩
        · exact absurd ((frag_bounds h).2.2.2 _ _ _ hm).1.2 (by omega)
        · have hrr : InRange n n1 q :=
            star_run_in_range h hwf hrest hb.2.1
          have hq' : q ∈ frag.accepts := by
            rcases mem_unionS.mp hq with hq1 | hq1
            · exact hq1
            · rw [List.mem_singleton] at hq1
              subst hq1
              exact absurd hrr.2 (by omega)
          obtain ⟨u, parts, a, heq, hrun', ha, hparts⟩ :=
            star_decompose h hwf hrest hb.2.1 hq'
          refine ⟨u :: parts, ?_, by rw [heq]; rfl⟩
          intro p hp
          rcases List.mem_cons.mp hp with rfl | hp
          · exact ihn.1 p a ha hrun'
          · obtain ⟨b, hb', hbrun⟩ := hparts p hp
            exact ihn.1 p b hb' hbrun
        · exact absurd (hb.2.2.1 _ hacc).2 (by omega)
      | @char _ p _ c _ hmem hrest =>
        rw [star_edges h hwf] at hmem
        rcases hmem with hm | ⟨_, hoc, _⟩ | ⟨_, hoc, _⟩
        · exact absurd ((frag_bounds h).2.2.2 _ _ _ hm).1.2 (by omega)
        · exact absurd hoc (by simp)
        · exact absurd hoc (by simp)
    · intro w hw
      obtain ⟨parts, hall, rfl⟩ : ∃ parts : List (List Char),
          (∀ p ∈ parts, lang node p) ∧ w = parts.flatten := hw
      cases parts with
      | nil =>
        refine ⟨n1, ?_, ?_⟩
        · rw [assemble_star_accepts h]
          exact mem_unionS.mpr (Or.inr (List.mem_singleton_self n1))
        · rw [assemble_star_start h]
          exact .refl n1
      | cons p rest =>
        obtain ⟨b, hbacc, hbrun⟩ := star_glue h hwf (p :: rest)
          (fun p' hp' => by
            obtain ⟨a, ha, harun⟩ := ihn.2 p'
              (hall p' hp')
            exact ⟨a, ha, harun⟩)
          (List.cons_ne_nil p rest)
        refine ⟨b, ?_, ?_⟩
        · rw [assemble_star_accepts h]
          exact mem_unionS.mpr (Or.inl hbacc)
        · rw [assemble_star_start h]
          refine .eps ?_ hbrun
          exact (star_edges h hwf n1 none frag.start).mpr
            (Or.inr (Or.inl ⟨rfl, rfl, rfl⟩))
  | union node1 node2 ih1 ih2 =>
    intro n
    obtain ⟨frag1, n1, h1⟩ : ∃ frag n1, assemble node1 n = (frag, n1) :=
      ⟨_, _, rfl⟩
    obtain ⟨frag2, n2, h2⟩ : ∃ frag n2, assemble node2 n1 = (frag, n2) :=
      ⟨_, _, rfl⟩
    have hwf1 : WFTable frag1.trans := by
      have := assemble_WFTable node1 n
      rw [h1] at this
      exact this
    have hwf2 : WFTable frag2.trans := by
      have := assemble_WFTable node2 n1
      rw [h2] at this
      exact this
    have hb1 := frag_bounds h1
    have hb2 := frag_bounds h2
    have ihn1 := ih1 n
    rw [h1] at ihn1
    have ihn2 := ih2 n1
    rw [h2] at ihn2
    constructor
    · intro w q hq hrun
      rw [assemble_union_accepts h1 h2] at hq
      rw [assemble_union_start h1 h2] at hrun
      cases hrun with
      | refl =>
        rcases mem_unionS.mp hq with hq1 | hq1
        · exact absurd (hb1.2.2.1 _ hq1).2 (by omega)
        · exact absurd (hb2.2.2.1 _ hq1).2 (by omega)
      | @eps _ p _ _ hmem hrest =>
        rw [union_edges h1 h2 hwf1 hwf2] at hmem
        rcases hmem with hm | hm | ⟨_, _, hp⟩
        · exact absurd (hb1.2.2.2 _ _ _ hm).1.2 (by omega)
        · exact absurd (hb2.2.2.2 _ _ _ hm).1.2 (by omega)
        · rcases hp with rfl | rfl
          · obtain ⟨hrun1, hr1⟩ := union_stay1 h1 h2 hwf1 hwf2 hrest hb1.2.1
            have hq1 : q ∈ frag1.accepts := by
              rcases mem_unionS.mp hq with hqa | hqa
              · exact hqa
              · exact absurd (hb2.2.2.1 _ hqa).1 (by have := hr1.2; omega)
            have : lang node1 w := ihn1.1 w q hq1 hrun1
            exact Or.inl this
          · obtain ⟨hrun2, hr2⟩ := union_stay2 h1 h2 hwf1 hwf2 hrest hb2.2.1
            have hq2 : q ∈ frag2.accepts := by
              rcases mem_unionS.mp hq with hqa | hqa
              · exact absurd (hb1.2.2.1 _ hqa).2 (by have := hr2.1; omega)
              · exact hqa
            have : lang node2 w := ihn2.1 w q hq2 hrun2
            exact Or.inr this
      | @char _ p _ c _ hmem hrest =>
        rw [union_edges h1 h2 hwf1 hwf2] at hmem
        rcases hmem with hm | hm | ⟨_, hoc, _⟩
        · exact absurd (hb1.2.2.2 _ _ _ hm).1.2 (by omega)
        · exact absurd (hb2.2.2.2 _ _ _ hm).1.2 (by omega)
        · exact absurd hoc (by simp)
    · intro w hw
      rcases (hw : lang node1 w ∨ lang node2 w) with hw1 | hw2
      · obtain ⟨a, ha, harun⟩ := ihn1.2 w hw1
        refine ⟨a, ?_, ?_⟩
        · rw [assemble_union_accepts h1 h2]
          exact mem_unionS.mpr (Or.inl ha)
        · rw [assemble_union_start h1 h2]
          refine .eps ?_ (NRun.mono (fun q oc x hx =>
            (union_edges h1 h2 hwf1 hwf2 q oc x).mpr (Or.inl hx)) harun)
          exact (union_edges h1 h2 hwf1 hwf2 n2 none frag1.start).mpr
            (Or.inr (Or.inr ⟨rfl, rfl, Or.inl rfl⟩))
      · obtain ⟨a, ha, harun⟩ := ihn2.2 w hw2
        refine ⟨a, ?_, ?_⟩
        · rw [assemble_union_accepts h1 h2]
          exact mem_unionS.mpr (Or.inr ha)
        · rw [assemble_union_start h1 h2]
          refine .eps ?_ (NRun.mono (fun q oc x hx =>
            (union_edges h1 h2 hwf1 hwf2 q oc x).mpr (Or.inr (Or.inl hx)))
            harun)
          exact (union_edges h1 h2 hwf1 hwf2 n2 none frag2.start).mpr
            (Or.inr (Or.inr ⟨rfl, rfl, Or.inr rfl⟩))
  | concat node1 node2 ih1 ih2 =>
    intro n
    obtain ⟨frag1, n1, h1⟩ : ∃ frag n1, assemble node1 n = (frag, n1) :=
      ⟨_, _, rfl⟩
    obtain ⟨frag2, n2, h2⟩ : ∃ frag n2, assemble node2 n1 = (frag, n2) :=
      ⟨_, _, rfl⟩
    have hwf1 : WFTable frag1.trans := by
      have := assemble_WFTable node1 n
      rw [h1] at this
      exact this
    have hwf2 : WFTable frag2.trans := by
      have := assemble_WFTable node2 n1
      rw [h2] at this
      exact this
    have hb1 := frag_bounds h1
    have ihn1 := ih1 n
    rw [h1] at ihn1
    have ihn2 := ih2 n1
    rw [h2] at ihn2
    constructor
    · intro w q hq hrun
      rw [assemble_concat_accepts h1 h2] at hq
      rw [assemble_concat_start h1 h2] at hrun
      obtain ⟨u, v, a, heq, hrun1, ha, hrun2⟩ :=
        concat_decompose h1 h2 hwf1 hwf2 hrun hb1.2.1 hq
      exact ⟨u, v, ihn1.1 u a ha hrun1, ihn2.1 v q hq hrun2, heq⟩
    · intro w hw
      obtain ⟨u, v, hu, hv, rfl⟩ : ∃ u v, lang node1 u ∧ lang node2 v ∧
          w = u ++ v := hw
      obtain ⟨a, ha, harun⟩ := ihn1.2 u hu
      obtain ⟨b, hbacc, hbrun⟩ := ihn2.2 v hv
      refine ⟨b, ?_, ?_⟩
      · rw [assemble_concat_accepts h1 h2]
        exact hbacc
      · rw [assemble_concat_start h1 h2]
        have hemb1 := NRun.mono (fun q oc x hx =>
          (concat_edges h1 h2 hwf1 hwf2 q oc x).mpr (Or.inl hx)) harun
        have hemb2 := NRun.mono (fun q oc x hx =>
          (concat_edges h1 h2 hwf1 hwf2 q oc x).mpr (Or.inr (Or.inl hx)))
          hbrun
        refine hemb1.trans (.eps ?_ hemb2)
        exact (concat_edges h1 h2 hwf1 hwf2 a none frag2.start).mpr
          (Or.inr (Or.inr ⟨ha, rfl, rfl⟩))

theorem fromNode_correct (node : Node) (w : List Char) :
    nfaAccepts (fromNode node) w ↔ lang node w := by
  unfold nfaAccepts fromNode
  constructor
  · rintro ⟨q, hq, hrun⟩
    exact (assemble_correct node 0).1 w q hq hrun
  · intro hw
    obtain ⟨q, hq, hrun⟩ := (assemble_correct node 0).2 w hw
    exact ⟨q, hq, hrun⟩

/-! ### Subset construction: the built DFA simulates the NFA -/

theorem lookupA_insertA {α β : Type} [DecidableEq α] (m : List (α × β))
    (k k' : α) (v : β) :
    lookupA (insertA m k v) k' = if k' = k then some v else lookupA m k' := by
  unfold insertA
  rw [lookupA_updateA]

theorem NRun.char_split {nfa : NFA} {c : Char} :
    ∀ {q w r}, NRun nfa q (c :: w) r →
    ∃ q1 q2, NRun nfa q [] q1 ∧ q2 ∈ nfa.nextStates q1 (some c) ∧
      NRun nfa q2 w r := by
  intro q w r h
  generalize hw0 : c :: w = w0 at h
  induction h with
  | refl q => exact absurd hw0 (List.cons_ne_nil c w)
  | eps hmem _ ih =>
    obtain ⟨q1, q2, h1, h2, h3⟩ := ih hw0
    exact ⟨q1, q2, .eps hmem h1, h2, h3⟩
  | @char q0 p r0 c0 w0 hmem hrun _ =>
    injection hw0 with hc hw
    subst hc
    subst hw
    exact ⟨q0, p, .refl q0, hmem, hrun⟩

theorem mem_buildAccepts_fold (nfa : NFA) :
    ∀ (entries : List (List Nat × Nat)) (acc : List Nat) (id : Nat),
    id ∈ entries.foldl
      (fun acc e => if e.1.any (fun s => decide (s ∈ nfa.accepts))
        then insertS acc e.2 else acc) acc ↔
    id ∈ acc ∨ ∃ e ∈ entries, e.2 = id ∧
      e.1.any (fun s => decide (s ∈ nfa.accepts)) = true := by
  intro entries
  induction entries with
  | nil =>
    intro acc id
    simp
  | cons e rest ih =>
    intro acc id
    rw [List.foldl_cons, ih]
    by_cases he : e.1.any (fun s => decide (s ∈ nfa.accepts)) = true
    · rw [if_pos he, mem_insertS]
      constructor
      · rintro ((h | rfl) | h)
        · exact Or.inl h
        · exact Or.inr ⟨e, List.mem_cons_self _ _, rfl, he⟩
        · obtain ⟨e', he', h1, h2⟩ := h
          exact Or.inr ⟨e', List.mem_cons_of_mem _ he', h1, h2⟩
      · rintro (h | ⟨e', he', h1, h2⟩)
        · exact Or.inl (Or.inl h)
        · rcases List.mem_cons.mp he' with rfl | he''
          · exact Or.inl (Or.inr h1.symm)
          · exact Or.inr ⟨e', he'', h1, h2⟩
    · rw [if_neg he]
      constructor
      · rintro (h | ⟨e', he', h1, h2⟩)
        · exact Or.inl h
        · exact Or.inr ⟨e', List.mem_cons_of_mem _ he', h1, h2⟩
      · rintro (h | ⟨e', he', h1, h2⟩)
        · exact Or.inl h
        · rcases List.mem_cons.mp he' with rfl | he''
          · exact absurd h2 he
          · exact Or.inr ⟨e', he'', h1, h2⟩

theorem mem_buildAccepts {nfa : NFA} {ctx : Context} {id : Nat} :
    id ∈ buildAccepts nfa ctx ↔
    ∃ e ∈ ctx.stateMap, e.2 = id ∧
      e.1.any (fun s => decide (s ∈ nfa.accepts)) = true := by
  unfold buildAccepts
  rw [mem_buildAccepts_fold]
  simp

theorem key_next_ne {nfa : NFA} (hwt : WFTable nfa.trans)
    (hvn : ValuesNonempty nfa.trans) {q : Nat} {c : Char}
    (h : some c ∈ nfa.nextChars q) : nfa.nextStates q (some c) ≠ [] := by
  unfold NFA.nextChars at h
  unfold NFA.nextStates
  cases htab : lookupA nfa.trans q with
  | none =>
    rw [htab] at h
    exact absurd h (List.not_mem_nil _)
  | some table =>
    rw [htab] at h
    have h' : some c ∈ table.map Prod.fst := h
    rw [List.mem_map] at h'
    obtain ⟨⟨oc, tos⟩, hmem, heq⟩ := h'
    have hnd : (table.map Prod.fst).Nodup :=
      hwt.2 (q, table) (lookupA_mem htab)
    have hlk : lookupA table oc = some tos := lookupA_of_mem_nodup hnd hmem
    have hoc : oc = some c := heq
    subst hoc
    show (match lookupA table (some c) with
      | some tos => tos
      | none => []) ≠ []
    rw [hlk]
    exact hvn (q, table) (lookupA_mem htab) (some c, tos) hmem

theorem charFold_key_isSome {nfa : NFA} {fuel : Nat} {lookState : Nat} :
    ∀ {ocs : List (Option Char)} {tmap tmap' : List (Char × List Nat)},
    charFold nfa fuel lookState ocs tmap = some tmap' → ∀ c : Char,
    ((lookupA tmap' c).isSome = true ↔
      (lookupA tmap c).isSome = true ∨ some c ∈ ocs) := by
  intro ocs
  induction ocs with
  | nil =>
    intro tmap tmap' h c
    have h' : some tmap = some tmap' := h
    obtain rfl := Option.some_injective _ h'
    simp
  | cons oc rest ih =>
    intro tmap tmap' h c
    cases oc with
    | none =>
      rw [ih h c]
      constructor
      · rintro (h1 | h1)
        · exact Or.inl h1
        · exact Or.inr (List.mem_cons_of_mem _ h1)
      · rintro (h1 | h1)
        · exact Or.inl h1
        · rcases List.mem_cons.mp h1 with h2 | h2
          · exact absurd h2 (by simp)
          · exact Or.inr h2
    | some c0 =>
      have h' : (match symbolClosure nfa fuel lookState c0 with
        | none => none
        | some ns => charFold nfa fuel lookState rest
            (updateA c0 [] (fun old => extendS old ns) tmap)) = some tmap' := h
      cases hsc : symbolClosure nfa fuel lookState c0 with
      | none =>
        rw [hsc] at h'
        exact absurd h' (by simp)
      | some ns =>
        rw [hsc] at h'
        rw [ih h' c]
        rw [lookupA_updateA]
        by_cases hc : c = c0
        · subst hc
          simp
        · rw [if_neg hc]
          constructor
          · rintro (h1 | h1)
            · exact Or.inl h1
            · exact Or.inr (List.mem_cons_of_mem _ h1)
          · rintro (h1 | h1)
            · exact Or.inl h1
            · rcases List.mem_cons.mp h1 with h2 | h2
              · injection h2 with h3
                exact absurd h3 hc
              · exact Or.inr h2

theorem buildTMap_key_isSome {nfa : NFA} {fuel : Nat} :
    ∀ {look : List Nat} {tmap tmap' : List (Char × List Nat)},
    buildTMap nfa fuel look tmap = some tmap' → ∀ c : Char,
    ((lookupA tmap' c).isSome = true ↔
      (lookupA tmap c).isSome = true ∨
      ∃ q ∈ look, some c ∈ nfa.nextChars q) := by
  intro look
  induction look with
  | nil =>
    intro tmap tmap' h c
    have h' : some tmap = some tmap' := h
    obtain rfl := Option.some_injective _ h'
    simp
  | cons s rest ih =>
    intro tmap tmap' h c
    have h' : (match charFold nfa fuel s (nfa.nextChars s) tmap with
      | none => none
      | some t2 => buildTMap nfa fuel rest t2) = some tmap' := h
    cases hcf : charFold nfa fuel s (nfa.nextChars s) tmap with
    | none =>
      rw [hcf] at h'
      exact absurd h' (by simp)
    | some t2 =>
      rw [hcf] at h'
      rw [ih h' c, charFold_key_isSome hcf c]
      constructor
      · rintro ((h1 | h1) | h1)
        · exact Or.inl h1
        · exact Or.inr ⟨s, List.mem_cons_self _ _, h1⟩
        · obtain ⟨q, hq, h2⟩ := h1
          exact Or.inr ⟨q, List.mem_cons_of_mem _ hq, h2⟩
      · rintro (h1 | ⟨q, hq, h2⟩)
        · exact Or.inl (Or.inl h1)
        · rcases List.mem_cons.mp hq with rfl | hq'
          · exact Or.inl (Or.inr h2)
          · exact Or.inr ⟨q, hq', h2⟩

theorem ctx_ext_value_ge {c1 c2 : Context} (h1 : c1.WF) (h2 : c2.WF)
    {ext : List (List Nat × Nat)} (hext : c2.stateMap = c1.stateMap ++ ext)
    {k : List Nat} {v : Nat} (hkv : (k, v) ∈ ext) : c1.stateCount ≤ v := by
  have hmap : (c2.stateMap.map Prod.snd) =
      c1.stateMap.map Prod.snd ++ ext.map Prod.snd := by
    rw [hext, List.map_append]
  rw [h2.2, h1.2] at hmap
  have hlen : c2.stateMap.length = c1.stateMap.length + ext.length := by
    rw [hext, List.length_append]
  rw [hlen, List.range_add] at hmap
  have hx : (List.range ext.length).map (c1.stateMap.length + ·) =
      ext.map Prod.snd := List.append_cancel_left hmap
  have hv : v ∈ ext.map Prod.snd := List.mem_map_of_mem Prod.snd hkv
  rw [← hx, List.mem_map] at hv
  obtain ⟨i, _, rfl⟩ := hv
  rw [h1.1]
  omega

theorem recordTransitions_ctxLE (formState : Nat) :
    ∀ (entries : List (Char × List Nat)) (st : BuildSt),
    CtxLE st.ctx (recordTransitions formState entries st).1.ctx := by
  intro entries
  induction entries with
  | nil => intro st; exact ctxLE_refl _
  | cons e rest ih =>
    intro st
    obtain ⟨c0, nsl0⟩ := e
    unfold recordTransitions
    cases hgs : st.ctx.getState nsl0 with
    | mk toState ctx' =>
      dsimp only
      have hle0 : CtxLE st.ctx ctx' := by
        have h := getState_ctxLE st.ctx nsl0
        rw [hgs] at h
        exact h
      exact ctxLE_trans hle0 (ih _)

theorem recordTransitions_waiting_suffix (formState : Nat) :
    ∀ (entries : List (Char × List Nat)) (st : BuildSt),
    ∃ nl, (recordTransitions formState entries st).1.waiting =
      nl ++ st.waiting := by
  intro entries
  induction entries with
  | nil => intro st; exact ⟨[], rfl⟩
  | cons e rest ih =>
    intro st
    obtain ⟨c0, nsl0⟩ := e
    unfold recordTransitions
    cases hgs : st.ctx.getState nsl0 with
    | mk toState ctx' =>
      dsimp only
      by_cases hv : toState ∈ st.visited
      · simp only [if_pos hv]
        exact ih _
      · simp only [if_neg hv]
        obtain ⟨nl, hnl⟩ := ih
          { ctx := ctx', table := insertA st.table (formState, c0) toState,
            waiting := nsl0 :: st.waiting, visited := st.visited }
        refine ⟨nl ++ [nsl0], ?_⟩
        rw [hnl, List.append_assoc]
        rfl

theorem recordTransitions_table_other (formState : Nat) :
    ∀ (entries : List (Char × List Nat)) (st : BuildSt) (q : Nat) (c : Char),
    (q ≠ formState ∨ c ∉ entries.map Prod.fst) →
    lookupA (recordTransitions formState entries st).1.table ((q, c)) =
      lookupA st.table ((q, c)) := by
  intro entries
  induction entries with
  | nil => intro st q c _; rfl
  | cons e rest ih =>
    intro st q c hcond
    obtain ⟨c0, nsl0⟩ := e
    unfold recordTransitions
    cases hgs : st.ctx.getState nsl0 with
    | mk toState ctx' =>
      dsimp only
      have hcond2 : q ≠ formState ∨ c ∉ rest.map Prod.fst := by
        rcases hcond with h | h
        · exact Or.inl h
        · exact Or.inr (fun hc => h (List.mem_cons_of_mem _ hc))
      rw [ih _ q c hcond2]
      show lookupA (insertA st.table (formState, c0) toState) ((q, c)) =
        lookupA st.table ((q, c))
      rw [lookupA_insertA, if_neg]
      intro heq
      injection heq with h1 h2
      rcases hcond with h | h
      · exact h h1
      · refine h ?_
        rw [h2]
        exact List.mem_cons_self _ _

theorem recordTransitions_table_hit (formState : Nat) :
    ∀ (entries : List (Char × List Nat)) (st : BuildSt),
    (entries.map Prod.fst).Nodup →
    ∀ c nsl, (c, nsl) ∈ entries →
    ∃ tid, lookupA (recordTransitions formState entries st).1.table
        ((formState, c)) = some tid ∧
      lookupA (recordTransitions formState entries st).1.ctx.stateMap
        (sortStates nsl) = some tid ∧
      (tid ∈ st.visited ∨
        nsl ∈ (recordTransitions formState entries st).1.waiting) := by
  intro entries
  induction entries with
  | nil =>
    intro st _ c nsl h
    cases h
  | cons e rest ih =>
    intro st hnd c nsl hmem
    obtain ⟨c0, nsl0⟩ := e
    have hnd' : (rest.map Prod.fst).Nodup := (List.nodup_cons.mp hnd).2
    have hc0 : c0 ∉ rest.map Prod.fst := (List.nodup_cons.mp hnd).1
    unfold recordTransitions
    cases hgs : st.ctx.getState nsl0 with
    | mk toState ctx' =>
      dsimp only
      have hself : lookupA ctx'.stateMap (sortStates nsl0) = some toState := by
        have h := getState_lookup_self st.ctx nsl0
        rw [hgs] at h
        exact h
      rcases List.mem_cons.mp hmem with heq | hmem'
      · injection heq with hc hnsl
        subst hc
        subst hnsl
        refine ⟨toState, ?_, ?_, ?_⟩
        · rw [recordTransitions_table_other formState rest _ formState c
            (Or.inr hc0)]
          show lookupA (insertA st.table (formState, c) toState)
            ((formState, c)) = some toState
          rw [lookupA_insertA, if_pos rfl]
        · obtain ⟨ext, hext⟩ := recordTransitions_ctxLE formState rest
            { ctx := ctx', table := insertA st.table (formState, c) toState,
              waiting := if toState ∈ st.visited then st.waiting
                else nsl :: st.waiting,
              visited := st.visited }
          rw [hext]
          exact lookupA_append_left hself ext
        · by_cases hv : toState ∈ st.visited
          · exact Or.inl hv
          · right
            simp only [if_neg hv]
            obtain ⟨nl, hnl⟩ := recordTransitions_waiting_suffix formState
              rest
              { ctx := ctx', table := insertA st.table (formState, c) toState,
                waiting := nsl :: st.waiting, visited := st.visited }
            rw [hnl]
            exact List.mem_append_right _ (List.mem_cons_self _ _)
      · exact ih _ hnd' c nsl hmem'

theorem recordTransitions_table_isSome_mono (formState : Nat) :
    ∀ (entries : List (Char × List Nat)) (st : BuildSt) (k : Nat × Char),
    (lookupA st.table k).isSome = true →
    (lookupA (recordTransitions formState entries st).1.table k).isSome =
      true := by
  intro entries
  induction entries with
  | nil => intro st k h; exact h
  | cons e rest ih =>
    intro st k h
    obtain ⟨c0, nsl0⟩ := e
    unfold recordTransitions
    cases hgs : st.ctx.getState nsl0 with
    | mk toState ctx' =>
      dsimp only
      refine ih _ k ?_
      show (lookupA (insertA st.table (formState, c0) toState) k).isSome = true
      rw [lookupA_insertA]
      by_cases hk : k = (formState, c0)
      · rw [if_pos hk]
        rfl
      · rw [if_neg hk]
        exact h

theorem worklistLoop_CInv (nfa : NFA) (start0 : List Nat) (hnm : NoMixed nfa) :
    ∀ (wfuel : Nat) (st stf : BuildSt),
    worklistLoop nfa (closureFuel nfa) wfuel st = some stf →
    WInv nfa start0 st →
    CInv nfa st →
    StartClause start0 st →
    stf.waiting = [] ∧ WInv nfa start0 stf ∧ CInv nfa stf ∧
      StartClause start0 stf ∧ CtxLE st.ctx stf.ctx := by
  intro wfuel
  induction wfuel with
  | zero =>
    intro st stf hloop _ _ _
    rw [worklistLoop_zero] at hloop
    exact absurd hloop (by simp)
  | succ n ih =>
    intro st stf hloop hwinv hcinv hsc
    obtain ⟨ctx, table, w, visited⟩ := st
    cases w with
    | nil =>
      have hstf : stf = ⟨ctx, table, [], visited⟩ := by
        rw [worklistLoop_nil] at hloop
        exact (Option.some_injective _ hloop).symm
      subst hstf
      exact ⟨rfl, hwinv, hcinv, hsc, ctxLE_refl _⟩
    | cons look w2 =>
      rw [worklistLoop_cons] at hloop
      have hwf : ctx.WF := hwinv.1
      have hnd : (ctx.stateMap.map Prod.fst).Nodup := hwinv.2.1
      have hgood := hwinv.2.2.1
      have hwait := hwinv.2.2.2.1
      have hvis := hwinv.2.2.2.2
      have hlook : look = start0 ∨ GoodList nfa look :=
        hwait look (List.mem_cons_self _ _)
      obtain ⟨st1, pushed, heq, hwinv1, hvis1, hpush, hle, hcount, hplen,
        newLists, hwait1, hlenN, hheadN⟩ :=
        expandStep_full nfa start0 look ctx table w2 visited
          hwf hnd hgood (fun v hv => hwait v (List.mem_cons_of_mem _ hv))
          (fun i hi => hvis i hi) hlook
      rw [heq] at hloop
      have hloop2 : worklistLoop nfa (closureFuel nfa) n st1 = some stf :=
        hloop
      obtain ⟨tmap, hbt⟩ :=
        Option.isSome_iff_exists.mp (buildTMap_sufficient nfa look [])
      have heq2 := @expandStep_eq nfa (closureFuel nfa) look
        ⟨ctx, table, w2, visited⟩ tmap hbt
      dsimp only at heq2
      rw [heq] at heq2
      injection heq2 with h3
      injection h3 with hst h4
      injection h4 with h5 hpushedeq
      subst hst
      set id0 := (ctx.getState look).1 with hid0
      set ctx1 := (ctx.getState look).2 with hctx1
      set stV : BuildSt :=
        { ctx := ctx1, table := table, waiting := w2,
          visited := insertS visited id0 } with hstV
      set RT := recordTransitions id0 tmap stV with hRT
      have hself1 : lookupA ctx1.stateMap (sortStates look) = some id0 :=
        getState_lookup_self ctx look
      have hleV : CtxLE ctx1 RT.1.ctx :=
        recordTransitions_ctxLE id0 tmap stV
      have htg := buildTMap_good hbt
        (fun e he => absurd he (List.not_mem_nil e))
        ⟨List.nodup_nil, fun c hc => absurd hc (List.not_mem_nil c)⟩
      have hlookRT : lookupA RT.1.ctx.stateMap (sortStates look) =
          some id0 := by
        obtain ⟨ext1, hext1⟩ := hleV
        rw [hext1]
        exact lookupA_append_left hself1 ext1
      obtain ⟨ext, hext⟩ := hle
      have hCInv2 : CInv nfa RT.1 := by
        constructor
        · intro id c tid hlk
          by_cases hidc : id = id0 ∧ c ∈ tmap.map Prod.fst
          · obtain ⟨hideq, hcmem⟩ := hidc
            subst hideq
            rw [List.mem_map] at hcmem
            obtain ⟨⟨c2, nsl⟩, hmem, hceq⟩ := hcmem
            have hceq2 : c2 = c := hceq
            subst hceq2
            obtain ⟨tid0, ht1, ht2, ht3⟩ :=
              recordTransitions_table_hit id0 tmap stV htg.2.1 c2 nsl hmem
            have ht1f : lookupA RT.1.table ((id0, c2)) = some tid0 := ht1
            rw [ht1f] at hlk
            injection hlk with htid
            subst htid
            refine ⟨look, nsl, hlookRT, ht2, ?_, ?_⟩
            · have hlkt : lookupA tmap c2 = some nsl :=
                lookupA_of_mem_nodup htg.2.1 hmem
              exact tmap_target_sets nfa hnm (closureFuel nfa) look c2 tmap
                nsl hbt hlkt
            · rcases ht3 with h | h
              · left
                rw [hvis1]
                exact h
              · right
                exact ⟨nsl, h, ht2⟩
          · rw [not_and_or] at hidc
            have hother : lookupA RT.1.table ((id, c)) =
                lookupA table ((id, c)) :=
              recordTransitions_table_other id0 tmap stV id c hidc
            rw [hother] at hlk
            obtain ⟨L, target, hbL, hbT, hsets, hvw⟩ := hcinv.1 id c tid hlk
            refine ⟨L, target, ?_, ?_, hsets, ?_⟩
            · rw [hext]
              exact lookupA_append_left hbL ext
            · rw [hext]
              exact lookupA_append_left hbT ext
            · rcases hvw with h | h
              · left
                rw [hvis1]
                exact mem_insertS.mpr (Or.inl h)
              · obtain ⟨W, hW, hbW⟩ := h
                have hW2 : W ∈ look :: w2 := hW
                rcases List.mem_cons.mp hW2 with rfl | hW3
                · left
                  rw [hvis1]
                  have hgs : ctx.getState W = (tid, ctx) :=
                    Context.getState_hit hbW
                  have hidt : id0 = tid := by rw [hid0, hgs]
                  rw [← hidt]
                  exact mem_insertS.mpr (Or.inr rfl)
                · right
                  refine ⟨W, ?_, ?_⟩
                  · rw [hwait1]
                    exact List.mem_append_right _ hW3
                  · rw [hext]
                    exact lookupA_append_left hbW ext
        · intro id hidv L hbL c hqc
          rw [hvis1] at hidv
          rcases mem_insertS.mp hidv with hid | rfl
          · have hmemL := lookupA_mem hbL
            rw [hext] at hmemL
            rcases List.mem_append.mp hmemL with hm | hm
            · have hbL0 : lookupA ctx.stateMap (sortStates L) = some id :=
                lookupA_of_mem_nodup hnd hm
              have hids : (lookupA table ((id, c))).isSome = true :=
                hcinv.2 id hid L hbL0 c hqc
              exact recordTransitions_table_isSome_mono id0 tmap stV
                ((id, c)) hids
            · exfalso
              have hge := ctx_ext_value_ge hwf hwinv1.1 hext hm
              have hlt : id < ctx.stateCount := hvis id hid
              omega
          · have hsorteq : sortStates L = sortStates look :=
              lookupA_inj_of_WF hwinv1.1 hbL hlookRT
            obtain ⟨q, hqL, hqkey⟩ := hqc
            have hqlook : q ∈ look := by
              have h1 : q ∈ sortStates L := mem_sortStates.mpr hqL
              rw [hsorteq] at h1
              exact mem_sortStates.mp h1
            have hsome : (lookupA tmap c).isSome = true :=
              (buildTMap_key_isSome hbt c).mpr (Or.inr ⟨q, hqlook, hqkey⟩)
            obtain ⟨nsl, hlkt⟩ := Option.isSome_iff_exists.mp hsome
            have hmemt : (c, nsl) ∈ tmap := lookupA_mem hlkt
            obtain ⟨tid0, ht1, h6, h7⟩ :=
              recordTransitions_table_hit id0 tmap stV htg.2.1 c nsl hmemt
            have ht1f : lookupA RT.1.table ((id0, c)) = some tid0 := ht1
            rw [ht1f]
            rfl
      have hsc2 : StartClause start0 RT.1 := by
        obtain ⟨hb0, hvw0⟩ := hsc
        constructor
        · rw [hext]
          exact lookupA_append_left hb0 ext
        · rcases hvw0 with h | h
          · left
            rw [hvis1]
            exact mem_insertS.mpr (Or.inl h)
          · have h2 : start0 ∈ look :: w2 := h
            rcases List.mem_cons.mp h2 with heq0 | h3
            · left
              rw [hvis1]
              have hgs2 : ctx.getState look = (0, ctx) := by
                rw [← heq0]
                exact Context.getState_hit hb0
              have hid00 : id0 = 0 := by rw [hid0, hgs2]
              rw [hid00]
              exact mem_insertS.mpr (Or.inr rfl)
            · right
              rw [hwait1]
              exact List.mem_append_right _ h3
      obtain ⟨hnil, hwf3, hci3, hsc3, hle3⟩ :=
        ih RT.1 stf hloop2 hwinv1 hCInv2 hsc2
      exact ⟨hnil, hwf3, hci3, hsc3, ctxLE_trans ⟨ext, hext⟩ hle3⟩

theorem matchLoop_correct (nfa : NFA) (stf : BuildSt) (dfa : DFA)
    (hwf : stf.ctx.WF) (hcinv : CInv nfa stf) (hwnil : stf.waiting = [])
    (hacc : dfa.accepts = buildAccepts nfa stf.ctx)
    (htr : dfa.trans = stf.table) :
    ∀ (w : List Char) (id : Nat) (L : List Nat),
    lookupA stf.ctx.stateMap (sortStates L) = some id →
    id ∈ stf.visited →
    EpsClosed nfa { x | x ∈ L } →
    (matchLoop dfa id w = true ↔
      ∃ q ∈ L, ∃ r ∈ nfa.accepts, NRun nfa q w r) := by
  intro w
  induction w with
  | nil =>
    intro id L hbL hidv hLcl
    rw [show matchLoop dfa id [] = decide (id ∈ dfa.accepts) from rfl,
      decide_eq_true_eq, hacc, mem_buildAccepts]
    constructor
    · rintro ⟨e, he, heid, hany⟩
      have hvnd : (stf.ctx.stateMap.map Prod.snd).Nodup := by
        rw [hwf.2]
        exact List.nodup_range _
      have hmemL : ((sortStates L, id)) ∈ stf.ctx.stateMap := lookupA_mem hbL
      obtain ⟨k, v⟩ := e
      have heid2 : v = id := heid
      subst heid2
      have hkey : k = sortStates L := mem_pairs_inj hvnd he hmemL
      subst hkey
      rw [List.any_eq_true] at hany
      obtain ⟨s, hs, hsa⟩ := hany
      exact ⟨s, mem_sortStates.mp hs, s, of_decide_eq_true hsa, NRun.refl s⟩
    · rintro ⟨q, hq, r, hr, hrun⟩
      have hrL : r ∈ { x | x ∈ L } := mem_of_closed_run hLcl hrun rfl hq
      refine ⟨(sortStates L, id), lookupA_mem hbL, rfl, ?_⟩
      rw [List.any_eq_true]
      exact ⟨r, mem_sortStates.mpr hrL, decide_eq_true hr⟩
  | cons c w ih =>
    intro id L hbL hidv hLcl
    have hml : matchLoop dfa id (c :: w) =
        match lookupA stf.table ((id, c)) with
        | some state => matchLoop dfa state w
        | none => false := by
      show (match dfa.nextState id c with
        | some state => matchLoop dfa state w
        | none => false) =
        match lookupA stf.table ((id, c)) with
        | some state => matchLoop dfa state w
        | none => false
      rw [show dfa.nextState id c = lookupA dfa.trans ((id, c)) from rfl, htr]
    rw [hml]
    cases hlk : lookupA stf.table ((id, c)) with
    | none =>
      constructor
      · intro h2
        exact Bool.noConfusion h2
      · rintro ⟨q, hq, r, hr, hrun⟩
        exfalso
        obtain ⟨q1, q2, hrun1, hmem, hrun2⟩ := NRun.char_split hrun
        have hq1L : q1 ∈ { x | x ∈ L } := mem_of_closed_run hLcl hrun1 rfl hq
        have hkey : some c ∈ nfa.nextChars q1 :=
          mem_key_of_nextStates_ne (List.ne_nil_of_mem hmem)
        have hsome := hcinv.2 id hidv L hbL c ⟨q1, hq1L, hkey⟩
        rw [hlk] at hsome
        exact absurd hsome (by simp)
    | some tid =>
      obtain ⟨L2, target, hbL2, hbT, hsets, hvw⟩ := hcinv.1 id c tid hlk
      have hsort : sortStates L2 = sortStates L :=
        lookupA_inj_of_WF hwf hbL2 hbL
      have hLL : ∀ x, x ∈ L2 ↔ x ∈ L := by
        intro x
        constructor
        · intro hx
          have h1 : x ∈ sortStates L2 := mem_sortStates.mpr hx
          rw [hsort] at h1
          exact mem_sortStates.mp h1
        · intro hx
          have h1 : x ∈ sortStates L := mem_sortStates.mpr hx
          rw [← hsort] at h1
          exact mem_sortStates.mp h1
      have htidv : tid ∈ stf.visited := by
        rcases hvw with h | h
        · exact h
        · obtain ⟨W, hW, hbW⟩ := h
          rw [hwnil] at hW
          exact absurd hW (List.not_mem_nil W)
      have htcl : EpsClosed nfa { x | x ∈ target } := by
        have hseteq : { x | x ∈ target } = epsReach nfa
            { x | ∃ q ∈ L2, x ∈ nfa.nextStates q (some c) } := by
          ext y
          exact hsets y
        rw [hseteq]
        exact epsReach_closed nfa _
      rw [ih tid target hbT htidv htcl]
      constructor
      · rintro ⟨q2, hq2, r, hr, hrun2⟩
        have hq2r : q2 ∈ epsReach nfa
            { x | ∃ q ∈ L2, x ∈ nfa.nextStates q (some c) } :=
          (hsets q2).mp hq2
        obtain ⟨x0, hx0S, hrun0⟩ := hq2r
        obtain ⟨q, hqL2, hx0⟩ := hx0S
        refine ⟨q, (hLL q).mp hqL2, r, hr, ?_⟩
        exact NRun.char hx0 (NRun.trans hrun0 hrun2)
      · rintro ⟨q, hq, r, hr, hrun⟩
        obtain ⟨q1, q2, hrun1, hmem, hrun2⟩ := NRun.char_split hrun
        have hq1L : q1 ∈ { x | x ∈ L } := mem_of_closed_run hLcl hrun1 rfl hq
        have hq2t : q2 ∈ target := by
          rw [hsets q2]
          exact subset_epsReach nfa _ ⟨q1, (hLL q1).mpr hq1L, hmem⟩
        exact ⟨q2, hq2t, r, hr, hrun2⟩

theorem Context.new_getState_fst (l : List Nat) :
    (Context.new.getState l).1 = 0 := by
  rw [Context.getState_miss
    (show lookupA Context.new.stateMap (sortStates l) = none from
      lookupA_nil _)]
  rfl

theorem fromNfa_correct {nfa : NFA} (hnm : NoMixed nfa) {dfa : DFA}
    (h : fromNfa nfa = some dfa) (w : List Char) :
    (dfa.matches w = true ↔ nfaAccepts nfa w) := by
  unfold fromNfa fromNfaFuel at h
  cases hsc : startClosureLoop nfa (closureFuel nfa) [nfa.start]
      (nfa.nextStates nfa.start none) with
  | none =>
    rw [hsc] at h
    exact absurd h (by simp)
  | some start0 =>
    rw [hsc] at h
    dsimp only at h
    cases hwl : worklistLoop nfa (closureFuel nfa) (worklistFuel nfa)
        { ctx := (Context.new.getState start0).2, table := [],
          waiting := [start0], visited := [] } with
    | none =>
      rw [hwl] at h
      exact absurd h (by simp)
    | some stf =>
      rw [hwl] at h
      dsimp only at h
      injection h with hdfa
      subst hdfa
      have hwf0 : (Context.new.getState start0).2.WF :=
        Context.getState_WF Context.new_WF start0
      have hnd0 : ((Context.new.getState start0).2.stateMap.map
          Prod.fst).Nodup :=
        getState_keysNodup
          (show (Context.new.stateMap.map Prod.fst).Nodup from
            List.nodup_nil) start0
      have hgood0 : ∀ k ∈ (Context.new.getState start0).2.stateMap,
          ∃ l, k.1 = sortStates l ∧ (l = start0 ∨ GoodList nfa l) :=
        getState_keysGood (fun l => l = start0 ∨ GoodList nfa l)
          (fun k hk => absurd hk (List.not_mem_nil k)) (Or.inl rfl)
      have hwinv0 : WInv nfa start0
          ⟨(Context.new.getState start0).2, [], [start0], []⟩ := by
        refine ⟨hwf0, hnd0, hgood0, ?_, ?_⟩
        · intro v hv
          have hv2 : v ∈ [start0] := hv
          rcases List.mem_cons.mp hv2 with rfl | hv3
          · exact Or.inl rfl
          · exact absurd hv3 (List.not_mem_nil v)
        · intro i hi
          exact absurd (show i ∈ ([] : List Nat) from hi)
            (List.not_mem_nil i)
      have hcinv0 : CInv nfa
          ⟨(Context.new.getState start0).2, [], [start0], []⟩ := by
        constructor
        · intro id c tid hlk
          exact absurd (show (none : Option Nat) = some tid from hlk)
            (by simp)
        · intro id hid
          exact absurd (show id ∈ ([] : List Nat) from hid)
            (List.not_mem_nil id)
      have hsc0 : StartClause start0
          ⟨(Context.new.getState start0).2, [], [start0], []⟩ := by
        constructor
        · have h1 := getState_lookup_self Context.new start0
          rw [Context.new_getState_fst] at h1
          exact h1
        · right
          exact List.mem_cons_self _ _
      obtain ⟨hnil, hwinvf, hcinvf, hscf, hlef⟩ :=
        worklistLoop_CInv nfa start0 hnm (worklistFuel nfa)
          ⟨(Context.new.getState start0).2, [], [start0], []⟩ stf hwl
          hwinv0 hcinv0 hsc0
      have h0vis : 0 ∈ stf.visited := by
        rcases hscf.2 with h2 | h2
        · exact h2
        · rw [hnil] at h2
          exact absurd h2 (List.not_mem_nil _)
      have hLcl : EpsClosed nfa { x | x ∈ start0 } := by
        have hseteq : { x | x ∈ start0 } = epsReach nfa {nfa.start} := by
          ext y
          exact startClosure_sets hsc y
        rw [hseteq]
        exact epsReach_closed nfa _
      have hmain := matchLoop_correct nfa stf
        { start := (Context.new.getState start0).1,
          accepts := buildAccepts nfa stf.ctx, trans := stf.table }
        hwinvf.1 hcinvf hnil rfl rfl w 0 start0 hscf.1 h0vis hLcl
      have hms :
          ({ start := (Context.new.getState start0).1,
             accepts := buildAccepts nfa stf.ctx,
             trans := stf.table } : DFA).matches w = true ↔
          ∃ q ∈ start0, ∃ r ∈ nfa.accepts, NRun nfa q w r := hmain
      rw [hms]
      constructor
      · rintro ⟨q, hq, r, hr, hrun⟩
        have hq2 : q ∈ epsReach nfa {nfa.start} :=
          (startClosure_sets hsc q).mp hq
        obtain ⟨s0, hs0, hrun0⟩ := hq2
        rw [Set.mem_singleton_iff] at hs0
        subst hs0
        exact ⟨r, hr, NRun.trans hrun0 hrun⟩
      · rintro ⟨r, hr, hrun⟩
        have hstart : nfa.start ∈ start0 := by
          rw [startClosure_sets hsc]
          exact subset_epsReach nfa _ rfl
        exact ⟨nfa.start, hstart, r, hr, hrun⟩

/-- C1: round trip. For every pattern on which `Regex::new` returns `Ok` with
a compiled automaton (the parse produced the tree `node`) and every input
string `s`, `Regex::matches` returns `true` if and only if `s` is in the
language denoted by `node` under the semantics of spec section 4.1 (`lang`). -/
theorem c1_round_trip (pattern : List Char) (dfa : DFA) (node : Node)
    (look : Token) (rest : List Char)
    (hp : parsePattern pattern = PRes.res (Except.ok node) look rest)
    (hok : regexNew pattern = NewRes.ok dfa) (s : List Char) :
    (dfa.matches s = true ↔ lang node s) := by
  unfold regexNew at hok
  rw [hp] at hok
  dsimp only at hok
  cases hfn : fromNfa (fromNode node) with
  | none =>
    rw [hfn] at hok
    exact NewRes.noConfusion hok
  | some d =>
    rw [hfn] at hok
    dsimp only at hok
    injection hok with hd
    subst hd
    rw [fromNfa_correct (fromNode_NoMixed node) hfn s]
    exact fromNode_correct node s

/-- Witness for `c1_round_trip` on the pattern `"a"` and the input `"a"`:
the parse yields the tree `Character 97` and compilation yields the
two-state DFA `0 --a--> 1` accepting at `1`, which matches `"a"`, and `"a"`
is in the language of the tree. -/
theorem c1_witness :
    parsePattern ['a'] =
      PRes.res (Except.ok (Node.character 'a')) Token.endOfFile [] ∧
    regexNew ['a'] = NewRes.ok ⟨0, [1], [((0, 'a'), 1)]⟩ ∧
    ((DFA.mk 0 [1] [((0, 'a'), 1)]).matches ['a'] = true ↔
      lang (Node.character 'a') ['a']) :=
  ⟨rfl, rfl,
   c1_round_trip ['a'] ⟨0, [1], [((0, 'a'), 1)]⟩ (Node.character 'a')
     Token.endOfFile [] rfl rfl ['a']⟩

/-- C7: the matcher starts at the DFA's start state and agrees with the
contract of spec section 4.3 on every input; on each symbol it rejects
immediately when the transition is absent and otherwise steps to its target,
and at the end of the input it accepts iff the current state is accepting.
It is a total boolean function. -/
theorem c7_matches_contract (dfa : DFA) :
    (∀ text, dfa.matches text = specMatchRun dfa dfa.start text) ∧
    (∀ current, matchLoop dfa current [] = decide (current ∈ dfa.accepts)) ∧
    (∀ current c rest, matchLoop dfa current (c :: rest) =
      match dfa.nextState current c with
      | none => false
      | some q => matchLoop dfa q rest) := by
  refine ⟨fun text => matchLoop_eq_spec dfa dfa.start text, fun current => rfl, ?_⟩
  intro current c rest
  have hstep : matchLoop dfa current (c :: rest) =
      match dfa.nextState current c with
      | some state => matchLoop dfa state rest
      | none => false := rfl
  rw [hstep]
  cases dfa.nextState current c <;> rfl

end DfaRegex
